import Mathlib

/-! The interpreter toyforth.

A shallow embedding of `toyforth.c`, a small interpreter for a stack-based,
Forth-like language, and theorems about it.

Conventions of the embedding.

* A pointer to a `tfobj` is an index into the heap, a list of cells.  `malloc`
  appends a cell, `free` empties it; a released or missing cell cannot be read.
* A call that does not return to its caller yields a `Stop`: a failed `assert`,
  a call of `exit`, an invalid memory access, or the exhaustion of the
  iteration budget (`fuel`) of a loop or recursion that need not terminate.
* `int` arithmetic is two's complement on 32 bits (`wrap32`).
* A `char *` into the program text is an offset into `tfparser.text`, which
  holds the memory from `start` on; `end_` may lie before the end of that
  memory, and reading past the memory is an invalid access.
* The arithmetic of `tfdaReserve` on `size_t` is modulo 2^64 (`wrapSize`).
  Capacities, counts and reference counts are otherwise natural numbers and
  integers, and the size of an allocation request is taken not to wrap.
* Allocation never fails, and `stderr` is not recorded.
* A new block reads as zero as long as no block has been given back to the
  allocator: no object has been freed, and no buffer has been moved to a larger
  block by `realloc` (`hasReleased`; a `realloc` to the size a block already has
  returns that block). After that a new block may be a recycled one, and what
  it holds is not determined: a value read from it that the code never wrote is
  a `Stop.uninit`, and the embedding follows the run no further.
-/

namespace ToyForth

/-! ## Outcomes -/

/-- The ways in which a call fails to return to its caller. -/
inductive Stop where
  /-- An `assert` failed. -/
  | assertion (site : String)
  /-- The code called `exit` after printing `message`. -/
  | exit (code : Nat) (message : String)
  /-- Undefined behaviour that stops the process: an invalid memory access (the
  header of a null buffer, a slot outside a buffer, a byte past the text
  memory, a released object) or an integer division by zero. -/
  | fault (site : String)
  /-- The iteration budget ran out. -/
  | fuel
  /-- The code is left with a value that it never wrote and that a recycled
  block need not hold as zero (the count of a first allocation): what the run
  does from there on is not determined by the program. -/
  | uninit (site : String)
  deriving DecidableEq, Repr

/-- Equality of outcomes can be decided, so that a run on a concrete input can
be compared with its expected result by evaluation. -/
instance {ε α : Type} [DecidableEq ε] [DecidableEq α] : DecidableEq (Except ε α) := fun a b =>
  match a, b with
  | .ok x, .ok y =>
    if h : x = y then isTrue (by rw [h]) else isFalse (fun h2 => by cases h2; exact h rfl)
  | .error x, .error y =>
    if h : x = y then isTrue (by rw [h]) else isFalse (fun h2 => by cases h2; exact h rfl)
  | .ok _, .error _ => isFalse (fun h => by cases h)
  | .error _, .ok _ => isFalse (fun h => by cases h)

/-! ## Machine integers and `<ctype.h>` -/

/-- Reduction of an integer to the range of a 32-bit `int`. -/
@[irreducible] def wrap32 (x : Int) : Int := (x + 2147483648) % 4294967296 - 2147483648

/-- Reduction of a size to the range of a 64-bit `size_t`. -/
@[irreducible] def wrapSize (n : Nat) : Nat := n % 18446744073709551616

/-- The operands on which the division of two `int` is undefined and stops the
process: a zero divisor, and the one quotient that does not fit 32 bits. -/
def divUndefined (x y : Int) : Bool := y = 0 || (x = -2147483648 && y = -1)

/-- The C-locale `isdigit`. -/
def isdigit (c : Char) : Bool := 48 ≤ c.toNat && c.toNat ≤ 57

/-- The C-locale `isspace`: space, and `\t \n \v \f \r`. -/
def isspace (c : Char) : Bool := c.toNat = 32 || (9 ≤ c.toNat && c.toNat ≤ 13)

/-- The C-locale `isalnum`. -/
def isalnum (c : Char) : Bool :=
  (48 ≤ c.toNat && c.toNat ≤ 57) || (65 ≤ c.toNat && c.toNat ≤ 90) ||
    (97 ≤ c.toNat && c.toNat ≤ 122)

/-- The C-locale `ispunct`: printable, neither space nor alphanumeric. -/
def ispunct (c : Char) : Bool :=
  (33 ≤ c.toNat && c.toNat ≤ 47) || (58 ≤ c.toNat && c.toNat ≤ 64) ||
    (91 ≤ c.toNat && c.toNat ≤ 96) || (123 ≤ c.toNat && c.toNat ≤ 126)

/-! ## Dynamic array -/

/-- A dynamic array: the header (`count` is the length of `elems`, `capacity`)
and the first `count` slots of the payload. A null handle is `none`. -/
structure tfda (α : Type) where
  capacity : Nat
  elems : List α
  deriving DecidableEq, Repr

def TFDA_INIT_CAP : Nat := 256

/-- The header access of `tfdaCount`: a null handle has no header to read. -/
def tfdaCount {α : Type} (da : Option (tfda α)) : Except Stop Nat :=
  match da with
  | some d => .ok d.elems.length
  | none => .error (.fault "tfdaCount")

/-- The loop `while(newcap < reserve) newcap *= 2;` of `tfdaReserve`, on
`size_t`. A 64-bit value doubled 64 times is 0, and stays 0: a loop that has not
ended within the budget of 64 that `tfdaReserve` gives it never ends. -/
def growCapacity : Nat → Nat → Nat → Except Stop Nat
  | 0, newcap, reserve => if newcap < reserve then .error .fuel else .ok newcap
  | fuel + 1, newcap, reserve =>
    if newcap < reserve then growCapacity fuel (wrapSize (newcap * 2)) reserve else .ok newcap

/-- The function `tfdaReserve`; `recycled` tells whether a block has been given
back to the allocator before the call. The sums and the doubling are those of
`size_t`. The code writes the capacity into the header and never the count: the
count of a first allocation is what the new block holds, 0 in a block that is
not a recycled one, and not determined otherwise. The element size only enters
the size of the request; `len`, a `size_t`, is a number below 2^64. -/
def tfdaReserve {α : Type} (recycled : Bool) (da : Option (tfda α)) (_tsize len : Nat) :
    Except Stop (tfda α) :=
  match da with
  | some d =>
    if d.capacity > wrapSize (d.elems.length + len) then .ok d
    else do
      let newcap ← growCapacity 64 d.capacity (wrapSize (len + d.elems.length))
      .ok { d with capacity := newcap }
  | none => do
    let newcap ← growCapacity 64 TFDA_INIT_CAP len
    if recycled then .error (.uninit "tfdaReserve") else .ok { capacity := newcap, elems := [] }

/-- The function `tfdaStringCat`. -/
def tfdaStringCat (recycled : Bool) (da : Option (tfda Char)) (s : List Char) (len : Nat) :
    Except Stop (tfda Char) := do
  let d ← tfdaReserve recycled da 1 len
  .ok { d with elems := d.elems ++ s.take len }

/-! ## Objects -/

inductive tftype where
  | INT | BOOL | STR | LIST | SYMBOL
  deriving DecidableEq, Repr

/-- The union of a `tfobj` together with its tag. A string or symbol is the
run of `len` characters at `ptr`; a list is a handle to a dynamic array of
object addresses. -/
inductive tfdata where
  | int (i : Int)
  | bool (i : Int)
  | str (s : List Char)
  | list (l : Option (tfda Nat))
  | symbol (s : List Char)
  deriving DecidableEq, Repr

structure tfobj where
  refcount : Int
  data : tfdata
  deriving DecidableEq, Repr

def tfobj.type (o : tfobj) : tftype :=
  match o.data with
  | .int _ => .INT
  | .bool _ => .BOOL
  | .str _ => .STR
  | .list _ => .LIST
  | .symbol _ => .SYMBOL

/-- The heap: cell `a` holds the object at address `a`, or nothing once it has
been released. -/
abbrev Heap := List (Option tfobj)

/-- Read the object at an address. -/
def load (h : Heap) (a : Nat) : Except Stop tfobj :=
  match h[a]? with
  | some (some o) => .ok o
  | _ => .error (.fault "load")

/-- Write the object at an address. -/
def store (h : Heap) (a : Nat) (o : tfobj) : Heap := h.set a (some o)

/-- The function `createObject`, followed by the write of the union. -/
def createObject (h : Heap) (d : tfdata) : Heap × Nat :=
  (h ++ [some { refcount := 1, data := d }], h.length)

def createIntObject (h : Heap) (i : Int) : Heap × Nat := createObject h (.int i)

def createBoolObject (h : Heap) (i : Int) : Heap × Nat := createObject h (.bool i)

def createStringObject (h : Heap) (s : List Char) : Heap × Nat := createObject h (.str s)

def createSymbolObject (h : Heap) (s : List Char) : Heap × Nat := createObject h (.symbol s)

def createListObject (h : Heap) : Heap × Nat := createObject h (.list none)

/-- Whether a block has been given back to the allocator, as the heap shows
it: a cell has been released (`free` of an Integer or a Boolean), or the buffer
of a List no longer has the capacity of its first allocation (`realloc` has
moved it to a larger block). -/
def hasReleased (h : Heap) : Bool :=
  h.any fun c =>
    match c with
    | none => true
    | some o =>
      match o.data with
      | .list (some da) => da.capacity != TFDA_INIT_CAP
      | _ => false

/-- The function `listAppendObject`. -/
def listAppendObject (h : Heap) (parent val : Nat) : Except Stop Heap := do
  let p ← load h parent
  match p.data with
  | .list l =>
    let da ← tfdaReserve (hasReleased h) l 24 1
    let h1 := store h parent { p with data := .list (some { da with elems := da.elems ++ [val] }) }
    let v ← load h1 val
    .ok (store h1 val { v with refcount := v.refcount + 1 })
  | _ => .error (.assertion "listAppendObject")

/-- The function `listGetObject`. -/
def listGetObject (h : Heap) (parent index : Nat) : Except Stop (Heap × Nat) := do
  let p ← load h parent
  match p.data with
  | .list l =>
    match l with
    | none => .error (.fault "tfdaCount")
    | some da =>
      if da.elems.length > 0 then
        match da.elems[index]? with
        | some ret => do
          let r ← load h ret
          .ok (store h ret { r with refcount := r.refcount + 1 }, ret)
        | none => .error (.fault "listGetObject")
      else .error (.assertion "listGetObject")
  | _ => .error (.assertion "listGetObject")

/-- The function `listPopObject`. -/
def listPopObject (h : Heap) (parent : Nat) : Except Stop (Heap × Nat) := do
  let p ← load h parent
  match p.data with
  | .list l =>
    match l with
    | none => .error (.fault "tfdaCount")
    | some da =>
      match da.elems.getLast? with
      | some ret => .ok (store h parent { p with data := .list (some { da with elems := da.elems.dropLast }) }, ret)
      | none => .error (.assertion "listPopObject")
  | _ => .error (.assertion "listPopObject")

/-- The function `freeObject`; `deref` stands for `derefObject`, with which it
is mutually recursive. The list case releases neither the buffer nor the list
object itself. -/
def freeObject (deref : Heap → Nat → Except Stop Heap) (h : Heap) (o : Nat) :
    Except Stop Heap := do
  let obj ← load h o
  match obj.data with
  | .int _ => .ok (h.set o none)
  | .bool _ => .ok (h.set o none)
  | .list l =>
    match l with
    | none => .error (.fault "tfdaCount")
    | some da => da.elems.foldlM deref h
  | _ => .error (.exit 0 "Not handled values")

/-- The function `derefObject`. One unit of fuel is spent per level of
recursion through `freeObject`. -/
def derefObject : Nat → Heap → Nat → Except Stop Heap
  | 0, _, _ => .error .fuel
  | fuel + 1, h, o => do
    let obj ← load h o
    if obj.refcount > 0 then
      let h1 := store h o { obj with refcount := obj.refcount - 1 }
      if obj.refcount - 1 = 0 then freeObject (derefObject fuel) h1 o else .ok h1
    else .error (.assertion "derefObject")

/-- A budget that covers every chain of nested releases in the heap: an object
is released at most once. -/
def derefFuel (h : Heap) : Nat := h.length + 1

/-- The text written by `printf("%d")`. -/
def printInt (i : Int) : List Char := (Int.repr i).toList

/-- The function `printObject`, returning the text written to `stdout`. -/
def printObject : Nat → Heap → Nat → Nat → Except Stop (List Char)
  | 0, _, _, _ => .error .fuel
  | fuel + 1, h, obj, indent => do
    let o ← load h obj
    let pad := List.replicate indent ' '
    match o.data with
    | .int i => .ok (pad ++ printInt i ++ ['\n'])
    | .bool i => .ok (pad ++ printInt i ++ ['\n'])
    | .str s => .ok (pad ++ s ++ ['\n'])
    | .list l =>
      match l with
      | none => .error (.fault "tfdaCount")
      | some da => do
        let body ← da.elems.foldlM
          (fun acc e => do
            let t ← printObject fuel h e (indent + 2)
            .ok (acc ++ t)) []
        .ok (pad ++ ['[', '\n'] ++ body ++ pad ++ [']', '\n'])
    | .symbol _ => .error (.exit 1 "printOperation: invalid type value")

/-! ## The evaluation context -/

/-- The memory of a run: the heap and the text written to `stdout`. -/
structure Machine where
  heap : Heap
  out : List Char
  deriving DecidableEq, Repr

structure tfctx where
  stack : Nat
  deriving DecidableEq, Repr

/-! ## Operations of the symbols -/

/-- The common body of `addOperation` .. `greaterOperation`, which differ in
the name in the assertion and in the value computed. -/
def binaryOperation (site : String) (result : Int → Int → Except Stop tfdata)
    (m : Machine) (ctx : tfctx) : Except Stop Machine := do
  let (h, op2) ← listPopObject m.heap ctx.stack
  let (h, op1) ← listPopObject h ctx.stack
  let o1 ← load h op1
  let o2 ← load h op2
  match o1.data, o2.data with
  | .int x, .int y =>
    let d ← result x y
    let (h, r) := createObject h d
    let h ← listAppendObject h ctx.stack r
    let h ← derefObject (derefFuel h) h r
    let h ← derefObject (derefFuel h) h op1
    let h ← derefObject (derefFuel h) h op2
    .ok { m with heap := h }
  | _, _ => .error (.assertion site)

def addOperation : Machine → tfctx → Except Stop Machine :=
  binaryOperation "addOperation" (fun x y => .ok (.int (wrap32 (x + y))))

def subOperation : Machine → tfctx → Except Stop Machine :=
  binaryOperation "subOperation" (fun x y => .ok (.int (wrap32 (x - y))))

def mulOperation : Machine → tfctx → Except Stop Machine :=
  binaryOperation "mulOperation" (fun x y => .ok (.int (wrap32 (x * y))))

/-- The function `divOperation`: C division truncates toward zero; where it is
undefined (`divUndefined`) the process stops. -/
def divOperation : Machine → tfctx → Except Stop Machine :=
  binaryOperation "divOperation" (fun x y =>
    if divUndefined x y then .error (.fault "divOperation")
    else .ok (.int (wrap32 (Int.tdiv x y))))

def lessOperation : Machine → tfctx → Except Stop Machine :=
  binaryOperation "lessOperation" (fun x y => .ok (.bool (if x < y then 1 else 0)))

def greaterOperation : Machine → tfctx → Except Stop Machine :=
  binaryOperation "greaterOperation" (fun x y => .ok (.bool (if x > y then 1 else 0)))

def dupOperation (m : Machine) (ctx : tfctx) : Except Stop Machine := do
  let (h, obj) ← listPopObject m.heap ctx.stack
  let h ← listAppendObject h ctx.stack obj
  let h ← listAppendObject h ctx.stack obj
  let h ← derefObject (derefFuel h) h obj
  .ok { m with heap := h }

def swapOperation (m : Machine) (ctx : tfctx) : Except Stop Machine := do
  let (h, obj1) ← listPopObject m.heap ctx.stack
  let (h, obj2) ← listPopObject h ctx.stack
  let h ← listAppendObject h ctx.stack obj1
  let h ← listAppendObject h ctx.stack obj2
  let h ← derefObject (derefFuel h) h obj1
  let h ← derefObject (derefFuel h) h obj2
  .ok { m with heap := h }

def rotOperation (m : Machine) (ctx : tfctx) : Except Stop Machine := do
  let (h, obj3) ← listPopObject m.heap ctx.stack
  let (h, obj2) ← listPopObject h ctx.stack
  let (h, obj1) ← listPopObject h ctx.stack
  let h ← listAppendObject h ctx.stack obj2
  let h ← listAppendObject h ctx.stack obj3
  let h ← listAppendObject h ctx.stack obj1
  let h ← derefObject (derefFuel h) h obj1
  let h ← derefObject (derefFuel h) h obj2
  let h ← derefObject (derefFuel h) h obj3
  .ok { m with heap := h }

def overOperation (m : Machine) (ctx : tfctx) : Except Stop Machine := do
  let (h, obj2) ← listPopObject m.heap ctx.stack
  let (h, obj1) ← listPopObject h ctx.stack
  let h ← listAppendObject h ctx.stack obj1
  let h ← listAppendObject h ctx.stack obj2
  let h ← listAppendObject h ctx.stack obj1
  let h ← derefObject (derefFuel h) h obj1
  let h ← derefObject (derefFuel h) h obj2
  .ok { m with heap := h }

def dropOperation (m : Machine) (ctx : tfctx) : Except Stop Machine := do
  let (h, obj) ← listPopObject m.heap ctx.stack
  let h ← derefObject (derefFuel h) h obj
  .ok { m with heap := h }

/-- The function `printOperation`; the indentation budget of `printObject` is
the size of the heap, which bounds the nesting of a list. -/
def printOperation (m : Machine) (ctx : tfctx) : Except Stop Machine := do
  let (h, obj) ← listPopObject m.heap ctx.stack
  let text ← printObject (derefFuel h) h obj 0
  let h ← derefObject (derefFuel h) h obj
  .ok { heap := h, out := m.out ++ text }

/-- The functions a symbol can stand for. -/
inductive tfsymop_function where
  | addOperation | subOperation | mulOperation | divOperation
  | lessOperation | greaterOperation | ifOperation | dupOperation
  | rotOperation | overOperation | swapOperation | dropOperation
  | printOperation
  deriving DecidableEq, Repr

structure tfsymop_entry where
  str : List Char
  len : Nat
  func : tfsymop_function
  deriving DecidableEq, Repr

/-- The table `tfsymop`. -/
def tfsymop : List tfsymop_entry :=
  [ { str := ['+'], len := 1, func := .addOperation },
    { str := ['-'], len := 1, func := .subOperation },
    { str := ['*'], len := 1, func := .mulOperation },
    { str := ['/'], len := 1, func := .divOperation },
    { str := ['<'], len := 1, func := .lessOperation },
    { str := ['>'], len := 1, func := .greaterOperation },
    { str := ['i', 'f'], len := 2, func := .ifOperation },
    { str := ['d', 'u', 'p'], len := 3, func := .dupOperation },
    { str := ['r', 'o', 't'], len := 3, func := .rotOperation },
    { str := ['o', 'v', 'e', 'r'], len := 4, func := .overOperation },
    { str := ['s', 'w', 'a', 'p'], len := 4, func := .swapOperation },
    { str := ['d', 'r', 'o', 'p'], len := 4, func := .dropOperation },
    { str := ['p', 'r', 'i', 'n', 't'], len := 5, func := .printOperation } ]

/-- The function `searchSymbolOperation`: the first entry of the same length
whose first `len` characters agree with the symbol. -/
def searchSymbolOperation (obj : tfobj) : Except Stop tfsymop_function :=
  match obj.data with
  | .symbol s =>
    match tfsymop.find? (fun e => s.length == e.len && s == e.str.take s.length) with
    | some e => .ok e.func
    | none => .error (.exit 1 "ERROR: searchSymbolOperation: Unrecognized symbol")
  | _ => .error (.assertion "searchSymbolOperation")

/-! ## Parser -/

/-- The parser: `text` is the memory from `start` on, `end_` and `p` are
offsets into it. -/
structure tfparser where
  text : List Char
  end_ : Nat
  p : Nat
  deriving DecidableEq, Repr

/-- The read `*parser->p`: the first character of the memory from `p` on. -/
def peek (parser : tfparser) : Except Stop Char :=
  match parser.text.drop parser.p with
  | c :: _ => .ok c
  | [] => .error (.fault "parser")

/-- The loop of `parserTrimLeft` over the memory from `p` on. -/
def trimLeft : List Char → Nat → Nat → Except Stop Nat
  | [], end_, p => if p < end_ then .error (.fault "parser") else .ok p
  | c :: cs, end_, p => if p < end_ && isspace c then trimLeft cs end_ (p + 1) else .ok p

/-- The function `parserTrimLeft`. -/
def parserTrimLeft (parser : tfparser) : Except Stop tfparser := do
  let p ← trimLeft (parser.text.drop parser.p) parser.end_ parser.p
  .ok { parser with p := p }

def issymbolStart (c : Char) : Bool := isalnum c || c = '_'

/-- The loop `while(isdigit(*p)) { num = num*10 + *p - '0'; p++; }` over the
memory from `p` on; it is not bounded by `end`. -/
def scanDigits : List Char → Int → Nat → Except Stop (Int × Nat)
  | [], _, _ => .error (.fault "parser")
  | c :: cs, num, p =>
    if isdigit c then scanDigits cs (wrap32 (num * 10 + c.toNat - 48)) (p + 1)
    else .ok (num, p)

/-- The loop `while(isalnum(*p) || ispunct(*p)) p++;` over the memory from `p`
on; it is not bounded by `end`. -/
def scanSymbol : List Char → Nat → Except Stop Nat
  | [], _ => .error (.fault "parser")
  | c :: cs, p => if isalnum c || ispunct c then scanSymbol cs (p + 1) else .ok p

/-- The free-form token branch of `parseObject`, entered when `*p` can start a
symbol. `strncmp(saved_point, "true", 4) == 0` holds when the four characters
at `saved_point` are those of `true`. -/
def parseSymbol (parser : tfparser) (h : Heap) :
    Except Stop (Option Nat × tfparser × Heap) := do
  let saved_point := parser.p
  let p ← scanSymbol (parser.text.drop parser.p) parser.p
  let c ← peek { parser with p := p }
  if !isspace c then .ok (none, { parser with p := saved_point }, h)
  else if (parser.text.drop saved_point).take 4 = ['t', 'r', 'u', 'e'] then
    let (h, o) := createBoolObject h 1
    .ok (some o, { parser with p := p }, h)
  else if (parser.text.drop saved_point).take 5 = ['f', 'a', 'l', 's', 'e'] then
    let (h, o) := createBoolObject h 0
    .ok (some o, { parser with p := p }, h)
  else
    let (h, o) := createSymbolObject h ((parser.text.drop saved_point).take (p - saved_point))
    .ok (some o, { parser with p := p }, h)

mutual

/-- The function `parseObject`; `none` is the `NULL` result. -/
def parseObject : Nat → tfparser → Heap → Except Stop (Option Nat × tfparser × Heap)
  | 0, _, _ => .error .fuel
  | fuel + 1, parser, h => do
    let parser ← parserTrimLeft parser
    if parser.p ≥ parser.end_ then .ok (none, parser, h)
    else
      let c ← peek parser
      if isdigit c then
        let saved_point := parser.p
        let (num, p) ← scanDigits (parser.text.drop parser.p) 0 parser.p
        let c ← peek { parser with p := p }
        if !isspace c then .ok (none, { parser with p := saved_point }, h)
        else
          let (h, o) := createIntObject h num
          .ok (some o, { parser with p := p }, h)
      else if c = '[' then
        let (h, list) := createListObject h
        let (parser, h) ← parseListItems fuel { parser with p := parser.p + 1 } h list
        let parser ← parserTrimLeft parser
        let c ← peek parser
        if c ≠ ']' then .error (.exit 1 "ERROR: not a valid list type")
        else .ok (some list, { parser with p := parser.p + 1 }, h)
      else
        match tfsymop.find? (fun e => parser.p + e.len < parser.end_ &&
            (parser.text.drop parser.p).take e.len == e.str) with
        | some e =>
          let (h, o) := createSymbolObject h ((parser.text.drop parser.p).take e.len)
          .ok (some o, { parser with p := parser.p + e.len }, h)
        | none =>
          if issymbolStart c then parseSymbol parser h
          else .error (.exit 0 "TODO: parseObject: handle other types")
termination_by structural fuel => fuel

/-- The loop `while(parser->p < parser->end && *parser->p != ']')` of the list
branch of `parseObject`. -/
def parseListItems : Nat → tfparser → Heap → Nat → Except Stop (tfparser × Heap)
  | 0, _, _, _ => .error .fuel
  | fuel + 1, parser, h, list =>
    if parser.p < parser.end_ then do
      let c ← peek parser
      if c ≠ ']' then
        let parser ← parserTrimLeft parser
        let c ← peek parser
        if c = ']' then .ok (parser, h)
        else
          let (obj, parser, h) ← parseObject fuel parser h
          match obj with
          | some o => do
            let h ← listAppendObject h list o
            let h ← derefObject (derefFuel h) h o
            parseListItems fuel parser h list
          | none => parseListItems fuel parser h list
      else .ok (parser, h)
    else .ok (parser, h)
termination_by structural fuel => fuel

end

/-- The loop of `compile`. -/
def compileLoop : Nat → tfparser → Heap → Nat → Except Stop Heap
  | 0, _, _, _ => .error .fuel
  | fuel + 1, parser, h, prg =>
    if parser.p < parser.end_ then do
      let (obj, parser, h) ← parseObject fuel parser h
      match obj with
      | some o => do
        let h ← listAppendObject h prg o
        let h ← derefObject (derefFuel h) h o
        compileLoop fuel parser h prg
      | none => compileLoop fuel parser h prg
    else .ok h

/-- The function `compile` on the text memory `prgtext`, of which the first
`len` characters are the program; it returns the heap and the program. -/
def compile (fuel : Nat) (h : Heap) (prgtext : List Char) (len : Nat) :
    Except Stop (Heap × Nat) := do
  let (h, prg) := createListObject h
  let h ← compileLoop fuel { text := prgtext, end_ := len, p := 0 } h prg
  .ok (h, prg)

/-! ## Evaluation -/

mutual

/-- The function `ifOperation`. -/
def ifOperation : Nat → Machine → tfctx → Except Stop Machine
  | 0, _, _ => .error .fuel
  | fuel + 1, m, ctx => do
    let (h, then_) ← listPopObject m.heap ctx.stack
    let (h, cond) ← listPopObject h ctx.stack
    let c ← load h cond
    let (m, cond) ←
      match c.data with
      | .list _ => do
        let m ← evalList fuel { m with heap := h } ctx cond
        let h ← derefObject (derefFuel m.heap) m.heap cond
        let (h, cond) ← listPopObject h ctx.stack
        .ok ({ m with heap := h }, cond)
      | _ => .ok ({ m with heap := h }, cond)
    let c ← load m.heap cond
    match c.data with
    | .bool i =>
      let t ← load m.heap then_
      match t.data with
      | .list _ => do
        let m ← if i ≠ 0 then evalList fuel m ctx then_ else .ok m
        let h ← derefObject (derefFuel m.heap) m.heap cond
        let h ← derefObject (derefFuel h) h then_
        .ok { m with heap := h }
      | _ => .error (.assertion "ifOperation: then")
    | _ => .error (.assertion "ifOperation: cond")
termination_by structural fuel => fuel

/-- The function `eval`. -/
def eval : Nat → Machine → tfctx → Nat → Except Stop Machine
  | 0, _, _, _ => .error .fuel
  | fuel + 1, m, ctx, obj => do
    let o ← load m.heap obj
    match o.data with
    | .list _ | .int _ | .bool _ => do
      let h ← listAppendObject m.heap ctx.stack obj
      .ok { m with heap := h }
    | .symbol _ => do
      let func ← searchSymbolOperation o
      match func with
      | .addOperation => addOperation m ctx
      | .subOperation => subOperation m ctx
      | .mulOperation => mulOperation m ctx
      | .divOperation => divOperation m ctx
      | .lessOperation => lessOperation m ctx
      | .greaterOperation => greaterOperation m ctx
      | .ifOperation => ifOperation fuel m ctx
      | .dupOperation => dupOperation m ctx
      | .rotOperation => rotOperation m ctx
      | .overOperation => overOperation m ctx
      | .swapOperation => swapOperation m ctx
      | .dropOperation => dropOperation m ctx
      | .printOperation => printOperation m ctx
    | .str _ => .error (.exit 1 "ERROR: value not handled")
termination_by structural fuel => fuel

/-- The function `evalList`. -/
def evalList : Nat → Machine → tfctx → Nat → Except Stop Machine
  | 0, _, _, _ => .error .fuel
  | fuel + 1, m, ctx, l => evalListFrom fuel m ctx l 0
termination_by structural fuel => fuel

/-- The loop of `evalList` from index `i` on; the count is read anew at each
turn. -/
def evalListFrom : Nat → Machine → tfctx → Nat → Nat → Except Stop Machine
  | 0, _, _, _, _ => .error .fuel
  | fuel + 1, m, ctx, l, i => do
    let lo ← load m.heap l
    match lo.data with
    | .list da => do
      let count ← tfdaCount da
      if i < count then
        let (h, obj) ← listGetObject m.heap l i
        let m ← eval fuel { m with heap := h } ctx obj
        let h ← derefObject (derefFuel m.heap) m.heap obj
        evalListFrom fuel { m with heap := h } ctx l (i + 1)
      else .ok m
    | _ => .error (.fault "evalList")
termination_by structural fuel => fuel

end

/-- The function `exec`, returning the memory and the context it ends with. -/
def exec (fuel : Nat) (m : Machine) (prg : Nat) : Except Stop (Machine × tfctx) := do
  let (h, stack) := createListObject m.heap
  let ctx : tfctx := { stack := stack }
  let p ← load h prg
  match p.data with
  | .list _ => do
    let m ← evalList fuel { m with heap := h } ctx prg
    .ok (m, ctx)
  | _ => .error (.assertion "exec")

/-- The calls `compile` and `exec` of `main`, from an empty heap. -/
def run (fuel : Nat) (prgtext : List Char) (len : Nat) : Except Stop (Machine × tfctx) := do
  let (h, prg) ← compile fuel [] prgtext len
  exec fuel { heap := h, out := [] } prg

/-- The addresses held by the list object at `a`, bottom first. -/
def listElems (h : Heap) (a : Nat) : Option (List Nat) :=
  match h[a]? with
  | some (some { refcount := _, data := .list (some da) }) => some da.elems
  | some (some { refcount := _, data := .list none }) => some []
  | _ => none

/-! ## Notions used in the statements -/

/-- The value accumulated by the digit loop of `parseObject` from `num` on. -/
def digitsFrom (num : Int) : List Char → Int
  | [] => num
  | d :: ds => digitsFrom (wrap32 (num * 10 + d.toNat - 48)) ds

/-- The value of a decimal digit. -/
@[irreducible] def digitValue (d : Char) : Nat := d.toNat - 48

/-- The number a run of decimal digits denotes, read from `n` on. -/
def decimalFrom (n : Nat) : List Char → Nat
  | [] => n
  | d :: ds => decimalFrom (n * 10 + digitValue d) ds

/-- The number a run of decimal digits denotes. -/
def decimalValue (ds : List Char) : Nat := decimalFrom 0 ds

/-- The data of the object at an address. -/
def dataAt (h : Heap) (a : Nat) : Option tfdata :=
  match h[a]? with
  | some (some o) => some o.data
  | _ => none

/-- The data of the objects at a list of addresses. -/
def dataAll (h : Heap) : List Nat → Option (List tfdata)
  | [] => some []
  | a :: as =>
    match dataAt h a, dataAll h as with
    | some d, some ds => some (d :: ds)
    | _, _ => none

/-- The data of the objects held by the list at `a`, bottom first. -/
def listData (h : Heap) (a : Nat) : Option (List tfdata) :=
  match listElems h a with
  | some es => dataAll h es
  | none => none

/-- The values on the stack a run ends with, bottom first. -/
def runStackOf (r : Except Stop (Machine × tfctx)) : Except Stop (List tfdata) := do
  let (m, ctx) ← r
  match listData m.heap ctx.stack with
  | some ds => .ok ds
  | none => .error (.fault "stack")

/-- The values on the stack at the end of `run`, bottom first. -/
def runStack (fuel : Nat) (prgtext : List Char) (len : Nat) : Except Stop (List tfdata) :=
  runStackOf (run fuel prgtext len)

/-- The value the arithmetic and comparison operators are to push for the
operands `x` (deeper) and `y` (top), with results reduced to 32 bits: `none`
where the division is undefined, and for the functions that are not one of the
six. -/
def binaryValue : tfsymop_function → Int → Int → Option tfdata
  | .addOperation, x, y => some (.int (wrap32 (x + y)))
  | .subOperation, x, y => some (.int (wrap32 (x - y)))
  | .mulOperation, x, y => some (.int (wrap32 (x * y)))
  | .divOperation, x, y =>
    if divUndefined x y then none else some (.int (wrap32 (Int.tdiv x y)))
  | .lessOperation, x, y => some (.bool (if x < y then 1 else 0))
  | .greaterOperation, x, y => some (.bool (if x > y then 1 else 0))
  | _, _, _ => none

/-- The cell at address `a` holds the object `o`. -/
def Holds (h : Heap) (a : Nat) (o : tfobj) : Prop := h[a]? = some (some o)

/-- The heap after `derefObject` on an Integer or Boolean of refcount `r`: the
count goes down by one, and the cell is released when it reaches zero. -/
def released (h : Heap) (a : Nat) (r : Int) (d : tfdata) : Heap :=
  if r = 1 then h.set a none else store h a ⟨r - 1, d⟩

/-- The code of the six arithmetic and comparison operators. -/
def binaryCode : tfsymop_function → Option (Machine → tfctx → Except Stop Machine)
  | .addOperation => some addOperation
  | .subOperation => some subOperation
  | .mulOperation => some mulOperation
  | .divOperation => some divOperation
  | .lessOperation => some lessOperation
  | .greaterOperation => some greaterOperation
  | _ => none

/-! ### Source texts of lists, and the values they denote -/

mutual

/-- The text of a value: a numeral `ds` followed by the whitespace `sep`; a
bracketed list, `[`, whitespace `lead`, the items, `]` and whitespace `trail`;
the name of an entry of the table followed by the whitespace `sep`; or `true`
or `false` followed by the whitespace `sep`. -/
inductive Src where
  | num (ds sep : List Char)
  | list (lead : List Char) (items : SrcList) (trail : List Char)
  | sym (ent : tfsymop_entry) (sep : List Char)
  | bool (b : Bool) (sep : List Char)

/-- The texts of the items of a list, in order. -/
inductive SrcList where
  | nil
  | cons (x : Src) (xs : SrcList)

end

/-- A value as a tree: what a heap object stands for, without addresses,
refcounts and capacities. -/
inductive Tree where
  | int (i : Int)
  | bool (i : Int)
  | str (s : List Char)
  | symbol (s : List Char)
  | list (items : List Tree)

/-- The letters of a Boolean literal. -/
def boolText (b : Bool) : List Char :=
  if b then ['t', 'r', 'u', 'e'] else ['f', 'a', 'l', 's', 'e']

mutual

/-- The characters of a value up to its last one: the digits, the brackets and
what they enclose, the name, or the letters of the literal. -/
def Src.core : Src → List Char
  | .num ds _ => ds
  | .list lead items _ => '[' :: (lead ++ (items.render ++ [']']))
  | .sym ent _ => ent.str
  | .bool b _ => boolText b

/-- The whitespace that follows a value. -/
def Src.sep : Src → List Char
  | .num _ sep => sep
  | .list _ _ trail => trail
  | .sym _ sep => sep
  | .bool _ sep => sep

/-- The characters of the items of a list, each with the whitespace after
it. -/
def SrcList.render : SrcList → List Char
  | .nil => []
  | .cons x xs => x.core ++ (x.sep ++ xs.render)

end

mutual

/-- Well-formed text: digits are digits and at least one, a name is that of an
entry of the table, whitespace is whitespace, and a numeral, a name and a
Boolean literal are followed by at least one whitespace character. -/
def Src.wf : Src → Prop
  | .num ds sep => ds ≠ [] ∧ (∀ d ∈ ds, isdigit d = true) ∧ sep ≠ [] ∧
      (∀ w ∈ sep, isspace w = true)
  | .list lead items trail => (∀ w ∈ lead, isspace w = true) ∧ items.wf ∧
      (∀ w ∈ trail, isspace w = true)
  | .sym ent sep => ent ∈ tfsymop ∧ sep ≠ [] ∧ (∀ w ∈ sep, isspace w = true)
  | .bool _ sep => sep ≠ [] ∧ (∀ w ∈ sep, isspace w = true)

def SrcList.wf : SrcList → Prop
  | .nil => True
  | .cons x xs => x.wf ∧ xs.wf

end

mutual

/-- The tree a text denotes: a numeral its decimal value on 32 bits, a list the
list of what its items denote, a name the Symbol of that name, `true` and
`false` the Booleans 1 and 0. -/
def Src.tree : Src → Tree
  | .num ds _ => .int (wrap32 (decimalValue ds))
  | .list _ items _ => .list items.trees
  | .sym ent _ => .symbol ent.str
  | .bool b _ => .bool (if b then 1 else 0)

def SrcList.trees : SrcList → List Tree
  | .nil => []
  | .cons x xs => x.tree :: xs.trees

end

mutual

/-- A budget that suffices to parse a text. -/
def Src.cost : Src → Nat
  | .num _ _ => 1
  | .list _ items _ => items.cost + 2
  | .sym _ _ => 1
  | .bool _ _ => 1

def SrcList.cost : SrcList → Nat
  | .nil => 1
  | .cons x xs => x.cost + xs.cost + 1

end

mutual

/-- The number of objects the parser creates for a text. -/
def Src.cells : Src → Nat
  | .num _ _ => 1
  | .list _ items _ => items.cells + 1
  | .sym _ _ => 1
  | .bool _ _ => 1

def SrcList.cells : SrcList → Nat
  | .nil => 0
  | .cons x xs => x.cells + xs.cells

end

/-- The addresses of the items of a list whose first item is created at `b`. -/
def SrcList.addrs : Nat → SrcList → List Nat
  | _, .nil => []
  | b, .cons x xs => b :: SrcList.addrs (b + x.cells) xs

/-- The buffer handle of a list after one more `listAppendObject`, as long as
no block has been given back to the allocator. -/
def appendHandle (l : Option (tfda Nat)) (a : Nat) : Option (tfda Nat) :=
  match tfdaReserve false l 24 1 with
  | .ok d => some { d with elems := d.elems ++ [a] }
  | .error _ => l

/-- The buffer handle of a list created empty to which the addresses `as` have
been appended in order. -/
def handleAfter (as : List Nat) : Option (tfda Nat) := as.foldl appendHandle none

mutual

/-- The objects the parser creates for a text, the first of them at `b`. -/
def Src.image : Nat → Src → Heap
  | _, .num ds _ => [some ⟨1, .int (digitsFrom 0 ds)⟩]
  | b, .list _ items _ =>
    some ⟨1, .list (handleAfter (SrcList.addrs (b + 1) items))⟩ :: SrcList.image (b + 1) items
  | _, .sym ent _ => [some ⟨1, .symbol ent.str⟩]
  | _, .bool b _ => [some ⟨1, .bool (if b then 1 else 0)⟩]

def SrcList.image : Nat → SrcList → Heap
  | _, .nil => []
  | b, .cons x xs => Src.image b x ++ SrcList.image (b + x.cells) xs

end

/-- The trees of the objects at a list of addresses, read by `f`. -/
def readAll (f : Nat → Option Tree) : List Nat → Option (List Tree)
  | [] => some []
  | a :: as =>
    match f a, readAll f as with
    | some t, some ts => some (t :: ts)
    | _, _ => none

/-- The tree of the object at an address: the value it stands for. A list
whose buffer handle is null reads as the empty list. -/
def readback : Nat → Heap → Nat → Option Tree
  | 0, _, _ => none
  | fuel + 1, h, a =>
    match h[a]? with
    | some (some o) =>
      match o.data with
      | .int i => some (.int i)
      | .bool i => some (.bool i)
      | .str s => some (.str s)
      | .symbol s => some (.symbol s)
      | .list none => some (.list [])
      | .list (some da) =>
        match readAll (readback fuel h) da.elems with
        | some ts => some (.list ts)
        | none => none
    | _ => none

mutual

/-- The nesting depth of a text. -/
def Src.depth : Src → Nat
  | .num _ _ => 1
  | .list _ items _ => items.depth + 1
  | .sym _ _ => 1
  | .bool _ _ => 1

def SrcList.depth : SrcList → Nat
  | .nil => 0
  | .cons x xs => max x.depth xs.depth

end

/-- The number of items of a list. -/
def SrcList.length : SrcList → Nat
  | .nil => 0
  | .cons _ xs => xs.length + 1

mutual

/-- Every list of the text holds fewer than 256 items: the buffer of its first
allocation has room for them, and parsing the text never calls `realloc` on a
buffer. -/
def Src.narrow : Src → Prop
  | .num _ _ => True
  | .list _ items _ => items.length < 256 ∧ items.narrow
  | .sym _ _ => True
  | .bool _ _ => True

def SrcList.narrow : SrcList → Prop
  | .nil => True
  | .cons x xs => x.narrow ∧ xs.narrow

end

/-- A value that is not a list: parsing it appends to no buffer. -/
def Src.atom : Src → Prop
  | .num _ _ => True
  | .list _ _ _ => False
  | .sym _ _ => True
  | .bool _ _ => True

/-- A sequence of values none of which is a list. -/
def SrcList.atoms : SrcList → Prop
  | .nil => True
  | .cons x xs => x.atom ∧ xs.atoms

/-- The text of `n` numerals `1`, each followed by a space. -/
def SrcList.ones : Nat → SrcList
  | 0 => .nil
  | n + 1 => .cons (.num ['1'] [' ']) (SrcList.ones n)

/-- The capacity of a buffer of `n` elements is one the code gives it: the
buffer holds its elements, and its capacity is 256 or has been doubled from a
full buffer. -/
def Fits (cap n : Nat) : Prop := n ≤ cap ∧ 0 < cap ∧ cap ≤ 256 + 2 * n

/-- The characters after its last one that a value needs before the end of the
text: a name of the table is recognised only in front of one more character. -/
def Src.slack : Src → Nat
  | .sym _ _ => 1
  | _ => 0

/-- What parsing a value is to yield, in a heap that shows no block given
back to the allocator, or in any heap for a value that is not a list: from a
cursor in front of optional whitespace and the text, the object is created at
the end of the heap, the cursor ends after the last character of the value, and
the heap grows by the image of the text. -/
def ParsesTo (x : Src) : Prop :=
  x.wf → x.narrow →
    ∀ (fuel : Nat) (text : List Char) (e p : Nat) (h : Heap) (ws rest : List Char),
    x.cost ≤ fuel → text.drop p = ws ++ (x.core ++ (x.sep ++ rest)) →
    (∀ w ∈ ws, isspace w = true) → p + ws.length + x.core.length + x.slack ≤ e →
    (hasReleased h = false ∨ x.atom) →
    parseObject fuel ⟨text, e, p⟩ h =
      .ok (some h.length, ⟨text, e, p + ws.length + x.core.length⟩, h ++ x.image h.length)

/-- What the loop over the items of a list is to yield, for the list object at
`h0.length` holding the addresses `done` and the objects `blocks` created
since. -/
def ItemsParseTo (xs : SrcList) : Prop :=
  xs.wf → xs.narrow →
    ∀ (fuel : Nat) (text : List Char) (e p : Nat) (h0 : Heap) (done : List Nat)
    (blocks : Heap) (ws rest : List Char),
    xs.cost ≤ fuel → text.drop p = ws ++ (xs.render ++ ']' :: rest) →
    (∀ w ∈ ws, isspace w = true) → p + ws.length + xs.render.length ≤ e →
    done.length + xs.length < 256 → hasReleased h0 = false → hasReleased blocks = false →
    parseListItems fuel ⟨text, e, p⟩ (h0 ++ some ⟨1, .list (handleAfter done)⟩ :: blocks)
        h0.length =
      .ok (⟨text, e, p + ws.length + xs.render.length⟩,
        h0 ++ some ⟨1, .list (handleAfter (done ++ xs.addrs (h0.length + 1 + blocks.length)))⟩ ::
          (blocks ++ xs.image (h0.length + 1 + blocks.length)))

/-- The image of a text, wherever it lies in a heap, reads back as its tree. -/
def ReadsBack (x : Src) : Prop :=
  x.wf → x.narrow → ∀ (pre post : Heap) (k : Nat), x.depth ≤ k →
    readback k (pre ++ (x.image pre.length ++ post)) pre.length = some x.tree

/-- The images of the items of a list read back as their trees. -/
def ItemsReadBack (xs : SrcList) : Prop :=
  xs.wf → xs.narrow → ∀ (pre post : Heap) (k : Nat), xs.depth ≤ k →
    readAll (readback k (pre ++ (xs.image pre.length ++ post))) (xs.addrs pre.length) =
      some xs.trees

/-- The data of the elements of the program `compile` makes of a text, in
order. -/
def compiledData (fuel : Nat) (prgtext : List Char) (len : Nat) :
    Except Stop (List tfdata) := do
  let (h, prg) ← compile fuel [] prgtext len
  match listData h prg with
  | some ds => .ok ds
  | none => .error (.fault "program")

/-- The elements of a buffer; the null handle has none. -/
def bufferElems {α : Type} (da : Option (tfda α)) : List α :=
  match da with
  | some d => d.elems
  | none => []

/-- The capacity `tfdaReserve` starts from: that of the buffer, and
`TFDA_INIT_CAP` for the null handle. -/
def bufferCapacity {α : Type} (da : Option (tfda α)) : Nat :=
  match da with
  | some d => d.capacity
  | none => TFDA_INIT_CAP

/-- The heap in which the refcount of every object is `delta` higher, address
by address. -/
def shift (delta : Nat → Int) (h : Heap) : Heap :=
  h.mapIdx (fun i c => c.map (fun o => { o with refcount := o.refcount + delta i }))

/-- One more reference to the object at `v`. -/
def oneAt (v : Nat) (x : Nat) : Int := if x = v then 1 else 0

/-- The capacity of a buffer that holds `n` elements after the reserve of one
more slot: unchanged when there is room, doubled when the buffer is full. -/
def capacityAfterAppend (cap n : Nat) : Nat := if n + 1 ≤ cap then cap else cap * 2

/-- What the loop of `compile` is to yield on the texts of a sequence of
values that ends with the text, for the program at `h0.length` holding the
addresses `done` and the objects `blocks` created since. -/
def CompilesTo (xs : SrcList) : Prop :=
  xs.wf → xs.narrow →
    ∀ (fuel : Nat) (text : List Char) (e p : Nat) (h0 : Heap) (done : List Nat)
    (blocks : Heap) (ws rest : List Char),
    xs.cost + 1 ≤ fuel → text.drop p = ws ++ (xs.render ++ rest) →
    (∀ w ∈ ws, isspace w = true) → p + ws.length + xs.render.length = e →
    done.length + xs.length < 256 → hasReleased h0 = false → hasReleased blocks = false →
    compileLoop fuel ⟨text, e, p⟩ (h0 ++ some ⟨1, .list (handleAfter done)⟩ :: blocks)
        h0.length =
      .ok (h0 ++ some ⟨1, .list (handleAfter (done ++ xs.addrs (h0.length + 1 + blocks.length)))⟩ ::
          (blocks ++ xs.image (h0.length + 1 + blocks.length)))

mutual

/-- The tree a text denotes when its numerals are read as written. -/
def Src.value : Src → Tree
  | .num ds _ => .int (decimalValue ds)
  | .list _ items _ => .list items.values
  | .sym ent _ => .symbol ent.str
  | .bool b _ => .bool (if b then 1 else 0)

def SrcList.values : SrcList → List Tree
  | .nil => []
  | .cons x xs => x.value :: xs.values

end

mutual

/-- Every numeral of the text is below 2^31. -/
def Src.small : Src → Prop
  | .num ds _ => decimalValue ds < 2147483648
  | .list _ items _ => items.small
  | .sym _ _ => True
  | .bool _ _ => True

def SrcList.small : SrcList → Prop
  | .nil => True
  | .cons x xs => x.small ∧ xs.small

end

/-! ## Reference counts and slots -/

/-- The call does not stop on the assertion of `derefObject` (a release of an
object whose refcount is not positive) nor on the access to an object that has
been released or never existed (`load`), and when it returns, its result
satisfies `Q`. -/
def Safe {α : Type} (Q : α → Prop) (r : Except Stop α) : Prop :=
  match r with
  | .ok a => Q a
  | .error e => e ≠ .assertion "derefObject" ∧ e ≠ .fault "load"

/-- What the loop over the items of a list is to yield when no item is a list,
for the list object at `h0.length` with the buffer handle `l` and the objects
`blocks` created since: the items are appended to the buffer, which grows as
needed. Only a first allocation (a null handle) needs a heap that shows no
block given back to the allocator. -/
def AtomsParseTo (xs : SrcList) : Prop :=
  xs.wf → xs.atoms →
    ∀ (fuel : Nat) (text : List Char) (e p : Nat) (h0 : Heap) (l : Option (tfda Nat))
      (blocks : Heap) (ws rest : List Char),
    xs.cost ≤ fuel → text.drop p = ws ++ (xs.render ++ ']' :: rest) →
    (∀ w ∈ ws, isspace w = true) → p + ws.length + xs.render.length ≤ e →
    (l = none → hasReleased h0 = false ∧ hasReleased blocks = false) →
    (∀ d0, l = some d0 → Fits d0.capacity d0.elems.length) →
    (bufferElems l).length + xs.length < 2305843009213693952 →
    ∃ l' : Option (tfda Nat),
      parseListItems fuel ⟨text, e, p⟩ (h0 ++ some ⟨1, .list l⟩ :: blocks) h0.length =
        .ok (⟨text, e, p + ws.length + xs.render.length⟩,
          h0 ++ some ⟨1, .list l'⟩ :: (blocks ++ xs.image (h0.length + 1 + blocks.length))) ∧
      bufferElems l' = bufferElems l ++ xs.addrs (h0.length + 1 + blocks.length) ∧
      ∀ d', l' = some d' → Fits d'.capacity d'.elems.length

theorem wrapSize_of_lt {n : Nat} (h : n < 18446744073709551616) : wrapSize n = n := by
  unfold wrapSize
  exact Nat.mod_eq_of_lt h

theorem wrapSize_le (n : Nat) : wrapSize n ≤ n := by
  unfold wrapSize
  exact Nat.mod_le _ _

theorem growCapacity_of_le (fuel newcap reserve : Nat) (h : reserve ≤ newcap) :
    growCapacity fuel newcap reserve = .ok newcap := by
  have hlt : ¬ newcap < reserve := by omega
  cases fuel <;> simp [growCapacity, hlt]

/-- The doubling loop ends on the first of `newcap`, `2 * newcap`,
`4 * newcap`, .. that is not below `reserve`, when `reserve` is no more than
2^63: no doubling wraps, and the budget suffices. -/
theorem growCapacity_least (fuel newcap reserve : Nat) (hpos : 0 < newcap)
    (hres : reserve ≤ 9223372036854775808) (hf : 9223372036854775808 ≤ newcap * 2 ^ fuel) :
    ∃ k, growCapacity fuel newcap reserve = .ok (newcap * 2 ^ k) ∧ reserve ≤ newcap * 2 ^ k ∧
      ∀ j, j < k → newcap * 2 ^ j < reserve := by
  induction fuel generalizing newcap with
  | zero =>
    have hge : ¬ newcap < reserve := by
      simp only [pow_zero, Nat.mul_one] at hf
      omega
    exact ⟨0, by simp [growCapacity, hge], by simpa using hge, fun j hj => by omega⟩
  | succ f ih =>
    by_cases hlt : newcap < reserve
    · have hw : wrapSize (newcap * 2) = newcap * 2 := wrapSize_of_lt (by omega)
      obtain ⟨k, hk, hle, hmin⟩ := ih (newcap * 2) (by omega)
        (by rw [pow_succ] at hf; rw [Nat.mul_assoc, Nat.mul_comm 2]; exact hf)
      refine ⟨k + 1, ?_, ?_, ?_⟩
      · simp only [growCapacity, hlt, ite_true, hw, hk]
        rw [pow_succ, Nat.mul_assoc, Nat.mul_comm (2 ^ k) 2]
      · rw [pow_succ, Nat.mul_comm (2 ^ k) 2, ← Nat.mul_assoc]
        exact hle
      · intro j hj
        cases j with
        | zero => simpa using hlt
        | succ j =>
          have := hmin j (by omega)
          rw [pow_succ, Nat.mul_comm (2 ^ j) 2, ← Nat.mul_assoc]
          exact this
    · exact ⟨0, by simp [growCapacity, hlt], by simpa using hlt, fun j hj => by omega⟩

/-- The reserve of `len` slots in a buffer that has room for them returns the
buffer as it is, whatever has been given back to the allocator. -/
theorem tfdaReserve_room {α : Type} (r : Bool) (cap : Nat) (es : List α) (tsize len : Nat)
    (hcap : es.length + len ≤ cap) :
    tfdaReserve r (some ⟨cap, es⟩) tsize len = .ok ⟨cap, es⟩ := by
  by_cases hgt : cap > wrapSize (es.length + len)
  · simp [tfdaReserve, hgt]
  · have hle : wrapSize (len + es.length) ≤ cap := by
      have := wrapSize_le (len + es.length)
      omega
    simp [tfdaReserve, hgt, growCapacity_of_le 64 cap _ hle, bind, Except.bind]

/-- The first reserve of a buffer, when no block has been given back to the
allocator: an empty buffer of the initial capacity. -/
theorem tfdaReserve_fresh {α : Type} (tsize len : Nat) (hlen : len ≤ 256) :
    tfdaReserve false (none : Option (tfda α)) tsize len = .ok ⟨256, []⟩ := by
  simp [tfdaReserve, TFDA_INIT_CAP, growCapacity_of_le 64 256 len hlen, bind, Except.bind]

/-- The first reserve of a buffer, after a block has been given back to the
allocator: the count of the new buffer is not determined. -/
theorem tfdaReserve_recycled {α : Type} (tsize len : Nat) (hlen : len ≤ 9223372036854775808) :
    tfdaReserve true (none : Option (tfda α)) tsize len = .error (.uninit "tfdaReserve") := by
  obtain ⟨k, hk, -, -⟩ := growCapacity_least 64 TFDA_INIT_CAP len (by decide) hlen (by decide)
  simp [tfdaReserve, hk, bind, Except.bind]

/-- The reserve of one slot in a full buffer doubles its capacity. -/
theorem tfdaReserve_full {α : Type} (r : Bool) (cap : Nat) (es : List α) (tsize : Nat)
    (hcap : es.length = cap) (hpos : 0 < cap) (hlt : cap < 9223372036854775808) :
    tfdaReserve r (some ⟨cap, es⟩) tsize 1 = .ok ⟨cap * 2, es⟩ := by
  have hw1 : wrapSize (es.length + 1) = es.length + 1 := wrapSize_of_lt (by omega)
  have hw2 : wrapSize (1 + es.length) = 1 + es.length := wrapSize_of_lt (by omega)
  have hw3 : wrapSize (cap * 2) = cap * 2 := wrapSize_of_lt (by omega)
  have hgt : ¬ cap > es.length + 1 := by omega
  have hg : growCapacity 64 cap (1 + es.length) = .ok (cap * 2) := by
    rw [growCapacity, if_pos (by omega), hw3]
    exact growCapacity_of_le 63 (cap * 2) _ (by omega)
  simp [tfdaReserve, hw1, hw2, hgt, hg, bind, Except.bind]

/-- The reserve of one slot in a buffer that holds its elements. -/
theorem tfdaReserve_one {α : Type} (r : Bool) (cap : Nat) (es : List α) (tsize : Nat)
    (hcap : es.length ≤ cap) (hpos : 0 < cap) (hlt : cap < 9223372036854775808) :
    tfdaReserve r (some ⟨cap, es⟩) tsize 1 = .ok ⟨capacityAfterAppend cap es.length, es⟩ := by
  unfold capacityAfterAppend
  by_cases h : es.length + 1 ≤ cap
  · rw [if_pos h, tfdaReserve_room r cap es tsize 1 h]
  · rw [if_neg h, tfdaReserve_full r cap es tsize (by omega) hpos hlt]

theorem growCapacity_zero (fuel reserve : Nat) (h : 0 < reserve) :
    growCapacity fuel 0 reserve = .error .fuel := by
  induction fuel with
  | zero => simp [growCapacity, h]
  | succ n ih =>
    have hw : wrapSize (0 * 2) = 0 := wrapSize_of_lt (by decide)
    rw [growCapacity, if_pos h, hw, ih]

/-- The bound on sizes is needed: a full buffer of 2^63 slots cannot take one
more, the doubled capacity is 0 on `size_t` and the loop of `tfdaReserve` never
ends. -/
theorem tfdaReserve_wraps {α : Type} (r : Bool) (es : List α) (tsize : Nat)
    (hes : es.length = 9223372036854775808) :
    tfdaReserve r (some ⟨9223372036854775808, es⟩) tsize 1 = .error .fuel := by
  have hw1 : wrapSize (es.length + 1) = 9223372036854775809 := by
    rw [hes]
    exact wrapSize_of_lt (by decide)
  have hw2 : wrapSize (1 + es.length) = 9223372036854775809 := by
    rw [hes]
    exact wrapSize_of_lt (by decide)
  have hw3 : wrapSize (9223372036854775808 * 2) = 0 := by
    unfold wrapSize
    decide
  have hg : growCapacity 64 9223372036854775808 9223372036854775809 = .error .fuel := by
    rw [growCapacity, if_pos (by decide), hw3]
    exact growCapacity_zero 63 _ (by decide)
  simp [tfdaReserve, hw1, hw2, hg, bind, Except.bind]

theorem hasReleased_nil : hasReleased [] = false := rfl

theorem hasReleased_append (h₁ h₂ : Heap) :
    hasReleased (h₁ ++ h₂) = (hasReleased h₁ || hasReleased h₂) := by
  simp [hasReleased]

theorem hasReleased_cons (c : Option tfobj) (h : Heap) :
    hasReleased (c :: h) = (hasReleased [c] || hasReleased h) := by
  simp [hasReleased]

/-- A cell that gives no sign of a released block: an object that is not a
List, or a List whose buffer, if it has one, has the initial capacity. -/
theorem hasReleased_one (o : tfobj)
    (ho : ∀ da, o.data = .list (some da) → da.capacity = TFDA_INIT_CAP) :
    hasReleased [some o] = false := by
  rcases o with ⟨rc, d⟩
  cases d with
  | list l =>
    cases l with
    | none => rfl
    | some da =>
      have := ho da rfl
      simp [hasReleased, this]
  | int i => rfl
  | bool i => rfl
  | str s => rfl
  | symbol s => rfl

/-! ## Lemmas on the parser -/

theorem drop_after {text : List Char} {p : Nat} {a b : List Char}
    (hd : text.drop p = a ++ b) : text.drop (p + a.length) = b := by
  have h1 : text.drop (p + a.length) = (text.drop p).drop a.length := by
    rw [List.drop_drop, Nat.add_comm]
  rw [h1, hd, List.drop_left]

theorem peek_eq {text : List Char} {e p : Nat} {c : Char} {rest : List Char}
    (hd : text.drop p = c :: rest) : peek ⟨text, e, p⟩ = .ok c := by
  simp [peek, hd]

theorem trimLeft_stop (ws : List Char) (d : Char) (rest : List Char) (e p : Nat)
    (hws : ∀ w ∈ ws, isspace w = true) (hd : isspace d = false) (hle : p + ws.length ≤ e) :
    trimLeft (ws ++ d :: rest) e p = .ok (p + ws.length) := by
  induction ws generalizing p with
  | nil => simp [trimLeft, hd]
  | cons w ws ih =>
    have hw : isspace w = true := hws w (by simp)
    have hpe : p < e := by simp only [List.length_cons] at hle; omega
    have h2 := ih (p + 1) (fun x hx => hws x (by simp [hx]))
      (by simp only [List.length_cons] at hle; omega)
    simp only [List.cons_append, trimLeft, hpe, hw, decide_True, Bool.and_self, ite_true,
      List.length_cons, List.append_eq]
    rw [h2]
    congr 1
    omega

theorem trimLeft_end (ws : List Char) (rest : List Char) (e p : Nat)
    (hws : ∀ w ∈ ws, isspace w = true) (hle : p + ws.length = e) :
    trimLeft (ws ++ rest) e p = .ok e := by
  induction ws generalizing p with
  | nil =>
    have hpe : ¬ p < e := by simp only [List.length_nil] at hle; omega
    have : p = e := by simpa using hle
    cases rest <;> simp [trimLeft, this]
  | cons w ws ih =>
    have hw : isspace w = true := hws w (by simp)
    have hpe : p < e := by simp only [List.length_cons] at hle; omega
    have h2 := ih (p + 1) (fun x hx => hws x (by simp [hx]))
      (by simp only [List.length_cons] at hle; omega)
    simp only [List.cons_append, trimLeft, hpe, hw, decide_True, Bool.and_self, ite_true,
      List.append_eq]
    exact h2

theorem parserTrimLeft_stop {text : List Char} {e p : Nat} (ws : List Char) (d : Char)
    (rest : List Char) (hd : text.drop p = ws ++ d :: rest)
    (hws : ∀ w ∈ ws, isspace w = true) (hds : isspace d = false) (hle : p + ws.length ≤ e) :
    parserTrimLeft ⟨text, e, p⟩ = .ok ⟨text, e, p + ws.length⟩ := by
  simp [parserTrimLeft, hd, trimLeft_stop ws d rest e p hws hds hle, bind, Except.bind]

theorem parserTrimLeft_end {text : List Char} {e p : Nat} (ws : List Char)
    (rest : List Char) (hd : text.drop p = ws ++ rest)
    (hws : ∀ w ∈ ws, isspace w = true) (hle : p + ws.length = e) :
    parserTrimLeft ⟨text, e, p⟩ = .ok ⟨text, e, e⟩ := by
  simp [parserTrimLeft, hd, trimLeft_end ws rest e p hws hle, bind, Except.bind]

theorem scanDigits_run (ds : List Char) (c : Char) (rest : List Char) (num : Int) (p : Nat)
    (hds : ∀ d ∈ ds, isdigit d = true) (hc : isdigit c = false) :
    scanDigits (ds ++ c :: rest) num p = .ok (digitsFrom num ds, p + ds.length) := by
  induction ds generalizing num p with
  | nil => simp [scanDigits, hc, digitsFrom]
  | cons d ds ih =>
    have hd : isdigit d = true := hds d (by simp)
    have h2 := ih (wrap32 (num * 10 + d.toNat - 48)) (p + 1) (fun x hx => hds x (by simp [hx]))
    simp only [List.cons_append, scanDigits, hd, ite_true, digitsFrom, List.length_cons,
      List.append_eq]
    rw [h2]
    congr 2
    omega

theorem isspace_of_isdigit {c : Char} (h : isdigit c = true) : isspace c = false := by
  simp only [isdigit, Bool.and_eq_true, decide_eq_true_eq] at h
  simp only [isspace, Bool.or_eq_false_iff, decide_eq_false_iff_not, Bool.and_eq_false_iff]
  omega

theorem isdigit_of_isspace {c : Char} (h : isspace c = true) : isdigit c = false := by
  cases hd : isdigit c
  · rfl
  · rw [isspace_of_isdigit hd] at h
    cases h

/-- A numeral followed by a whitespace character parses to an Integer. -/
theorem parseObject_number {text : List Char} {e p : Nat} (fuel : Nat) (h : Heap)
    (ws ds : List Char) (c : Char) (rest : List Char)
    (hd : text.drop p = ws ++ (ds ++ c :: rest))
    (hws : ∀ w ∈ ws, isspace w = true) (hne : ds ≠ [])
    (hds : ∀ d ∈ ds, isdigit d = true) (hc : isspace c = true) (hlt : p + ws.length < e) :
    parseObject (fuel + 1) ⟨text, e, p⟩ h =
      .ok (some h.length, ⟨text, e, p + ws.length + ds.length⟩,
        h ++ [some ⟨1, .int (digitsFrom 0 ds)⟩]) := by
  obtain ⟨d, ds', rfl⟩ := List.exists_cons_of_ne_nil hne
  have hdd : isdigit d = true := hds d (by simp)
  have h1 := parserTrimLeft_stop (e := e) ws d (ds' ++ c :: rest) (by simpa using hd) hws
    (isspace_of_isdigit hdd) (by omega)
  have h2 : text.drop (p + ws.length) = (d :: ds') ++ c :: rest := drop_after hd
  have h3 : text.drop (p + ws.length + (d :: ds').length) = c :: rest := drop_after h2
  have h4 := scanDigits_run (d :: ds') c rest 0 (p + ws.length) hds (isdigit_of_isspace hc)
  have hge : ¬ (p + ws.length ≥ e) := by omega
  rw [parseObject]
  simp only [h1, bind, Except.bind, hge, ite_false, peek_eq (by simpa using h2), hdd, ite_true,
    h2, h4, peek_eq h3, hc, Bool.not_true, createIntObject, createObject]
  simp

/-- A numeral followed by a character that is neither a digit nor whitespace
is rejected: no object, and the cursor back on the first digit. -/
theorem parseObject_badNumber {text : List Char} {e p : Nat} (fuel : Nat) (h : Heap)
    (ws ds : List Char) (c : Char) (rest : List Char)
    (hd : text.drop p = ws ++ (ds ++ c :: rest))
    (hws : ∀ w ∈ ws, isspace w = true) (hne : ds ≠ [])
    (hds : ∀ d ∈ ds, isdigit d = true) (hc1 : isdigit c = false) (hc2 : isspace c = false)
    (hlt : p + ws.length < e) :
    parseObject (fuel + 1) ⟨text, e, p⟩ h = .ok (none, ⟨text, e, p + ws.length⟩, h) := by
  obtain ⟨d, ds', rfl⟩ := List.exists_cons_of_ne_nil hne
  have hdd : isdigit d = true := hds d (by simp)
  have h1 := parserTrimLeft_stop (e := e) ws d (ds' ++ c :: rest) (by simpa using hd) hws
    (isspace_of_isdigit hdd) (by omega)
  have h2 : text.drop (p + ws.length) = (d :: ds') ++ c :: rest := drop_after hd
  have h3 : text.drop (p + ws.length + (d :: ds').length) = c :: rest := drop_after h2
  have h4 := scanDigits_run (d :: ds') c rest 0 (p + ws.length) hds hc1
  have hge : ¬ (p + ws.length ≥ e) := by omega
  rw [parseObject]
  simp only [h1, bind, Except.bind, hge, ite_false, peek_eq (by simpa using h2), hdd, ite_true,
    h2, h4, peek_eq h3, hc2, Bool.not_false]

theorem compileLoop_badNumber {text : List Char} {e : Nat} (ds : List Char) (c : Char)
    (rest : List Char) (hne : ds ≠ []) (hds : ∀ d ∈ ds, isdigit d = true)
    (hc1 : isdigit c = false) (hc2 : isspace c = false) (prg : Nat) :
    ∀ (fuel p : Nat) (ws : List Char) (h : Heap), text.drop p = ws ++ (ds ++ c :: rest) →
      (∀ w ∈ ws, isspace w = true) → p + ws.length < e →
      compileLoop fuel ⟨text, e, p⟩ h prg = .error .fuel := by
  intro fuel
  induction fuel with
  | zero => intro p ws h _ _ _; rfl
  | succ f ih =>
    intro p ws h hd hws hlt
    have hpe : p < e := by omega
    rw [compileLoop]
    simp only [hpe, ite_true]
    cases f with
    | zero => rfl
    | succ f =>
      rw [parseObject_badNumber f h ws ds c rest hd hws hne hds hc1 hc2 hlt]
      simp only [bind, Except.bind]
      exact ih (p + ws.length) [] h (by simpa using drop_after (b := ds ++ c :: rest) hd)
        (by simp) (by simpa using hlt)

/-- C3 (the code against the claim): a program text that starts, after optional
whitespace, with a numeral directly followed by a character that is neither a
digit nor whitespace is never compiled: `parseObject` puts the cursor back on
the numeral and returns `NULL`, so the loop of `compile` parses the same
numeral again at every turn and exhausts every budget without returning a
program. -/
theorem C3_compile_malformed_numeral_never_returns (ws ds : List Char) (c : Char)
    (rest : List Char) (len fuel : Nat) (h : Heap)
    (hws : ∀ w ∈ ws, isspace w = true) (hne : ds ≠ [])
    (hds : ∀ d ∈ ds, isdigit d = true) (hc1 : isdigit c = false) (hc2 : isspace c = false)
    (hlen : ws.length < len) :
    compile fuel h (ws ++ (ds ++ c :: rest)) len = .error .fuel := by
  simp only [compile, createListObject, createObject, bind, Except.bind]
  rw [compileLoop_badNumber ds c rest hne hds hc1 hc2 h.length fuel 0 ws _ (by simp) hws
    (by simpa using hlen)]

/-- C3, at the text `12x`: `compile` fails to return, here within a budget of
1000 and by the theorem at every budget. -/
theorem C3_compile_12x_never_returns :
    compile 1000 [] ['1', '2', 'x'] 3 = .error .fuel :=
  C3_compile_malformed_numeral_never_returns [] ['1', '2'] 'x' [] 3 1000 []
    (by simp) (by simp) (by decide) (by decide) (by decide) (by decide)

theorem ne_bracket_of_isspace {c : Char} (h : isspace c = true) : c ≠ ']' := by
  rintro rfl
  revert h
  decide

theorem ne_bracket_of_isdigit {c : Char} (h : isdigit c = true) : c ≠ ']' := by
  rintro rfl
  revert h
  decide

/-- Inside a list, a rejected numeral makes the loop over the items spin. -/
theorem parseListItems_badNumber {text : List Char} {e : Nat} (ds : List Char) (c : Char)
    (rest : List Char) (hne : ds ≠ []) (hds : ∀ d ∈ ds, isdigit d = true)
    (hc1 : isdigit c = false) (hc2 : isspace c = false) (list : Nat) :
    ∀ (fuel p : Nat) (ws : List Char) (h : Heap), text.drop p = ws ++ (ds ++ c :: rest) →
      (∀ w ∈ ws, isspace w = true) → p + ws.length < e →
      parseListItems fuel ⟨text, e, p⟩ h list = .error .fuel := by
  intro fuel
  induction fuel with
  | zero => intro p ws h _ _ _; rfl
  | succ f ih =>
    intro p ws h hd hws hlt
    obtain ⟨d, ds', rfl⟩ := List.exists_cons_of_ne_nil hne
    have hdd : isdigit d = true := hds d (by simp)
    have hpe : p < e := by omega
    have h1 := parserTrimLeft_stop (e := e) ws d (ds' ++ c :: rest) (by simpa using hd) hws
      (isspace_of_isdigit hdd) (by omega)
    have h2 : text.drop (p + ws.length) = (d :: ds') ++ c :: rest := drop_after hd
    have hfirst : ∃ x r, text.drop p = x :: r ∧ x ≠ ']' := by
      cases ws with
      | nil => exact ⟨d, _, by simpa using hd, ne_bracket_of_isdigit hdd⟩
      | cons w ws => exact ⟨w, _, by simpa using hd, ne_bracket_of_isspace (hws w (by simp))⟩
    obtain ⟨x, r, hx, hxb⟩ := hfirst
    rw [parseListItems]
    simp only [hpe, ite_true, bind, Except.bind, peek_eq hx, hxb, ne_eq, not_false_eq_true, h1,
      peek_eq (by simpa using h2), ne_bracket_of_isdigit hdd, ite_false]
    cases f with
    | zero => rfl
    | succ f =>
      rw [parseObject_badNumber f h [] (d :: ds') c rest (by simpa using h2) (by simp)
        (by simp) hds hc1 hc2 (by simpa using hlt)]
      exact ih (p + ws.length) [] h (by simpa using h2) (by simp) (by simpa using hlt)

/-- C5 (the code against the claim): the text `[1 2`, followed in memory by a
byte that is neither a digit nor whitespace (the terminating NUL of a C string,
say), never reaches the malformed-list error: the numeral `2` is rejected
inside the list, the cursor is put back on it, and the loop over the items
parses it again at every turn, so that `compile` exhausts every budget. -/
theorem C5_unclosed_list_never_returns (c : Char) (rest : List Char)
    (hc1 : isdigit c = false) (hc2 : isspace c = false) (fuel : Nat) :
    compile fuel [] ('[' :: '1' :: ' ' :: '2' :: c :: rest) 4 = .error .fuel := by
  simp only [compile, createListObject, createObject, bind, Except.bind]
  cases fuel with
  | zero => rfl
  | succ f =>
    rw [compileLoop]
    cases f with
    | zero => rfl
    | succ f =>
      rw [parseObject]
      simp [parserTrimLeft, trimLeft, peek, isspace, isdigit, bind, Except.bind,
        createListObject, createObject]
      cases f with
      | zero => rfl
      | succ f =>
        rw [parseListItems]
        simp [parserTrimLeft, trimLeft, peek, isspace, isdigit, bind, Except.bind]
        cases f with
        | zero => rfl
        | succ f =>
          rw [parseObject_number f _ [] ['1'] ' ' ('2' :: c :: rest) (by simp) (by simp)
            (by simp) (by decide) (by decide) (by simp)]
          simp [listAppendObject, load, store, tfdaReserve_fresh, tfdaReserve_room, hasReleased, TFDA_INIT_CAP,
            derefObject, derefFuel, bind, Except.bind]
          rw [parseListItems_badNumber ['2'] c rest (by simp) (by decide) hc1 hc2 1 (f + 1) 2
            [' '] _ (by simp) (by decide) (by simp)]

/-- C5, at the text `[1 2` followed by a NUL byte. -/
theorem C5_unclosed_list_nul_never_returns :
    compile 1000 [] ['[', '1', ' ', '2', Char.ofNat 0] 4 = .error .fuel :=
  C5_unclosed_list_never_returns (Char.ofNat 0) [] (by decide) (by decide) 1000

theorem scanSymbol_run (tok : List Char) (c : Char) (rest : List Char) (p : Nat)
    (htok : ∀ x ∈ tok, (isalnum x || ispunct x) = true) (hc : isspace c = true) :
    scanSymbol (tok ++ c :: rest) p = .ok (p + tok.length) := by
  induction tok generalizing p with
  | nil =>
    have h1 : (isalnum c || ispunct c) = false := by
      simp only [isspace, Bool.or_eq_true, decide_eq_true_eq, Bool.and_eq_true] at hc
      simp only [isalnum, ispunct, Bool.or_eq_false_iff, Bool.and_eq_false_iff,
        decide_eq_false_iff_not]
      omega
    simp [scanSymbol, h1]
  | cons x tok ih =>
    have hx : (isalnum x || ispunct x) = true := htok x (by simp)
    have h2 := ih (p + 1) (fun y hy => htok y (by simp [hy]))
    simp only [List.cons_append, scanSymbol, hx, ite_true, List.length_cons, List.append_eq]
    rw [h2]
    congr 1
    omega

/-- C9 (the code against the claim): in the free-form token branch every
whitespace-terminated token that begins with the letters `true` is parsed as
the Boolean 1, and every one that begins with `false` as the Boolean 0,
whatever follows these letters in the token: `strncmp` compares only the first
four, respectively five, characters. -/
theorem C9_boolean_literal_by_leading_letters {text : List Char} {e p : Nat} (h : Heap)
    (tok : List Char) (c : Char) (rest : List Char)
    (htok : ∀ x ∈ tok, (isalnum x || ispunct x) = true) (hc : isspace c = true) :
    (text.drop p = ['t', 'r', 'u', 'e'] ++ (tok ++ c :: rest) →
      parseSymbol ⟨text, e, p⟩ h =
        .ok (some h.length, ⟨text, e, p + (4 + tok.length)⟩, h ++ [some ⟨1, .bool 1⟩])) ∧
    (text.drop p = ['f', 'a', 'l', 's', 'e'] ++ (tok ++ c :: rest) →
      parseSymbol ⟨text, e, p⟩ h =
        .ok (some h.length, ⟨text, e, p + (5 + tok.length)⟩, h ++ [some ⟨1, .bool 0⟩])) := by
  constructor
  · intro hd
    have hl : (['t', 'r', 'u', 'e'] ++ tok).length = 4 + tok.length := by
      simp only [List.length_append, List.length_cons, List.length_nil]
    have hpre : ∀ x ∈ ['t', 'r', 'u', 'e'], (isalnum x || ispunct x) = true := by decide
    have h1 := scanSymbol_run (['t', 'r', 'u', 'e'] ++ tok) c rest p
      (fun x hx => (List.mem_append.1 hx).elim (hpre x) (htok x)) hc
    have h2 := @drop_after text p (['t', 'r', 'u', 'e'] ++ tok) (c :: rest)
      (by rw [hd, List.append_assoc])
    rw [hl] at h1 h2
    rw [List.append_assoc] at h1
    simp only [parseSymbol, hd, bind, Except.bind, h1, peek, h2, hc, Bool.not_true,
      createBoolObject, createObject]
    simp
  · intro hd
    have hl : (['f', 'a', 'l', 's', 'e'] ++ tok).length = 5 + tok.length := by
      simp only [List.length_append, List.length_cons, List.length_nil]
    have hpre : ∀ x ∈ ['f', 'a', 'l', 's', 'e'], (isalnum x || ispunct x) = true := by decide
    have h1 := scanSymbol_run (['f', 'a', 'l', 's', 'e'] ++ tok) c rest p
      (fun x hx => (List.mem_append.1 hx).elim (hpre x) (htok x)) hc
    have h2 := @drop_after text p (['f', 'a', 'l', 's', 'e'] ++ tok) (c :: rest)
      (by rw [hd, List.append_assoc])
    rw [hl] at h1 h2
    rw [List.append_assoc] at h1
    simp only [parseSymbol, hd, bind, Except.bind, h1, peek, h2, hc, Bool.not_true,
      createBoolObject, createObject]
    simp

/-- C9, at the tokens `trueish` and `false_positive`: they are parsed as the
Booleans 1 and 0, not as Symbols. -/
theorem C9_trueish_is_boolean :
    parseSymbol ⟨"trueish ".toList, 8, 0⟩ [] =
        .ok (some 0, ⟨"trueish ".toList, 8, 7⟩, [some ⟨1, .bool 1⟩]) ∧
      parseSymbol ⟨"false_positive ".toList, 15, 0⟩ [] =
        .ok (some 0, ⟨"false_positive ".toList, 15, 14⟩, [some ⟨1, .bool 0⟩]) :=
  ⟨(C9_boolean_literal_by_leading_letters [] "ish".toList ' ' [] (by decide) (by decide)).1 rfl,
   (C9_boolean_literal_by_leading_letters [] "_positive".toList ' ' [] (by decide) (by decide)).2 rfl⟩

/-! ## Lemmas on the heap -/

theorem getElem?_mid {α : Type} (l₁ l₂ : List α) (x : α) :
    (l₁ ++ x :: l₂)[l₁.length]? = some x := by
  induction l₁ with
  | nil => simp
  | cons a l ih => simpa using ih

theorem load_mid (h₁ h₂ : Heap) (o : tfobj) : load (h₁ ++ some o :: h₂) h₁.length = .ok o := by
  rw [load, getElem?_mid]

/-- C6 (the code against the claim): executing `true [ ] if ` does not leave
the stack as it was below the two operands. The branch `[ ]` is a list that has
never been appended to, its buffer handle is null, and `evalList` reads the
count of that null handle: at no budget does the run return normally, and with
a budget of 8 or more it stops on the invalid access. -/
theorem C6_if_on_empty_branch_faults :
    (∀ fuel : Nat, run fuel "true [ ] if ".toList 12 = .error .fuel ∨
        run fuel "true [ ] if ".toList 12 = .error (.fault "tfdaCount")) ∧
      run 50 "true [ ] if ".toList 12 = .error (.fault "tfdaCount") := by
  refine ⟨fun fuel => ?_, by decide!⟩
  rcases Nat.lt_or_ge fuel 8 with hlt | hge
  · left
    interval_cases fuel <;> decide!
  · right
    obtain ⟨k, rfl⟩ := Nat.exists_eq_add_of_le hge
    rw [Nat.add_comm]
    simp [run, compile, compileLoop, parseObject, parseListItems, parseSymbol, scanSymbol,
      parserTrimLeft, trimLeft, peek, isspace, isdigit, isalnum, ispunct, issymbolStart,
      tfsymop, createListObject, createBoolObject, createSymbolObject, createObject,
      listAppendObject, load, store, tfdaReserve_fresh, tfdaReserve_room, hasReleased, TFDA_INIT_CAP, derefObject,
      derefFuel, bind, Except.bind, exec, evalList, evalListFrom, eval, ifOperation,
      listGetObject, listPopObject, tfdaCount, searchSymbolOperation]

/-- C7 (the code against the claim): `printObject` has no case for a Symbol.
Whatever the indentation and the budget, printing a Symbol ends the process by
`exit(1)` after the message `printOperation: invalid type value`; so does
printing the list parsed from `[ dup ]`, once its elements are reached. -/
theorem C7_print_symbol_exits :
    (∀ (fuel : Nat) (h₁ h₂ : Heap) (rc : Int) (s : List Char) (k : Nat),
        printObject (fuel + 1) (h₁ ++ some ⟨rc, .symbol s⟩ :: h₂) h₁.length k =
          .error (.exit 1 "printOperation: invalid type value")) ∧
      run 50 "[ dup ] print ".toList 14 =
        .error (.exit 1 "printOperation: invalid type value") := by
  refine ⟨fun fuel h₁ h₂ rc s k => ?_, by decide!⟩
  rw [printObject, load_mid]
  rfl

/-- C8 (the code against the claim): `freeObject` has no case for a String or a
Symbol. Releasing the last reference to one ends the process by `exit(0)` after
the message `Not handled values`; `derefObject` does not return. -/
theorem C8_deref_string_or_symbol_exits (fuel : Nat) (h₁ h₂ : Heap) (s : List Char) :
    derefObject (fuel + 1) (h₁ ++ some ⟨1, .symbol s⟩ :: h₂) h₁.length =
        .error (.exit 0 "Not handled values") ∧
      derefObject (fuel + 1) (h₁ ++ some ⟨1, .str s⟩ :: h₂) h₁.length =
        .error (.exit 0 "Not handled values") := by
  constructor <;>
  · rw [derefObject, load_mid]
    simp [store, freeObject, load_mid, bind, Except.bind]

/-! ## Numerals -/

theorem wrap32_step (a b : Int) : wrap32 (wrap32 a * 10 + b) = wrap32 (a * 10 + b) := by
  unfold wrap32
  omega

theorem wrap32_of_small (n : Int) (h0 : -2147483648 ≤ n) (h1 : n < 2147483648) :
    wrap32 n = n := by
  unfold wrap32
  omega

theorem digitsFrom_wrap (ds : List Char) (hds : ∀ d ∈ ds, isdigit d = true) (n : Nat) :
    digitsFrom (wrap32 n) ds = wrap32 (decimalFrom n ds) := by
  induction ds generalizing n with
  | nil => rw [digitsFrom, decimalFrom]
  | cons d ds ih =>
    have hd : isdigit d = true := hds d (by simp)
    simp only [isdigit, Bool.and_eq_true, decide_eq_true_eq] at hd
    have h0 : (wrap32 ↑n * 10 + ↑d.toNat - 48 : Int) = wrap32 ↑n * 10 + (↑d.toNat - 48) := by
      omega
    have h2 : ((n : Int) * 10 + (↑d.toNat - 48) : Int) = ((n * 10 + digitValue d : Nat) : Int) := by
      unfold digitValue
      omega
    rw [digitsFrom, decimalFrom, h0, wrap32_step, h2]
    exact ih (fun x hx => hds x (by simp [hx])) _

theorem digitsFrom_zero (ds : List Char) (hds : ∀ d ∈ ds, isdigit d = true) :
    digitsFrom 0 ds = wrap32 (decimalValue ds) := by
  have h := digitsFrom_wrap ds hds 0
  have h0 : wrap32 ((0 : Nat) : Int) = 0 := by decide!
  rw [h0] at h
  exact h

theorem parseObject_atEnd {text : List Char} {e p : Nat} (fuel : Nat) (h : Heap)
    (ws rest : List Char) (hd : text.drop p = ws ++ rest)
    (hws : ∀ w ∈ ws, isspace w = true) (hle : p + ws.length = e) :
    parseObject (fuel + 1) ⟨text, e, p⟩ h = .ok (none, ⟨text, e, e⟩, h) := by
  rw [parseObject]
  simp [parserTrimLeft_end ws rest hd hws hle, bind, Except.bind]

theorem compile_literal (ds ws tail : List Char) (c : Char) (k : Nat)
    (hne : ds ≠ []) (hds : ∀ d ∈ ds, isdigit d = true) (hc : isspace c = true)
    (hws : ∀ w ∈ ws, isspace w = true) :
    compile (k + 3) [] (ds ++ c :: (ws ++ tail)) (ds.length + 1 + ws.length) =
      .ok ([some ⟨1, .list (some ⟨256, [1]⟩)⟩, some ⟨1, .int (digitsFrom 0 ds)⟩], 0) := by
  simp only [compile, createListObject, createObject, bind, Except.bind]
  rw [compileLoop]
  rw [parseObject_number (k + 1) _ [] ds c (ws ++ tail) (by simp) (by simp) hne hds hc (by simp)]
  simp [listAppendObject, load, store, tfdaReserve_fresh, tfdaReserve_room, hasReleased, TFDA_INIT_CAP, derefObject,
    derefFuel, bind, Except.bind]
  rw [compileLoop]
  have hlt : ds.length < ds.length + 1 + ws.length := by omega
  simp only [hlt, ite_true, bind, Except.bind]
  rw [parseObject_atEnd k _ (c :: ws) tail (by simp) (by
    intro w hw
    rcases List.mem_cons.1 hw with rfl | hw
    · exact hc
    · exact hws w hw) (by simp; omega)]
  simp only []
  rw [compileLoop]
  simp

/-- C2 as amended: a non-empty run of decimal digits followed by whitespace,
compiled and executed, leaves exactly one value on the stack, the Integer that
is the decimal value of the digits reduced to 32 bits in two's complement; that
is the decimal value itself when it is below 2^31. -/
theorem C2_literal_leaves_its_value_mod_2_32 (ds ws tail : List Char) (c : Char) (fuel : Nat)
    (hne : ds ≠ []) (hds : ∀ d ∈ ds, isdigit d = true) (hc : isspace c = true)
    (hws : ∀ w ∈ ws, isspace w = true) (hfuel : 3 ≤ fuel) :
    runStack fuel (ds ++ c :: (ws ++ tail)) (ds.length + 1 + ws.length) =
        .ok [.int (wrap32 (decimalValue ds))] ∧
      (decimalValue ds < 2147483648 → wrap32 (decimalValue ds) = decimalValue ds) := by
  refine ⟨?_, fun hlt => wrap32_of_small _ (by omega) (by omega)⟩
  obtain ⟨k, rfl⟩ := Nat.exists_eq_add_of_le hfuel
  rw [Nat.add_comm 3 k]
  simp only [runStack, runStackOf, run, bind, Except.bind,
    compile_literal ds ws tail c k hne hds hc hws]
  rw [digitsFrom_zero ds hds]
  simp [exec, evalList, evalListFrom, eval, createListObject, createObject, load, listGetObject,
    store, tfdaCount, listAppendObject, tfdaReserve_fresh, tfdaReserve_room, hasReleased, TFDA_INIT_CAP, derefObject,
    derefFuel, bind, Except.bind, listData, listElems, dataAll, dataAt]

/-- C2 as amended, at the literal `42` followed by a newline. -/
theorem C2_literal_42 :
    runStack 10 ['4', '2', '\n'] 3 = .ok [.int (wrap32 (decimalValue ['4', '2']))] ∧
      (decimalValue ['4', '2'] < 2147483648 →
        wrap32 (decimalValue ['4', '2']) = decimalValue ['4', '2']) :=
  C2_literal_leaves_its_value_mod_2_32 ['4', '2'] [] [] '\n' 10 (by simp) (by decide)
    (by decide) (by simp) (by decide)

/-- C2 as stated fails: the literal `2147483648` followed by a space leaves the
Integer -2147483648 on the stack, not 2147483648. -/
theorem C2_literal_2147483648_wraps :
    runStack 10 "2147483648 ".toList 11 = .ok [.int (-2147483648)] ∧
      runStack 10 "2147483648 ".toList 11 ≠ .ok [.int (decimalValue "2147483648".toList)] := by
  decide!

/-- A built-in name with at least one more character before `end` parses to a
Symbol of that name, whatever follows it. -/
theorem parseObject_builtin {text : List Char} {e p : Nat} (fuel : Nat) (h : Heap)
    (ent : tfsymop_entry) (hent : ent ∈ tfsymop) (ws rest : List Char)
    (hd : text.drop p = ws ++ (ent.str ++ rest))
    (hws : ∀ w ∈ ws, isspace w = true) (hlt : p + ws.length + ent.len < e) :
    parseObject (fuel + 1) ⟨text, e, p⟩ h =
      .ok (some h.length, ⟨text, e, p + ws.length + ent.len⟩,
        h ++ [some ⟨1, .symbol ent.str⟩]) := by
  have h2 : text.drop (p + ws.length) = ent.str ++ rest := drop_after hd
  have hge : ¬ (p + ws.length ≥ e) := by omega
  simp only [tfsymop, List.mem_cons, List.mem_singleton, List.not_mem_nil, or_false] at hent
  rcases hent with rfl | rfl | rfl | rfl | rfl | rfl | rfl | rfl | rfl | rfl | rfl | rfl | rfl
  all_goals
    simp only [List.cons_append, List.nil_append] at hd h2 hlt
    have h1 := parserTrimLeft_stop (e := e) ws _ _ hd hws (by decide) (by omega)
    rw [parseObject]
    simp [h1, bind, Except.bind, hge, peek, h2, isdigit, tfsymop, hlt, createSymbolObject, createObject]
theorem compile_binary (da db tail : List Char) (c1 c2 c3 : Char) (ent : tfsymop_entry)
    (k : Nat) (hent : ent ∈ tfsymop) (hlen : ent.len = 1)
    (hna : da ≠ []) (hda : ∀ d ∈ da, isdigit d = true)
    (hnb : db ≠ []) (hdb : ∀ d ∈ db, isdigit d = true)
    (hc1 : isspace c1 = true) (hc2 : isspace c2 = true) (hc3 : isspace c3 = true) :
    compile (k + 5) [] (da ++ c1 :: (db ++ c2 :: (ent.str ++ c3 :: tail)))
        (da.length + db.length + 4) =
      .ok ([some ⟨1, .list (some ⟨256, [1, 2, 3]⟩)⟩, some ⟨1, .int (digitsFrom 0 da)⟩,
        some ⟨1, .int (digitsFrom 0 db)⟩, some ⟨1, .symbol ent.str⟩], 0) := by
  have hstr : ent.str.length = 1 := by
    simp only [tfsymop, List.mem_cons, List.mem_singleton, List.not_mem_nil, or_false] at hent
    rcases hent with rfl | rfl | rfl | rfl | rfl | rfl | rfl | rfl | rfl | rfl | rfl | rfl | rfl <;>
      first | rfl | (exact absurd hlen (by decide))
  have hd1 : (da ++ c1 :: (db ++ c2 :: (ent.str ++ c3 :: tail))).drop da.length =
      [c1] ++ (db ++ c2 :: (ent.str ++ c3 :: tail)) := by simp
  have hd2 : (da ++ c1 :: (db ++ c2 :: (ent.str ++ c3 :: tail))).drop (da.length + 1 + db.length) =
      [c2] ++ (ent.str ++ c3 :: tail) := by
    have h := drop_after (a := [c1] ++ db) (b := c2 :: (ent.str ++ c3 :: tail))
      (by rw [hd1]; simp)
    have hl : da.length + ([c1] ++ db).length = da.length + 1 + db.length := by
      simp only [List.length_append, List.length_cons, List.length_nil]
      omega
    rw [hl] at h
    exact h
  have hd3 : (da ++ c1 :: (db ++ c2 :: (ent.str ++ c3 :: tail))).drop
      (da.length + 1 + db.length + 1 + ent.len) = [c3] ++ tail := by
    have h := drop_after (a := [c2] ++ ent.str) (b := c3 :: tail) (by rw [hd2]; simp)
    have hl : da.length + 1 + db.length + ([c2] ++ ent.str).length =
        da.length + 1 + db.length + 1 + ent.len := by
      simp only [List.length_append, List.length_cons, List.length_nil, hstr, hlen]
    rw [hl] at h
    exact h
  simp only [compile, createListObject, createObject, bind, Except.bind]
  rw [compileLoop]
  rw [parseObject_number (k + 3) _ [] da c1 (db ++ c2 :: (ent.str ++ c3 :: tail)) (by simp)
    (by simp) hna hda hc1 (by simp)]
  simp [listAppendObject, load, store, tfdaReserve_fresh, tfdaReserve_room, hasReleased, TFDA_INIT_CAP, derefObject,
    derefFuel, bind, Except.bind]
  rw [compileLoop]
  have hlt : da.length < da.length + db.length + 4 := by omega
  simp only [hlt, ite_true, bind, Except.bind]
  rw [parseObject_number (k + 2) _ [c1] db c2 (ent.str ++ c3 :: tail) hd1
    (by simpa using hc1) hnb hdb hc2 (by simp; omega)]
  simp [listAppendObject, load, store, tfdaReserve_fresh, tfdaReserve_room, hasReleased, TFDA_INIT_CAP, derefObject,
    derefFuel, bind, Except.bind]
  rw [compileLoop]
  have hlt2 : da.length + 1 + db.length < da.length + db.length + 4 := by omega
  simp only [hlt2, ite_true, bind, Except.bind]
  rw [parseObject_builtin (k + 1) _ ent hent [c2] (c3 :: tail) hd2 (by simpa using hc2)
    (by simp [hlen]; omega)]
  simp [listAppendObject, load, store, tfdaReserve_fresh, tfdaReserve_room, hasReleased, TFDA_INIT_CAP, derefObject,
    derefFuel, bind, Except.bind]
  rw [compileLoop]
  have hlt3 : da.length + 1 + db.length + 1 + ent.len < da.length + db.length + 4 := by omega
  simp only [hlt3, ite_true, bind, Except.bind]
  rw [parseObject_atEnd k _ [c3] tail hd3 (by simpa using hc3) (by simp [hlen]; omega)]
  simp only []
  rw [compileLoop]
  simp
/-- The two pushes of a program `a b op`. -/
theorem exec_binary_pushes (k : Nat) (A B : Int) (s : List Char) :
    exec (k + 5) ⟨[some ⟨1, .list (some ⟨256, [1, 2, 3]⟩)⟩, some ⟨1, .int A⟩,
        some ⟨1, .int B⟩, some ⟨1, .symbol s⟩], []⟩ 0 =
      (do
        let m ← evalListFrom (k + 2) ⟨[some ⟨1, .list (some ⟨256, [1, 2, 3]⟩)⟩,
          some ⟨2, .int A⟩, some ⟨2, .int B⟩, some ⟨1, .symbol s⟩,
          some ⟨1, .list (some ⟨256, [1, 2]⟩)⟩], []⟩ ⟨4⟩ 0 2
        .ok (m, ⟨4⟩)) := by
  simp [exec, evalList, evalListFrom, eval, createListObject, createObject, load, listGetObject,
    store, tfdaCount, listAppendObject, tfdaReserve_fresh, tfdaReserve_room, hasReleased, TFDA_INIT_CAP, derefObject,
    derefFuel, bind, Except.bind]

/-- An arithmetic or comparison operator on the stack of a program `a b op`. -/
theorem binaryOperation_at (site : String) (result : Int → Int → Except Stop tfdata)
    (A B : Int) (s : List Char) (d : tfdata) (hres : result A B = .ok d) :
    binaryOperation site result ⟨[some ⟨1, .list (some ⟨256, [1, 2, 3]⟩)⟩,
          some ⟨2, .int A⟩, some ⟨2, .int B⟩, some ⟨2, .symbol s⟩,
          some ⟨1, .list (some ⟨256, [1, 2]⟩)⟩], []⟩ ⟨4⟩ =
      .ok ⟨[some ⟨1, .list (some ⟨256, [1, 2, 3]⟩)⟩,
          some ⟨1, .int A⟩, some ⟨1, .int B⟩, some ⟨2, .symbol s⟩,
          some ⟨1, .list (some ⟨256, [5]⟩)⟩, some ⟨1, d⟩], []⟩ := by
  simp [binaryOperation, listPopObject, load, store, hres, createObject, listAppendObject,
    tfdaReserve_room, derefObject, derefFuel, bind, Except.bind]

theorem exec_binary (k : Nat) (A B : Int) (ent : tfsymop_entry) (v : tfdata)
    (hent : ent ∈ tfsymop) (hv : binaryValue ent.func A B = some v) :
    runStackOf (exec (k + 5) ⟨[some ⟨1, .list (some ⟨256, [1, 2, 3]⟩)⟩, some ⟨1, .int A⟩,
        some ⟨1, .int B⟩, some ⟨1, .symbol ent.str⟩], []⟩ 0) = .ok [v] := by
  rw [exec_binary_pushes]
  simp only [tfsymop, List.mem_cons, List.mem_singleton, List.not_mem_nil, or_false] at hent
  rcases hent with rfl | rfl | rfl | rfl | rfl | rfl | rfl | rfl | rfl | rfl | rfl | rfl | rfl
  case inl =>
    simp only [binaryValue, Option.some.injEq] at hv
    subst hv
    simp [evalListFrom, eval, load, listGetObject, store, tfdaCount, derefObject, derefFuel,
      bind, Except.bind, searchSymbolOperation, tfsymop, addOperation, binaryOperation_at,
      runStackOf, listData, listElems, dataAll, dataAt]
  case inr.inl =>
    simp only [binaryValue, Option.some.injEq] at hv
    subst hv
    simp [evalListFrom, eval, load, listGetObject, store, tfdaCount, derefObject, derefFuel,
      bind, Except.bind, searchSymbolOperation, tfsymop, subOperation, binaryOperation_at,
      runStackOf, listData, listElems, dataAll, dataAt]
  case inr.inr.inl =>
    simp only [binaryValue, Option.some.injEq] at hv
    subst hv
    simp [evalListFrom, eval, load, listGetObject, store, tfdaCount, derefObject, derefFuel,
      bind, Except.bind, searchSymbolOperation, tfsymop, mulOperation, binaryOperation_at,
      runStackOf, listData, listElems, dataAll, dataAt]
  case inr.inr.inr.inl =>
    by_cases hB : divUndefined A B = true
    · simp [binaryValue, hB] at hv
    · simp only [binaryValue, hB, Bool.false_eq_true, ite_false, Option.some.injEq] at hv
      subst hv
      simp [evalListFrom, eval, load, listGetObject, store, tfdaCount, derefObject, derefFuel,
        bind, Except.bind, searchSymbolOperation, tfsymop, divOperation, binaryOperation_at, hB,
        runStackOf, listData, listElems, dataAll, dataAt]
  case inr.inr.inr.inr.inl =>
    simp only [binaryValue, Option.some.injEq] at hv
    subst hv
    simp [evalListFrom, eval, load, listGetObject, store, tfdaCount, derefObject, derefFuel,
      bind, Except.bind, searchSymbolOperation, tfsymop, lessOperation, binaryOperation_at,
      runStackOf, listData, listElems, dataAll, dataAt]
  case inr.inr.inr.inr.inr.inl =>
    simp only [binaryValue, Option.some.injEq] at hv
    subst hv
    simp [evalListFrom, eval, load, listGetObject, store, tfdaCount, derefObject, derefFuel,
      bind, Except.bind, searchSymbolOperation, tfsymop, greaterOperation, binaryOperation_at,
      runStackOf, listData, listElems, dataAll, dataAt]
  all_goals simp [binaryValue] at hv

/-- On operands below 2^31 the six operators are exact wherever the exact
result is below 2^31 too. -/
theorem binaryValue_exact (a b : Nat) (ha : a < 2147483648) (hb : b < 2147483648) :
    (a + b < 2147483648 →
        binaryValue .addOperation (wrap32 a) (wrap32 b) = some (.int ((a : Int) + b))) ∧
      binaryValue .subOperation (wrap32 a) (wrap32 b) = some (.int ((a : Int) - b)) ∧
      (a * b < 2147483648 →
        binaryValue .mulOperation (wrap32 a) (wrap32 b) = some (.int ((a : Int) * b))) ∧
      (b ≠ 0 →
        binaryValue .divOperation (wrap32 a) (wrap32 b) = some (.int ((a / b : Nat) : Int))) ∧
      binaryValue .lessOperation (wrap32 a) (wrap32 b) = some (.bool (if a < b then 1 else 0)) ∧
      binaryValue .greaterOperation (wrap32 a) (wrap32 b) =
        some (.bool (if a > b then 1 else 0)) := by
  have wa : wrap32 (a : Int) = a := wrap32_of_small _ (by omega) (by omega)
  have wb : wrap32 (b : Int) = b := wrap32_of_small _ (by omega) (by omega)
  rw [wa, wb]
  refine ⟨fun h => ?_, ?_, fun h => ?_, fun h => ?_, ?_, ?_⟩
  · simp only [binaryValue]
    rw [wrap32_of_small ((a : Int) + b) (by omega) (by omega)]
  · simp only [binaryValue]
    rw [wrap32_of_small ((a : Int) - b) (by omega) (by omega)]
  · simp only [binaryValue]
    have h2 : ((a : Int) * b) = ((a * b : Nat) : Int) := by push_cast; rfl
    rw [h2, wrap32_of_small ((a * b : Nat) : Int) (by omega) (by omega)]
  · have hb0 : divUndefined (a : Int) (b : Int) = false := by
      simp only [divUndefined, Bool.or_eq_false_iff, decide_eq_false_iff_not,
        Bool.and_eq_false_iff]
      omega
    have hq : a / b < 2147483648 := lt_of_le_of_lt (Nat.div_le_self a b) ha
    simp only [binaryValue, hb0, Bool.false_eq_true, ite_false, ← Int.ofNat_tdiv]
    generalize a / b = q at hq
    rw [wrap32_of_small (q : Int) (by omega) (by omega)]
  · simp only [binaryValue, Nat.cast_lt]
  · simp only [binaryValue, gt_iff_lt, Nat.cast_lt]

/-- C1 as amended: for decimal literals `a` and `b` and each of the operators
`+ - * / < >`, compiling and executing the text `a b op` followed by one
whitespace character ends normally with exactly one value on the stack, the
one the operator computes from the 32-bit values of `a` and `b` (`binaryValue`:
the result of `+ - * /` reduced to 32 bits, `/` truncating and where it is
defined, the Boolean 1 or 0 for `<` and `>`); when `a` and `b` are below 2^31
that is a+b, a-b, a*b, a/b wherever this result is below 2^31 as well, and the
Boolean of a<b, a>b. -/
theorem C1_binary_program (da db tail : List Char) (c1 c2 c3 : Char)
    (ent : tfsymop_entry) (v : tfdata) (fuel : Nat)
    (hent : ent ∈ tfsymop) (hlen : ent.len = 1)
    (hna : da ≠ []) (hda : ∀ d ∈ da, isdigit d = true)
    (hnb : db ≠ []) (hdb : ∀ d ∈ db, isdigit d = true)
    (hc1 : isspace c1 = true) (hc2 : isspace c2 = true) (hc3 : isspace c3 = true)
    (hv : binaryValue ent.func (wrap32 (decimalValue da)) (wrap32 (decimalValue db)) = some v)
    (hfuel : 5 ≤ fuel) :
    runStack fuel (da ++ c1 :: (db ++ c2 :: (ent.str ++ c3 :: tail)))
        (da.length + db.length + 4) = .ok [v] ∧
      (decimalValue da < 2147483648 → decimalValue db < 2147483648 →
        (decimalValue da + decimalValue db < 2147483648 →
          binaryValue .addOperation (wrap32 (decimalValue da)) (wrap32 (decimalValue db)) =
            some (.int ((decimalValue da : Int) + decimalValue db))) ∧
        binaryValue .subOperation (wrap32 (decimalValue da)) (wrap32 (decimalValue db)) =
          some (.int ((decimalValue da : Int) - decimalValue db)) ∧
        (decimalValue da * decimalValue db < 2147483648 →
          binaryValue .mulOperation (wrap32 (decimalValue da)) (wrap32 (decimalValue db)) =
            some (.int ((decimalValue da : Int) * decimalValue db))) ∧
        (decimalValue db ≠ 0 →
          binaryValue .divOperation (wrap32 (decimalValue da)) (wrap32 (decimalValue db)) =
            some (.int ((decimalValue da / decimalValue db : Nat) : Int))) ∧
        binaryValue .lessOperation (wrap32 (decimalValue da)) (wrap32 (decimalValue db)) =
          some (.bool (if decimalValue da < decimalValue db then 1 else 0)) ∧
        binaryValue .greaterOperation (wrap32 (decimalValue da)) (wrap32 (decimalValue db)) =
          some (.bool (if decimalValue da > decimalValue db then 1 else 0))) := by
  refine ⟨?_, fun ha hb => binaryValue_exact _ _ ha hb⟩
  obtain ⟨k, rfl⟩ := Nat.exists_eq_add_of_le hfuel
  rw [Nat.add_comm 5 k]
  simp only [runStack, run, bind, Except.bind,
    compile_binary da db tail c1 c2 c3 ent k hent hlen hna hda hnb hdb hc1 hc2 hc3]
  rw [digitsFrom_zero da hda, digitsFrom_zero db hdb]
  exact exec_binary k _ _ ent v hent hv

/-- C1 as amended, at the program `20 22 + ` with a trailing newline. -/
theorem C1_program_20_22_plus :
    runStack 10 "20 22 +\n".toList 8 = .ok [.int 42] :=
  (C1_binary_program ['2', '0'] ['2', '2'] [] ' ' ' ' '\n' ⟨['+'], 1, .addOperation⟩
    (.int 42) 10 (by decide) rfl (by simp) (by decide) (by simp) (by decide) (by decide)
    (by decide) (by decide) (by decide!) (by decide)).1

/-- C1 as stated fails twice: the text `1 2 +`, with nothing after the
operator, is not compiled at all (the operator needs a character after it to be
recognised, and `parseObject` ends the process with `exit(0)`); and
`2147483647 1 + ` leaves the Integer -2147483648, not 2147483648. -/
theorem C1_fails_without_trailing_whitespace_and_on_overflow :
    (∀ fuel : Nat, run fuel "1 2 +".toList 5 = .error .fuel ∨
        run fuel "1 2 +".toList 5 =
          .error (.exit 0 "TODO: parseObject: handle other types")) ∧
      runStack 10 "2147483647 1 + ".toList 15 = .ok [.int (-2147483648)] := by
  refine ⟨fun fuel => ?_, by decide!⟩
  rcases Nat.lt_or_ge fuel 4 with hlt | hge
  · left
    interval_cases fuel <;> decide!
  · right
    obtain ⟨k, rfl⟩ := Nat.exists_eq_add_of_le hge
    rw [Nat.add_comm]
    simp [run, compile, compileLoop, parseObject, parseListItems, parseSymbol, scanSymbol,
      scanDigits, parserTrimLeft, trimLeft, peek, isspace, isdigit, isalnum, ispunct,
      issymbolStart, tfsymop, createListObject, createIntObject, createObject,
      listAppendObject, load, store, tfdaReserve_fresh, tfdaReserve_room, hasReleased, TFDA_INIT_CAP, derefObject,
      derefFuel, bind, Except.bind]

/-! ## Stepping through a heap -/

theorem Holds.lt {h : Heap} {a : Nat} {o : tfobj} (ho : Holds h a o) : a < h.length := by
  unfold Holds at ho
  by_contra hge
  rw [List.getElem?_eq_none (by omega)] at ho
  cases ho

theorem load_of_holds {h : Heap} {a : Nat} {o : tfobj} (ho : Holds h a o) :
    load h a = .ok o := by
  unfold Holds at ho
  simp [load, ho]

theorem holds_store_self {h : Heap} {a : Nat} (o : tfobj) (ha : a < h.length) :
    Holds (store h a o) a o := by
  simp [Holds, store, List.getElem?_set, ha]

theorem holds_store_of_ne {h : Heap} {a b : Nat} {o : tfobj} (o' : tfobj) (hne : a ≠ b)
    (ho : Holds h b o) : Holds (store h a o') b o := by
  unfold Holds at ho ⊢
  simp [store, List.getElem?_set, hne, ho]

theorem holds_append {h : Heap} {a : Nat} {o : tfobj} (l : Heap) (ho : Holds h a o) :
    Holds (h ++ l) a o := by
  have hlt := ho.lt
  unfold Holds at ho ⊢
  rw [List.getElem?_append_left hlt]
  exact ho

theorem holds_append_new (h : Heap) (o : tfobj) : Holds (h ++ [some o]) h.length o := by
  simp [Holds]

theorem length_store (h : Heap) (a : Nat) (o : tfobj) : (store h a o).length = h.length := by
  simp [store]

theorem listPopObject_of_holds {h : Heap} {st : Nat} {rc : Int} {cap : Nat} {es : List Nat}
    {x : Nat} (hst : Holds h st ⟨rc, .list (some ⟨cap, es ++ [x]⟩)⟩) :
    listPopObject h st = .ok (store h st ⟨rc, .list (some ⟨cap, es⟩)⟩, x) := by
  simp [listPopObject, load_of_holds hst, bind, Except.bind]

theorem listAppendObject_of_holds {h : Heap} {st v : Nat} {rc r : Int} {cap : Nat}
    {es : List Nat} {d : tfdata} (hst : Holds h st ⟨rc, .list (some ⟨cap, es⟩)⟩)
    (hcap : es.length + 1 < cap) (hv : Holds h v ⟨r, d⟩) (hne : st ≠ v) :
    listAppendObject h st v =
      .ok (store (store h st ⟨rc, .list (some ⟨cap, es ++ [v]⟩)⟩) v ⟨r + 1, d⟩) := by
  have h2 := holds_store_of_ne (⟨rc, .list (some ⟨cap, es ++ [v]⟩)⟩) hne hv
  simp [listAppendObject, load_of_holds hst, bind, Except.bind,
    tfdaReserve_room _ cap es 24 1 (by omega), load_of_holds h2]

theorem derefObject_of_holds_gt {h : Heap} {v : Nat} {r : Int} {d : tfdata} (fuel : Nat)
    (hv : Holds h v ⟨r, d⟩) (hr : 1 < r) :
    derefObject (fuel + 1) h v = .ok (store h v ⟨r - 1, d⟩) := by
  have h3 : ¬ (r - 1 = 0) := by omega
  have h4 : 0 < r := by omega
  rw [derefObject]
  simp [load_of_holds hv, bind, Except.bind, h4, h3]

theorem derefObject_of_holds {h : Heap} {v : Nat} {r : Int} {d : tfdata} (fuel : Nat)
    (hv : Holds h v ⟨r, d⟩) (hr : 0 < r) (hd : (∃ x, d = .int x) ∨ (∃ x, d = .bool x)) :
    derefObject (fuel + 1) h v = .ok (released h v r d) := by
  have hlt := hv.lt
  by_cases h1 : r = 1
  · subst h1
    have h2 : load (h.set v (some ⟨0, d⟩)) v = .ok ⟨0, d⟩ :=
      load_of_holds (holds_store_self (h := h) (⟨0, d⟩ : tfobj) hlt)
    rw [derefObject]
    rcases hd with ⟨x, rfl⟩ | ⟨x, rfl⟩ <;>
      simp [load_of_holds hv, bind, Except.bind, freeObject, h2, released, store]
  · rw [derefObject_of_holds_gt fuel hv (by omega)]
    simp [released, h1]

theorem getElem?_store_of_ne (h : Heap) {a b : Nat} (o : tfobj) (hne : a ≠ b) :
    (store h a o)[b]? = h[b]? := by
  simp [store, List.getElem?_set, hne]

theorem getElem?_released_of_ne (h : Heap) {a b : Nat} (r : Int) (d : tfdata) (hne : a ≠ b) :
    (released h a r d)[b]? = h[b]? := by
  unfold released
  split
  · simp [List.getElem?_set, hne]
  · exact getElem?_store_of_ne h _ hne

theorem holds_released_of_ne {h : Heap} {a b : Nat} {o : tfobj} (r : Int) (d : tfdata)
    (hne : a ≠ b) (ho : Holds h b o) : Holds (released h a r d) b o := by
  unfold Holds at ho ⊢
  rw [getElem?_released_of_ne h r d hne]
  exact ho

theorem length_released (h : Heap) (a : Nat) (r : Int) (d : tfdata) :
    (released h a r d).length = h.length := by
  unfold released
  split <;> simp [store]

theorem ne_of_holds {h : Heap} {a b : Nat} {o o' : tfobj} (ha : Holds h a o) (hb : Holds h b o')
    (hne : o ≠ o') : a ≠ b := by
  rintro rfl
  unfold Holds at ha hb
  rw [ha] at hb
  exact hne (by simpa using hb)

theorem getElem?_released_self (h : Heap) (a : Nat) (r : Int) (d : tfdata)
    (ha : a < h.length) :
    (released h a r d)[a]? = if r = 1 then some none else some (some ⟨r - 1, d⟩) := by
  unfold released
  split <;> simp [store, List.getElem?_set, ha]

/-- An arithmetic or comparison operator on a stack that ends with two
Integers. -/
theorem binaryOperation_ok (site : String) (result : Int → Int → Except Stop tfdata)
    (m : Machine) (ctx : tfctx) (rc : Int) (cap : Nat) (s : List Nat) (ax ay : Nat)
    (rx ry x y : Int) (d : tfdata)
    (hst : Holds m.heap ctx.stack ⟨rc, .list (some ⟨cap, s ++ [ax, ay]⟩)⟩)
    (hcap : s.length + 2 ≤ cap)
    (hax : Holds m.heap ax ⟨rx, .int x⟩) (hay : Holds m.heap ay ⟨ry, .int y⟩)
    (hrx : 0 < rx) (hry : 0 < ry) (hsame : ax = ay → 2 ≤ rx)
    (hres : result x y = .ok d) :
    ∃ m', binaryOperation site result m ctx = .ok m' ∧
      Holds m'.heap ctx.stack ⟨rc, .list (some ⟨cap, s ++ [m.heap.length]⟩)⟩ ∧
      Holds m'.heap m.heap.length ⟨1, d⟩ ∧ m'.out = m.out ∧
      (∀ a, a ≠ ctx.stack → a ≠ ax → a ≠ ay → a < m.heap.length →
        m'.heap[a]? = m.heap[a]?) ∧
      m'.heap.length = m.heap.length + 1 ∧
      (ax ≠ ay →
        m'.heap[ax]? = (if rx = 1 then some none else some (some ⟨rx - 1, .int x⟩)) ∧
        m'.heap[ay]? = (if ry = 1 then some none else some (some ⟨ry - 1, .int y⟩))) ∧
      (ax = ay →
        m'.heap[ax]? = (if rx = 2 then some none else some (some ⟨rx - 2, .int x⟩))) := by
  obtain ⟨h0, out⟩ := m
  obtain ⟨st⟩ := ctx
  simp only at hst hax hay ⊢
  have hstlt := hst.lt
  have haxlt := hax.lt
  have haylt := hay.lt
  have hne1 : st ≠ ax := ne_of_holds hst hax (by simp)
  have hne2 : st ≠ ay := ne_of_holds hst hay (by simp)
  -- the two pops
  have hst' : Holds h0 st ⟨rc, .list (some ⟨cap, (s ++ [ax]) ++ [ay]⟩)⟩ := by simpa using hst
  have e1 := listPopObject_of_holds hst'
  have hst1 := holds_store_self (h := h0) (⟨rc, .list (some ⟨cap, s ++ [ax]⟩)⟩ : tfobj) hstlt
  have e2 := listPopObject_of_holds hst1
  set h2 := store (store h0 st ⟨rc, .list (some ⟨cap, s ++ [ax]⟩)⟩) st
    ⟨rc, .list (some ⟨cap, s⟩)⟩ with hh2
  have hlen2 : h2.length = h0.length := by simp [hh2, length_store]
  have hst2 : Holds h2 st ⟨rc, .list (some ⟨cap, s⟩)⟩ :=
    holds_store_self _ (by simpa [length_store] using hstlt)
  have hax2 : Holds h2 ax ⟨rx, .int x⟩ :=
    holds_store_of_ne _ hne1 (holds_store_of_ne _ hne1 hax)
  have hay2 : Holds h2 ay ⟨ry, .int y⟩ :=
    holds_store_of_ne _ hne2 (holds_store_of_ne _ hne2 hay)
  -- the result and its push
  have hst3 : Holds (h2 ++ [some ⟨1, d⟩]) st ⟨rc, .list (some ⟨cap, s⟩)⟩ := holds_append _ hst2
  have hr3 : Holds (h2 ++ [some ⟨1, d⟩]) h2.length ⟨1, d⟩ := holds_append_new h2 ⟨1, d⟩
  have hner : st ≠ h2.length := by omega
  have e3 := listAppendObject_of_holds hst3 (by omega) hr3 hner
  set h5 := store (store (h2 ++ [some ⟨1, d⟩]) st ⟨rc, .list (some ⟨cap, s ++ [h2.length]⟩)⟩)
    h2.length ⟨1 + 1, d⟩ with hh5
  have hlen5 : h5.length = h0.length + 1 := by simp [hh5, length_store, hlen2]
  have hr5 : Holds h5 h2.length ⟨1 + 1, d⟩ :=
    holds_store_self _ (by simp [length_store])
  have e4 := derefObject_of_holds_gt h5.length hr5 (by decide)
  set h6 := store h5 h2.length ⟨1 + 1 - 1, d⟩ with hh6
  have hlen6 : h6.length = h0.length + 1 := by simp [hh6, length_store, hlen5]
  have hst6 : Holds h6 st ⟨rc, .list (some ⟨cap, s ++ [h2.length]⟩)⟩ :=
    holds_store_of_ne _ hner.symm (holds_store_of_ne _ hner.symm
      (holds_store_self _ (by simp; omega)))
  have hr6 : Holds h6 h2.length ⟨1, d⟩ := by
    have := holds_store_self (h := h5) (⟨1 + 1 - 1, d⟩ : tfobj) (a := h2.length) (by omega)
    simpa using this
  have hnxr : h2.length ≠ ax := by omega
  have hnyr : h2.length ≠ ay := by omega
  have hax6 : Holds h6 ax ⟨rx, .int x⟩ :=
    holds_store_of_ne _ hnxr (holds_store_of_ne _ hnxr (holds_store_of_ne _ hne1
      (holds_append _ hax2)))
  have hay6 : Holds h6 ay ⟨ry, .int y⟩ :=
    holds_store_of_ne _ hnyr (holds_store_of_ne _ hnyr (holds_store_of_ne _ hne2
      (holds_append _ hay2)))
  -- the releases of the operands
  have e5 := derefObject_of_holds h6.length hax6 hrx (Or.inl ⟨x, rfl⟩)
  set h7 := released h6 ax rx (.int x) with hh7
  have hlen7 : h7.length = h0.length + 1 := by simp [hh7, length_released, hlen6]
  have frame : ∀ a, a ≠ st → a ≠ ax → a < h0.length → h7[a]? = h0[a]? := by
    intro a ha1 ha2 ha3
    rw [hh7, getElem?_released_of_ne _ _ _ (Ne.symm ha2), hh6,
      getElem?_store_of_ne _ _ (by omega), hh5, getElem?_store_of_ne _ _ (by omega),
      getElem?_store_of_ne _ _ (Ne.symm ha1), List.getElem?_append_left (by omega), hh2,
      getElem?_store_of_ne _ _ (Ne.symm ha1), getElem?_store_of_ne _ _ (Ne.symm ha1)]
  by_cases hxy : ax = ay
  · subst hxy
    have hrx2 : 2 ≤ rx := hsame rfl
    have hxy : x = y := by
      have h1 := hax
      unfold Holds at h1 hay
      rw [h1] at hay
      simp only [Option.some.injEq, tfobj.mk.injEq, tfdata.int.injEq] at hay
      exact hay.2
    subst hxy
    have hax7 : Holds h7 ax ⟨rx - 1, .int x⟩ := by
      have h1 : rx ≠ 1 := by omega
      have : h7 = store h6 ax ⟨rx - 1, .int x⟩ := by simp [hh7, released, h1]
      rw [this]
      exact holds_store_self _ (by omega)
    have e6 := derefObject_of_holds h7.length hax7 (by omega) (Or.inl ⟨x, rfl⟩)
    refine ⟨⟨released h7 ax (rx - 1) (.int x), out⟩, ?_, ?_, ?_, rfl, ?_,
      by simp [length_released, hlen7], fun hne => absurd rfl hne, fun _ => ?_⟩
    rotate_right
    · show (released h7 ax (rx - 1) (.int x))[ax]? = _
      rw [getElem?_released_self _ _ _ _ (by omega)]
      have e1 : (rx - 1 = 1) = (rx = 2) := by
        apply propext
        constructor <;> intro h <;> omega
      have e2 : rx - 1 - 1 = rx - 2 := by omega
      simp only [e1, e2]
    · simp only [binaryOperation, bind, Except.bind, e1, e2, load_of_holds hax2, hres,
        createObject, e3, derefFuel, e4, e5, e6]
    · rw [← hlen2]
      exact holds_released_of_ne _ _ hne1.symm (holds_released_of_ne _ _ hne1.symm hst6)
    · rw [← hlen2]
      exact holds_released_of_ne _ _ hnxr.symm (holds_released_of_ne _ _ hnxr.symm hr6)
    · intro a ha1 ha2 _ ha3
      rw [getElem?_released_of_ne _ _ _ (Ne.symm ha2)]
      exact frame a ha1 ha2 ha3
  · have hay7 : Holds h7 ay ⟨ry, .int y⟩ := holds_released_of_ne _ _ hxy hay6
    have e6 := derefObject_of_holds h7.length hay7 hry (Or.inl ⟨y, rfl⟩)
    refine ⟨⟨released h7 ay ry (.int y), out⟩, ?_, ?_, ?_, rfl, ?_,
      by simp [length_released, hlen7], fun _ => ⟨?_, ?_⟩, fun he => absurd he hxy⟩
    rotate_right 2
    · show (released h7 ay ry (.int y))[ax]? = _
      rw [getElem?_released_of_ne _ _ _ (Ne.symm hxy), hh7,
        getElem?_released_self _ _ _ _ (by omega)]
    · show (released h7 ay ry (.int y))[ay]? = _
      rw [getElem?_released_self _ _ _ _ (by omega)]
    · simp only [binaryOperation, bind, Except.bind, e1, e2, load_of_holds hax2,
        load_of_holds hay2, hres, createObject, e3, derefFuel, e4, e5, e6]
    · rw [← hlen2]
      exact holds_released_of_ne _ _ hne2.symm (holds_released_of_ne _ _ hne1.symm hst6)
    · rw [← hlen2]
      exact holds_released_of_ne _ _ hnyr.symm (holds_released_of_ne _ _ hnxr.symm hr6)
    · intro a ha1 ha2 ha4 ha3
      rw [getElem?_released_of_ne _ _ _ (Ne.symm ha4)]
      exact frame a ha1 ha2 ha3

/-- With fewer than two values on the stack the operator stops the process. -/
theorem binaryOperation_underflow (site : String) (result : Int → Int → Except Stop tfdata)
    (m : Machine) (ctx : tfctx) (rc : Int) (l : Option (tfda Nat))
    (hst : Holds m.heap ctx.stack ⟨rc, .list l⟩)
    (hl : ∀ d, l = some d → d.elems.length < 2) :
    ∃ e, binaryOperation site result m ctx = .error e ∧ e ≠ .fuel := by
  have hstlt := hst.lt
  rcases l with _ | ⟨cap, es⟩
  · exact ⟨.fault "tfdaCount",
      by simp [binaryOperation, listPopObject, load_of_holds hst, bind, Except.bind], by simp⟩
  · have h2 := hl _ rfl
    rcases es with _ | ⟨a, _ | ⟨b, es⟩⟩
    · exact ⟨.assertion "listPopObject",
        by simp [binaryOperation, listPopObject, load_of_holds hst, bind, Except.bind], by simp⟩
    · have hst' : Holds m.heap ctx.stack ⟨rc, .list (some ⟨cap, [] ++ [a]⟩)⟩ := by simpa using hst
      have e1 := listPopObject_of_holds hst'
      have hst1 := holds_store_self (h := m.heap) (⟨rc, .list (some ⟨cap, []⟩)⟩ : tfobj) hstlt
      refine ⟨.assertion "listPopObject", ?_, by simp⟩
      simp only [binaryOperation, bind, Except.bind, e1]
      simp [listPopObject, load_of_holds hst1, bind, Except.bind]
    · simp only [List.length_cons] at h2
      omega

/-- With a value that is not an Integer among the top two the operator stops
on its assertion. -/
theorem binaryOperation_type (site : String) (result : Int → Int → Except Stop tfdata)
    (m : Machine) (ctx : tfctx) (rc : Int) (cap : Nat) (s : List Nat) (ax ay : Nat)
    (ox oy : tfobj)
    (hst : Holds m.heap ctx.stack ⟨rc, .list (some ⟨cap, s ++ [ax, ay]⟩)⟩)
    (hax : Holds m.heap ax ox) (hay : Holds m.heap ay oy)
    (hty : ox.type ≠ .INT ∨ oy.type ≠ .INT) :
    binaryOperation site result m ctx = .error (.assertion site) := by
  have hstlt := hst.lt
  have hst' : Holds m.heap ctx.stack ⟨rc, .list (some ⟨cap, (s ++ [ax]) ++ [ay]⟩)⟩ := by
    simpa using hst
  have e1 := listPopObject_of_holds hst'
  have hst1 := holds_store_self (h := m.heap) (⟨rc, .list (some ⟨cap, s ++ [ax]⟩)⟩ : tfobj) hstlt
  have e2 := listPopObject_of_holds hst1
  set h2 := store (store m.heap ctx.stack ⟨rc, .list (some ⟨cap, s ++ [ax]⟩)⟩) ctx.stack
    ⟨rc, .list (some ⟨cap, s⟩)⟩ with hh2
  have hst2 : Holds h2 ctx.stack ⟨rc, .list (some ⟨cap, s⟩)⟩ :=
    holds_store_self _ (by simpa [length_store] using hstlt)
  have key : ∀ a o, Holds m.heap a o → ∃ o', Holds h2 a o' ∧ (o.type ≠ .INT → o'.type ≠ .INT) := by
    intro a o ho
    by_cases hea : ctx.stack = a
    · subst hea
      exact ⟨_, hst2, fun _ => by simp [tfobj.type]⟩
    · exact ⟨o, holds_store_of_ne _ hea (holds_store_of_ne _ hea ho), id⟩
  obtain ⟨o1, ho1, t1⟩ := key ax ox hax
  obtain ⟨o2, ho2, t2⟩ := key ay oy hay
  simp only [binaryOperation, bind, Except.bind, e1, e2, load_of_holds ho1, load_of_holds ho2]
  obtain ⟨r1, d1⟩ := o1
  obtain ⟨r2, d2⟩ := o2
  rcases hty with hty | hty
  · have h1 := t1 hty
    cases d1 <;> cases d2 <;> first | rfl | exact absurd rfl h1
  · have h1 := t2 hty
    cases d1 <;> cases d2 <;> first | rfl | exact absurd rfl h1

/-- With two Integers on top for which the operation is undefined the operator
stops as the computation of the result does. -/
theorem binaryOperation_undefined (site : String) (result : Int → Int → Except Stop tfdata)
    (m : Machine) (ctx : tfctx) (rc : Int) (cap : Nat) (s : List Nat) (ax ay : Nat)
    (rx ry x y : Int) (e : Stop)
    (hst : Holds m.heap ctx.stack ⟨rc, .list (some ⟨cap, s ++ [ax, ay]⟩)⟩)
    (hax : Holds m.heap ax ⟨rx, .int x⟩) (hay : Holds m.heap ay ⟨ry, .int y⟩)
    (hres : result x y = .error e) :
    binaryOperation site result m ctx = .error e := by
  have hstlt := hst.lt
  have hne1 : ctx.stack ≠ ax := ne_of_holds hst hax (by simp)
  have hne2 : ctx.stack ≠ ay := ne_of_holds hst hay (by simp)
  have hst' : Holds m.heap ctx.stack ⟨rc, .list (some ⟨cap, (s ++ [ax]) ++ [ay]⟩)⟩ := by
    simpa using hst
  have e1 := listPopObject_of_holds hst'
  have hst1 := holds_store_self (h := m.heap) (⟨rc, .list (some ⟨cap, s ++ [ax]⟩)⟩ : tfobj) hstlt
  have e2 := listPopObject_of_holds hst1
  have hax2 := holds_store_of_ne (⟨rc, .list (some ⟨cap, s⟩)⟩ : tfobj) hne1
    (holds_store_of_ne (⟨rc, .list (some ⟨cap, s ++ [ax]⟩)⟩ : tfobj) hne1 hax)
  have hay2 := holds_store_of_ne (⟨rc, .list (some ⟨cap, s⟩)⟩ : tfobj) hne2
    (holds_store_of_ne (⟨rc, .list (some ⟨cap, s ++ [ax]⟩)⟩ : tfobj) hne2 hay)
  simp only [binaryOperation, bind, Except.bind, e1, e2, load_of_holds hax2,
    load_of_holds hay2, hres]

/-- Each of the six operators is the common body with a computation that
follows `binaryValue`. -/
theorem binaryCode_eq (f : tfsymop_function) (op : Machine → tfctx → Except Stop Machine)
    (hop : binaryCode f = some op) :
    ∃ site result, op = binaryOperation site result ∧
      (∀ x y d, binaryValue f x y = some d → result x y = .ok d) ∧
      (∀ x y, binaryValue f x y = none → result x y = .error (.fault "divOperation")) := by
  cases f <;> simp only [binaryCode, Option.some.injEq] at hop <;> try cases hop
  · exact ⟨_, _, rfl, fun x y d h => by simpa [binaryValue] using h,
      fun x y h => by simp [binaryValue] at h⟩
  · exact ⟨_, _, rfl, fun x y d h => by simpa [binaryValue] using h,
      fun x y h => by simp [binaryValue] at h⟩
  · exact ⟨_, _, rfl, fun x y d h => by simpa [binaryValue] using h,
      fun x y h => by simp [binaryValue] at h⟩
  · refine ⟨_, _, rfl, fun x y d h => ?_, fun x y h => ?_⟩
    · by_cases hy : divUndefined x y = true
      · simp [binaryValue, hy] at h
      · simpa [binaryValue, hy] using h
    · by_cases hy : divUndefined x y = true
      · simp [hy]
      · simp [binaryValue, hy] at h
  · exact ⟨_, _, rfl, fun x y d h => by simpa [binaryValue] using h,
      fun x y h => by simp [binaryValue] at h⟩
  · exact ⟨_, _, rfl, fun x y d h => by simpa [binaryValue] using h,
      fun x y h => by simp [binaryValue] at h⟩

/-- C10 as amended: for each of the operators `+ - * / < >` (`binaryCode`) and
every stack (a List object, at `ctx.stack`).

* When the stack is `s ++ [ax, ay]` with Integers `x` at `ax` (deeper) and `y`
  at `ay` (top), for `/` with `y ≠ 0` and a quotient that fits 32 bits (all but
  -2^31 / -1), the operation succeeds: the stack is `s`
  with one new value pushed, the Integer x+y, x-y, x*y or x/y (truncated toward
  zero) reduced to 32 bits in two's complement, or the Boolean 1 or 0 of x<y,
  x>y (`binaryValue`); the new value has refcount 1 and is the one cell the
  heap gains, nothing is printed, and no cell other than the stack and the two
  operands changes. Each operand loses one reference for each of the two top
  slots that held it, and is released when none is left: two distinct operands
  go from `rx`, `ry` to `rx - 1`, `ry - 1`, an object in both top slots from
  `rx` to `rx - 2`, with the value kept. So every object whose refcount exceeds
  the number of top slots holding it, as that of an object also held by a slot
  below does, is still there with its data after the operation. This is for a
  stack whose buffer has room for its count and whose two top slots are owned
  references (refcount at least 1, at least 2 for an object held by both).
* With fewer than two values on the stack, with a value that is not an Integer
  among the top two, or for `/` where the division is undefined, the operation
  does not return: it stops the process, for a reason other than the budget. -/
theorem C10_binary_operators (f : tfsymop_function)
    (op : Machine → tfctx → Except Stop Machine) (m : Machine) (ctx : tfctx) (rc : Int)
    (l : Option (tfda Nat)) (hop : binaryCode f = some op)
    (hst : Holds m.heap ctx.stack ⟨rc, .list l⟩) :
    (∀ cap s ax ay rx ry x y d, l = some ⟨cap, s ++ [ax, ay]⟩ → s.length + 2 ≤ cap →
        Holds m.heap ax ⟨rx, .int x⟩ → Holds m.heap ay ⟨ry, .int y⟩ →
        0 < rx → 0 < ry → (ax = ay → 2 ≤ rx) → binaryValue f x y = some d →
        ∃ m', op m ctx = .ok m' ∧
          Holds m'.heap ctx.stack ⟨rc, .list (some ⟨cap, s ++ [m.heap.length]⟩)⟩ ∧
          Holds m'.heap m.heap.length ⟨1, d⟩ ∧ m'.out = m.out ∧
          (∀ a, a ≠ ctx.stack → a ≠ ax → a ≠ ay → a < m.heap.length →
            m'.heap[a]? = m.heap[a]?) ∧
          m'.heap.length = m.heap.length + 1 ∧
          (ax ≠ ay →
            m'.heap[ax]? = (if rx = 1 then some none else some (some ⟨rx - 1, .int x⟩)) ∧
            m'.heap[ay]? = (if ry = 1 then some none else some (some ⟨ry - 1, .int y⟩))) ∧
          (ax = ay →
            m'.heap[ax]? = (if rx = 2 then some none else some (some ⟨rx - 2, .int x⟩))) ∧
          ∀ a o, a ≠ ctx.stack → Holds m.heap a o → (List.count a [ax, ay] : Int) < o.refcount →
            Holds m'.heap a ⟨o.refcount - List.count a [ax, ay], o.data⟩) ∧
      ((∀ d, l = some d → d.elems.length < 2) → ∃ e, op m ctx = .error e ∧ e ≠ .fuel) ∧
      (∀ cap s ax ay ox oy, l = some ⟨cap, s ++ [ax, ay]⟩ →
        Holds m.heap ax ox → Holds m.heap ay oy → (ox.type ≠ .INT ∨ oy.type ≠ .INT) →
        ∃ e, op m ctx = .error e ∧ e ≠ .fuel) ∧
      (∀ cap s ax ay rx ry x y, l = some ⟨cap, s ++ [ax, ay]⟩ →
        Holds m.heap ax ⟨rx, .int x⟩ → Holds m.heap ay ⟨ry, .int y⟩ →
        binaryValue f x y = none → ∃ e, op m ctx = .error e ∧ e ≠ .fuel) := by
  obtain ⟨site, result, rfl, hsome, hnone⟩ := binaryCode_eq f op hop
  refine ⟨?_, ?_, ?_, ?_⟩
  · intro cap s ax ay rx ry x y d hl hcap hax hay hrx hry hsame hv
    subst hl
    obtain ⟨m', hm', hst', hnew, hout, hframe, hlen, hne, heq⟩ :=
      binaryOperation_ok site result m ctx rc cap s ax ay rx ry x y d hst hcap hax hay hrx
        hry hsame (hsome x y d hv)
    refine ⟨m', hm', hst', hnew, hout, hframe, hlen, hne, heq, ?_⟩
    intro a o hast ha hcount
    have halt : a < m.heap.length := by
      rcases Nat.lt_or_ge a m.heap.length with h | h
      · exact h
      · have hnone := List.getElem?_eq_none h
        unfold Holds at ha
        rw [hnone] at ha
        exact absurd ha (by simp)
    unfold Holds at ha hax hay ⊢
    by_cases h1 : a = ax
    · subst h1
      have ho : o = ⟨rx, .int x⟩ := by
        rw [ha] at hax
        simpa using hax
      subst ho
      by_cases h2 : a = ay
      · subst h2
        have hc : (2 : Int) < rx := by simpa using hcount
        rw [heq rfl, if_neg (by omega)]
        simp
      · have hc : (1 : Int) < rx := by simpa [List.count_cons, Ne.symm h2] using hcount
        rw [(hne h2).1, if_neg (by omega)]
        simp [List.count_cons, Ne.symm h2]
    · by_cases h2 : a = ay
      · subst h2
        have ho : o = ⟨ry, .int y⟩ := by
          rw [ha] at hay
          simpa using hay
        subst ho
        have hc : (1 : Int) < ry := by simpa [List.count_cons, Ne.symm h1] using hcount
        rw [(hne (Ne.symm h1)).2, if_neg (by omega)]
        simp [List.count_cons, Ne.symm h1]
      · rw [hframe a hast h1 h2 halt, ha]
        simp [List.count_cons, Ne.symm h1, Ne.symm h2]
  · intro hl
    exact binaryOperation_underflow site result m ctx rc l hst hl
  · intro cap s ax ay ox oy hl hax hay hty
    subst hl
    exact ⟨_, binaryOperation_type site result m ctx rc cap s ax ay ox oy hst hax hay hty,
      by simp⟩
  · intro cap s ax ay rx ry x y hl hax hay hv
    subst hl
    exact ⟨_, binaryOperation_undefined site result m ctx rc cap s ax ay rx ry x y _ hst hax
      hay (hnone x y hv), by simp⟩

/-- C10 as amended, at the stack of `5 dup dup` and `+`: the three slots hold
one Integer of refcount 3; the stack becomes `[5, 10]`, and the Integer 5 that
the slot below still holds stays, with refcount 1. -/
theorem C10_add_5_dup_dup :
    ∃ m', addOperation ⟨[some ⟨1, .list (some ⟨256, [1, 1, 1]⟩)⟩, some ⟨3, .int 5⟩], []⟩ ⟨0⟩ =
        .ok m' ∧
      Holds m'.heap 0 ⟨1, .list (some ⟨256, [1] ++ [2]⟩)⟩ ∧
      Holds m'.heap 2 ⟨1, .int 10⟩ ∧ m'.out = [] ∧
      m'.heap.length = 2 + 1 ∧
      m'.heap[1]? = some (some ⟨1, .int 5⟩) ∧
      Holds m'.heap 1 ⟨3 - 2, .int 5⟩ :=
  have h := (C10_binary_operators .addOperation addOperation
    ⟨[some ⟨1, .list (some ⟨256, [1, 1, 1]⟩)⟩, some ⟨3, .int 5⟩], []⟩ ⟨0⟩ 1
    (some ⟨256, [1, 1, 1]⟩) rfl rfl).1 256 [1] 1 1 3 3 5 5 (.int 10) rfl (by decide) rfl rfl
    (by decide) (by decide) (by decide) (by decide!)
  match h with
  | ⟨m', hm', hst, hnew, hout, _, hlen, _, heq, hkept⟩ =>
    ⟨m', hm', hst, hnew, hout, hlen, heq rfl, hkept 1 ⟨3, .int 5⟩ (by decide) rfl (by decide)⟩

/-- C10 as stated fails: on the stack `[2147483647, 1]` the operator `+` pushes
the Integer -2147483648, not 2147483648. -/
theorem C10_add_overflow_wraps :
    addOperation ⟨[some ⟨1, .list (some ⟨256, [1, 2]⟩)⟩, some ⟨1, .int 2147483647⟩,
        some ⟨1, .int 1⟩], []⟩ ⟨0⟩ =
      .ok ⟨[some ⟨1, .list (some ⟨256, [3]⟩)⟩, none, none,
        some ⟨1, .int (-2147483648)⟩], []⟩ := by
  decide!

/-! ## Parsing lists -/

theorem handleAfter_snoc (as : List Nat) (a : Nat) :
    handleAfter (as ++ [a]) = appendHandle (handleAfter as) a := by
  simp [handleAfter, List.foldl_append]

/-- The buffer of a list to which at most 256 addresses have been appended
still is the one of its first allocation. -/
theorem handleAfter_narrow (as : List Nat) (hlen : as.length ≤ 256) :
    handleAfter as = if as = [] then none else some ⟨256, as⟩ := by
  induction as using List.reverseRecOn with
  | nil => rfl
  | append_singleton as a ih =>
    simp only [List.length_append, List.length_cons, List.length_nil] at hlen
    rw [handleAfter_snoc, ih (by omega)]
    by_cases hnil : as = []
    · subst hnil
      simp [appendHandle, tfdaReserve_fresh]
    · simp [appendHandle, hnil, tfdaReserve_room false 256 as 24 1 (by omega)]

theorem handleAfter_spec (as : List Nat) (hlen : as.length ≤ 256) :
    (as = [] ∧ handleAfter as = none) ∨ handleAfter as = some ⟨256, as⟩ := by
  rw [handleAfter_narrow as hlen]
  by_cases hnil : as = []
  · exact Or.inl ⟨hnil, by simp [hnil]⟩
  · exact Or.inr (by simp [hnil])

theorem reserve_handleAfter (as : List Nat) (a : Nat) (hlen : as.length < 256) :
    ∃ d, tfdaReserve false (handleAfter as) 24 1 = .ok d ∧
      handleAfter (as ++ [a]) = some ⟨d.capacity, d.elems ++ [a]⟩ := by
  rw [handleAfter_snoc]
  rcases handleAfter_spec as (by omega) with ⟨rfl, h0⟩ | h1
  · rw [h0]
    exact ⟨⟨256, []⟩, by simp [tfdaReserve_fresh], by simp [appendHandle, tfdaReserve_fresh]⟩
  · rw [h1]
    exact ⟨⟨256, as⟩, tfdaReserve_room false 256 as 24 1 (by omega),
      by simp [appendHandle, tfdaReserve_room false 256 as 24 1 (by omega)]⟩

/-- A List whose buffer is the one of at most 256 appends gives no sign of a
released block. -/
theorem hasReleased_handle (rc : Int) (as : List Nat) (hlen : as.length ≤ 256) :
    hasReleased [some ⟨rc, .list (handleAfter as)⟩] = false := by
  apply hasReleased_one
  intro da hda
  rcases handleAfter_spec as hlen with ⟨-, h0⟩ | h1
  · rw [h0] at hda
    cases hda
  · rw [h1] at hda
    cases hda
    rfl

theorem store_mid (h₁ h₂ : Heap) (c : Option tfobj) (o : tfobj) :
    store (h₁ ++ c :: h₂) h₁.length o = h₁ ++ some o :: h₂ := by
  induction h₁ with
  | nil => simp [store]
  | cons a l ih =>
    simp only [store] at ih
    simp [store, ih]

theorem holds_mid (h₁ h₂ : Heap) (o : tfobj) : Holds (h₁ ++ some o :: h₂) h₁.length o :=
  getElem?_mid h₁ h₂ (some o)

theorem store_of_holds {h : Heap} {a : Nat} {o : tfobj} (ho : Holds h a o) : store h a o = h := by
  have hlt := ho.lt
  unfold Holds at ho
  apply List.ext_getElem?
  intro i
  by_cases hi : a = i
  · subst hi
    simp [store, List.getElem?_set, ho, hlt]
  · simp [store, List.getElem?_set, hi]

theorem store_store (h : Heap) (a : Nat) (o o' : tfobj) :
    store (store h a o) a o' = store h a o' := by
  simp [store]

/-- Appending a freshly parsed object to the list under construction and
releasing the parser's own reference. -/
theorem append_child {H : Heap} {L b : Nat} {done : List Nat} {d : tfdata}
    (hL : Holds H L ⟨1, .list (handleAfter done)⟩) (hb : Holds H b ⟨1, d⟩) (hne : L ≠ b)
    (hlen : done.length < 256) (hrel : hasReleased H = false) :
    ∃ H1, listAppendObject H L b = .ok H1 ∧
      derefObject (derefFuel H1) H1 b =
        .ok (store H L ⟨1, .list (handleAfter (done ++ [b]))⟩) := by
  obtain ⟨da, hres, hnew⟩ := reserve_handleAfter done b hlen
  have hb1 : Holds (store H L ⟨1, .list (handleAfter (done ++ [b]))⟩) b ⟨1, d⟩ :=
    holds_store_of_ne _ hne hb
  refine ⟨store (store H L ⟨1, .list (handleAfter (done ++ [b]))⟩) b ⟨1 + 1, d⟩, ?_, ?_⟩
  · rw [hnew] at hb1 ⊢
    simp only [listAppendObject, load_of_holds hL, bind, Except.bind, hrel, hres,
      load_of_holds hb1]
  · have h2 : Holds (store (store H L ⟨1, .list (handleAfter (done ++ [b]))⟩) b ⟨1 + 1, d⟩) b
        ⟨1 + 1, d⟩ := holds_store_self _ (by simpa [length_store] using hb.lt)
    rw [derefFuel, derefObject_of_holds_gt _ h2 (by decide), store_store]
    have : (1 + 1 - 1 : Int) = 1 := by decide
    rw [this, store_of_holds hb1]

theorem image_length : ∀ x : Src, ∀ b, (x.image b).length = x.cells :=
  @Src.rec (fun x => ∀ b, (x.image b).length = x.cells)
    (fun xs => ∀ b, (xs.image b).length = xs.cells)
    (fun ds sep b => by simp [Src.image, Src.cells])
    (fun lead items trail ih b => by simp [Src.image, Src.cells, ih])
    (fun ent sep b => by simp [Src.image, Src.cells])
    (fun v sep b => by simp [Src.image, Src.cells])
    (fun b => by simp [SrcList.image, SrcList.cells])
    (fun x xs ihx ihxs b => by simp [SrcList.image, SrcList.cells, ihx, ihxs])

theorem image_head (x : Src) (b : Nat) : ∃ d tl, x.image b = some ⟨1, d⟩ :: tl := by
  cases x with
  | num ds sep => exact ⟨_, _, by rw [Src.image]⟩
  | list lead items trail => exact ⟨_, _, by rw [Src.image]⟩
  | sym ent sep => exact ⟨_, _, by rw [Src.image]⟩
  | bool v sep => exact ⟨_, _, by rw [Src.image]⟩

theorem addrs_length : ∀ (xs : SrcList) (b : Nat), (xs.addrs b).length = xs.length
  | .nil, _ => rfl
  | .cons x xs, b => by simp [SrcList.addrs, SrcList.length, addrs_length xs]

/-- The objects of a text whose lists hold fewer than 256 items give no sign of
a released block. -/
theorem hasReleased_image : ∀ x : Src, x.narrow → ∀ b, hasReleased (x.image b) = false :=
  @Src.rec (fun x => x.narrow → ∀ b, hasReleased (x.image b) = false)
    (fun xs => xs.narrow → ∀ b, hasReleased (xs.image b) = false)
    (fun ds sep _ b => rfl)
    (fun lead items trail ih hn b => by
      simp only [Src.narrow] at hn
      rw [Src.image, hasReleased_cons, ih hn.2,
        hasReleased_handle 1 _ (by rw [addrs_length]; omega)]
      rfl)
    (fun ent sep _ b => rfl)
    (fun v sep _ b => rfl)
    (fun _ b => rfl)
    (fun x xs ihx ihxs hn b => by
      simp only [SrcList.narrow] at hn
      rw [SrcList.image, hasReleased_append, ihx hn.1, ihxs hn.2]
      rfl)

theorem tfsymop_len (ent : tfsymop_entry) (hent : ent ∈ tfsymop) : ent.len = ent.str.length := by
  simp only [tfsymop, List.mem_cons, List.mem_singleton, List.not_mem_nil, or_false] at hent
  rcases hent with rfl | rfl | rfl | rfl | rfl | rfl | rfl | rfl | rfl | rfl | rfl | rfl | rfl <;>
    rfl

theorem tfsymop_head (ent : tfsymop_entry) (hent : ent ∈ tfsymop) :
    ∃ c tl, ent.str = c :: tl ∧ isspace c = false ∧ c ≠ ']' := by
  simp only [tfsymop, List.mem_cons, List.mem_singleton, List.not_mem_nil, or_false] at hent
  rcases hent with rfl | rfl | rfl | rfl | rfl | rfl | rfl | rfl | rfl | rfl | rfl | rfl | rfl <;>
    exact ⟨_, _, rfl, by decide, by decide⟩

/-- The literal `true` or `false` followed by a whitespace character parses to
the Boolean 1 or 0. -/
theorem parseObject_bool {text : List Char} {e p : Nat} (fuel : Nat) (h : Heap) (b : Bool)
    (ws : List Char) (c : Char) (rest : List Char)
    (hd : text.drop p = ws ++ (boolText b ++ c :: rest))
    (hws : ∀ w ∈ ws, isspace w = true) (hc : isspace c = true) (hlt : p + ws.length < e) :
    parseObject (fuel + 1) ⟨text, e, p⟩ h =
      .ok (some h.length, ⟨text, e, p + ws.length + (boolText b).length⟩,
        h ++ [some ⟨1, .bool (if b then 1 else 0)⟩]) := by
  have hge : ¬ (p + ws.length ≥ e) := by omega
  have h2 : text.drop (p + ws.length) = boolText b ++ c :: rest := drop_after hd
  have h3 : text.drop (p + ws.length + (boolText b).length) = c :: rest := drop_after h2
  cases b with
  | true =>
    have hscan := scanSymbol_run ['t', 'r', 'u', 'e'] c rest (p + ws.length) (by decide) hc
    simp only [boolText, ite_true, List.cons_append, List.nil_append, List.length_cons,
      List.length_nil, Nat.zero_add] at hd h2 h3 hscan ⊢
    have h1 := parserTrimLeft_stop (e := e) ws _ _ hd hws (by decide) (by omega)
    have hs : issymbolStart 't' = true := by decide
    rw [parseObject]
    simp [h1, bind, Except.bind, hge, peek, h2, h3, isdigit, tfsymop, hs,
      parseSymbol, hscan, hc, createBoolObject, createObject]
  | false =>
    have hscan := scanSymbol_run ['f', 'a', 'l', 's', 'e'] c rest (p + ws.length) (by decide) hc
    simp only [boolText, Bool.false_eq_true, ite_false, List.cons_append, List.nil_append,
      List.length_cons, List.length_nil, Nat.zero_add] at hd h2 h3 hscan ⊢
    have h1 := parserTrimLeft_stop (e := e) ws _ _ hd hws (by decide) (by omega)
    have hs : issymbolStart 'f' = true := by decide
    rw [parseObject]
    simp [h1, bind, Except.bind, hge, peek, h2, h3, isdigit, tfsymop, hs,
      parseSymbol, hscan, hc, createBoolObject, createObject]

theorem parsesTo_sym (ent : tfsymop_entry) (sep : List Char) : ParsesTo (.sym ent sep) := by
  intro hwf _ fuel text e p h ws rest hfuel hd hws hle _
  simp only [Src.wf] at hwf
  obtain ⟨hent, hsep, hsp⟩ := hwf
  simp only [Src.core, Src.sep, Src.cost, Src.image, Src.slack] at hfuel hd hle ⊢
  obtain ⟨f, rfl⟩ := Nat.exists_eq_add_of_le hfuel
  have hlen := tfsymop_len ent hent
  rw [Nat.add_comm 1 f, ← hlen]
  exact parseObject_builtin f h ent hent ws (sep ++ rest) hd hws (by omega)

theorem parsesTo_bool (v : Bool) (sep : List Char) : ParsesTo (.bool v sep) := by
  intro hwf _ fuel text e p h ws rest hfuel hd hws hle _
  simp only [Src.wf] at hwf
  obtain ⟨hsep, hsp⟩ := hwf
  obtain ⟨c, sep', rfl⟩ := List.exists_cons_of_ne_nil hsep
  simp only [Src.core, Src.sep, Src.cost, Src.image, Src.slack] at hfuel hd hle ⊢
  obtain ⟨f, rfl⟩ := Nat.exists_eq_add_of_le hfuel
  have hpos : 0 < (boolText v).length := by cases v <;> decide
  rw [Nat.add_comm 1 f]
  exact parseObject_bool f h v ws c (sep' ++ rest) (by simpa using hd) hws (hsp c (by simp))
    (by omega)

theorem parsesTo_num (ds sep : List Char) : ParsesTo (.num ds sep) := by
  intro hwf _ fuel text e p h ws rest hfuel hd hws hle _
  simp only [Src.wf] at hwf
  obtain ⟨hne, hds, hsep, hsp⟩ := hwf
  obtain ⟨c, sep', rfl⟩ := List.exists_cons_of_ne_nil hsep
  simp only [Src.core, Src.sep, Src.cost, Src.image, Src.slack, Nat.add_zero] at hfuel hd hle ⊢
  obtain ⟨f, rfl⟩ := Nat.exists_eq_add_of_le hfuel
  have hlen : 0 < ds.length := List.length_pos.2 hne
  rw [Nat.add_comm 1 f]
  exact parseObject_number f h ws ds c (sep' ++ rest) (by simpa using hd) hws hne hds
    (hsp c (by simp)) (by omega)

theorem itemsParseTo_nil : ItemsParseTo .nil := by
  intro _ _ fuel text e p h0 done blocks ws rest hfuel hd hws hle _ _ _
  simp only [SrcList.render, SrcList.cost, SrcList.addrs, SrcList.image, List.nil_append,
    List.length_nil, Nat.add_zero, List.append_nil] at hfuel hd hle ⊢
  obtain ⟨f, rfl⟩ := Nat.exists_eq_add_of_le hfuel
  rw [Nat.add_comm 1 f, parseListItems]
  by_cases hpe : p < e
  · cases ws with
    | nil =>
      simp [hpe, peek, hd, bind, Except.bind]
    | cons w ws' =>
      have hw : isspace w = true := hws w (by simp)
      have h1 := parserTrimLeft_stop (e := e) (w :: ws') ']' rest hd hws (by decide) hle
      have h2 : text.drop (p + (w :: ws').length) = ']' :: rest := drop_after hd
      have hwb : w ≠ ']' := ne_bracket_of_isspace hw
      simp only [hpe, ite_true, bind, Except.bind, peek_eq (by simpa using hd), ne_eq, hwb,
        not_false_eq_true, h1, peek_eq h2]
  · have : ws = [] := by
      cases ws with
      | nil => rfl
      | cons w ws' => simp only [List.length_cons] at hle; omega
    subst this
    simp [hpe]

theorem core_head (x : Src) (hwf : x.wf) :
    ∃ c tl, x.core = c :: tl ∧ isspace c = false ∧ c ≠ ']' := by
  cases x with
  | num ds sep =>
    simp only [Src.wf] at hwf
    obtain ⟨d, ds', rfl⟩ := List.exists_cons_of_ne_nil hwf.1
    have hd : isdigit d = true := hwf.2.1 d (by simp)
    exact ⟨d, ds', by rw [Src.core], isspace_of_isdigit hd, ne_bracket_of_isdigit hd⟩
  | list lead items trail =>
    exact ⟨'[', _, by rw [Src.core], by decide, by decide⟩
  | sym ent sep =>
    simp only [Src.wf] at hwf
    obtain ⟨c, tl, hc, h1, h2⟩ := tfsymop_head ent hwf.1
    exact ⟨c, tl, by rw [Src.core, hc], h1, h2⟩
  | bool v sep =>
    cases v
    · exact ⟨'f', _, by rw [Src.core]; rfl, by decide, by decide⟩
    · exact ⟨'t', _, by rw [Src.core]; rfl, by decide, by decide⟩

theorem sep_space (x : Src) (hwf : x.wf) : ∀ w ∈ x.sep, isspace w = true := by
  cases x with
  | num ds sep =>
    simp only [Src.wf] at hwf
    simpa [Src.sep] using hwf.2.2.2
  | list lead items trail =>
    simp only [Src.wf] at hwf
    simpa [Src.sep] using hwf.2.2
  | sym ent sep =>
    simp only [Src.wf] at hwf
    simpa [Src.sep] using hwf.2.2
  | bool v sep =>
    simp only [Src.wf] at hwf
    simpa [Src.sep] using hwf.2

theorem slack_le_sep (x : Src) (hwf : x.wf) : x.slack ≤ x.sep.length := by
  cases x with
  | num ds sep => simp [Src.slack]
  | list lead items trail => simp [Src.slack]
  | sym ent sep =>
    simp only [Src.wf] at hwf
    have := List.length_pos.2 hwf.2.1
    simpa [Src.slack, Src.sep] using this
  | bool v sep => simp [Src.slack]

theorem itemsParseTo_cons (x : Src) (xs : SrcList) (ihx : ParsesTo x)
    (ihxs : ItemsParseTo xs) : ItemsParseTo (.cons x xs) := by
  intro hwf hnar fuel text e p h0 done blocks ws rest hfuel hd hws hle hlen hr0 hrb
  simp only [SrcList.wf] at hwf
  simp only [SrcList.narrow] at hnar
  simp only [SrcList.length] at hlen
  obtain ⟨hx, hxs⟩ := hwf
  have hrH : hasReleased (h0 ++ some (⟨1, .list (handleAfter done)⟩ : tfobj) :: blocks) =
      false := by
    rw [hasReleased_append, hasReleased_cons, hr0, hrb, hasReleased_handle 1 done (by omega)]
    rfl
  obtain ⟨c, tl, hcore, hcs, hcb⟩ := core_head x hx
  have hsl := slack_le_sep x hx
  simp only [SrcList.render, SrcList.cost, SrcList.addrs, SrcList.image, List.length_append,
    List.append_assoc] at hfuel hd hle ⊢
  obtain ⟨f, rfl⟩ := Nat.exists_eq_add_of_le (show 1 ≤ fuel by omega)
  have hcl : 0 < x.core.length := by rw [hcore]; simp
  have hpe : p < e := by omega
  -- the heap on entry and the address of the next object
  have hH : (h0 ++ some (⟨1, .list (handleAfter done)⟩ : tfobj) :: blocks).length =
      h0.length + 1 + blocks.length := by
    simp only [List.length_append, List.length_cons]
    omega
  -- the characters in front of the cursor
  have hd1 : text.drop p = ws ++ c :: (tl ++ (x.sep ++ (xs.render ++ ']' :: rest))) := by
    rw [hd, hcore]; simp
  have hfirst : ∃ y r, text.drop p = y :: r ∧ y ≠ ']' := by
    cases ws with
    | nil => exact ⟨c, _, by simpa using hd1, hcb⟩
    | cons w ws' => exact ⟨w, _, by simpa using hd1, ne_bracket_of_isspace (hws w (by simp))⟩
  obtain ⟨y, r, hy, hyb⟩ := hfirst
  have h1 := parserTrimLeft_stop (e := e) ws c _ hd1 hws hcs (by omega)
  have hd2 : text.drop (p + ws.length) = c :: (tl ++ (x.sep ++ (xs.render ++ ']' :: rest))) :=
    drop_after hd1
  have hd2' : text.drop (p + ws.length) = [] ++ (x.core ++ (x.sep ++ (xs.render ++ ']' :: rest))) := by
    rw [hd2, hcore]; simp
  have hd3 : text.drop (p + ws.length + x.core.length) =
      x.sep ++ (xs.render ++ ']' :: rest) := drop_after (by simpa using hd2')
  -- the item
  have e1 := ihx hx hnar.1 f text e (p + ws.length)
    (h0 ++ some ⟨1, .list (handleAfter done)⟩ :: blocks)
    [] (xs.render ++ ']' :: rest) (by omega) hd2' (by simp) (by simp; omega) (Or.inl hrH)
  rw [hH] at e1
  obtain ⟨d, itl, himg⟩ := image_head x (h0.length + 1 + blocks.length)
  -- its insertion into the list
  have hL : Holds ((h0 ++ some ⟨1, .list (handleAfter done)⟩ :: blocks) ++
      x.image (h0.length + 1 + blocks.length)) h0.length ⟨1, .list (handleAfter done)⟩ :=
    holds_append _ (holds_mid h0 blocks _)
  have hb : Holds ((h0 ++ some ⟨1, .list (handleAfter done)⟩ :: blocks) ++
      x.image (h0.length + 1 + blocks.length)) (h0.length + 1 + blocks.length) ⟨1, d⟩ := by
    rw [himg, ← hH]
    exact holds_mid _ itl _
  have hrI := hasReleased_image x hnar.1 (h0.length + 1 + blocks.length)
  obtain ⟨H1, ea, ed⟩ := append_child hL hb (by omega) (by omega)
    (by rw [hasReleased_append, hrH, hrI]; rfl)
  have hstore : store ((h0 ++ some ⟨1, .list (handleAfter done)⟩ :: blocks) ++
      x.image (h0.length + 1 + blocks.length)) h0.length
        ⟨1, .list (handleAfter (done ++ [h0.length + 1 + blocks.length]))⟩ =
      h0 ++ some ⟨1, .list (handleAfter (done ++ [h0.length + 1 + blocks.length]))⟩ ::
        (blocks ++ x.image (h0.length + 1 + blocks.length)) := by
    have := store_mid h0 (blocks ++ x.image (h0.length + 1 + blocks.length))
      (some ⟨1, .list (handleAfter done)⟩)
      ⟨1, .list (handleAfter (done ++ [h0.length + 1 + blocks.length]))⟩
    simpa using this
  rw [hstore] at ed
  -- the rest of the items
  have hdone : (done ++ [h0.length + 1 + blocks.length]).length + xs.length < 256 := by
    simp only [List.length_append, List.length_cons, List.length_nil]
    omega
  have e2 := ihxs hxs hnar.2 f text e (p + ws.length + x.core.length) h0
    (done ++ [h0.length + 1 + blocks.length])
    (blocks ++ x.image (h0.length + 1 + blocks.length)) x.sep rest (by omega) hd3
    (sep_space x hx) (by omega) hdone hr0 (by rw [hasReleased_append, hrb, hrI]; rfl)
  have hlen2 : h0.length + 1 + (blocks ++ x.image (h0.length + 1 + blocks.length)).length =
      h0.length + 1 + blocks.length + x.cells := by
    rw [List.length_append, image_length]
    omega
  rw [hlen2] at e2
  rw [Nat.add_comm 1 f, parseListItems]
  simp only [hpe, ite_true, bind, Except.bind, peek_eq hy, ne_eq, hyb, not_false_eq_true, h1,
    peek_eq hd2, hcb, ite_false, e1, Nat.add_zero, ea, ed, List.length_nil]
  rw [e2]
  simp [Nat.add_assoc]

theorem parsesTo_list (lead : List Char) (items : SrcList) (trail : List Char)
    (ih : ItemsParseTo items) : ParsesTo (.list lead items trail) := by
  intro hwf hnar fuel text e p h ws rest hfuel hd hws hle hrel
  simp only [Src.wf] at hwf
  simp only [Src.narrow] at hnar
  have hrel : hasReleased h = false := hrel.resolve_right (by simp [Src.atom])
  obtain ⟨hlead, hitems, htrail⟩ := hwf
  simp only [Src.core, Src.sep, Src.cost, Src.image, Src.slack, List.length_cons,
    List.length_append, List.length_nil] at hfuel hd hle ⊢
  obtain ⟨f, rfl⟩ := Nat.exists_eq_add_of_le (show 1 ≤ fuel by omega)
  have hd1 : text.drop p =
      ws ++ '[' :: (lead ++ (items.render ++ ']' :: (trail ++ rest))) := by
    rw [hd]; simp
  have h1 := parserTrimLeft_stop (e := e) ws '[' _ hd1 hws (by decide) (by omega)
  have hd2 : text.drop (p + ws.length) =
      ['['] ++ (lead ++ (items.render ++ ']' :: (trail ++ rest))) := drop_after hd1
  have hd3 : text.drop (p + ws.length + 1) =
      lead ++ (items.render ++ ']' :: (trail ++ rest)) := drop_after hd2
  have hge : ¬ (p + ws.length ≥ e) := by omega
  have e1 := ih hitems hnar.2 f text e (p + ws.length + 1) h [] [] lead (trail ++ rest)
    (by omega) hd3 hlead (by omega) (by simpa using hnar.1) hrel rfl
  have hd4 : text.drop (p + ws.length + 1 + lead.length + items.render.length) =
      [] ++ ']' :: (trail ++ rest) := by
    have h4 : text.drop (p + ws.length + 1 + lead.length) =
        items.render ++ ']' :: (trail ++ rest) := drop_after hd3
    simpa using drop_after h4
  have h5 := parserTrimLeft_stop (e := e) [] ']' (trail ++ rest) hd4 (by simp) (by decide)
    (by simp; omega)
  rw [Nat.add_comm 1 f, parseObject]
  simp only [h1, bind, Except.bind, hge, ite_false, peek_eq (by simpa using hd2), createListObject,
    createObject]
  have hnd : isdigit '[' = false := by decide
  simp only [hnd, ite_true, Bool.false_eq_true, ite_false]
  have e1' : parseListItems f ⟨text, e, p + ws.length + 1⟩ (h ++ [some ⟨1, .list none⟩]) h.length =
      .ok (⟨text, e, p + ws.length + 1 + lead.length + items.render.length⟩,
        h ++ some ⟨1, .list (handleAfter (SrcList.addrs (h.length + 1) items))⟩ ::
          SrcList.image (h.length + 1) items) := by
    simpa [handleAfter] using e1
  rw [e1']
  simp only [h5, List.length_nil, Nat.add_zero, peek_eq (by simpa using hd4), ne_eq,
    not_true_eq_false, ite_false]
  simp [Nat.add_assoc]
  omega

/-- Every well-formed text is parsed, within its budget, to the objects of its
image, created one after the other at the end of the heap. -/
theorem parsesTo : ∀ x : Src, ParsesTo x :=
  @Src.rec ParsesTo ItemsParseTo parsesTo_num parsesTo_list parsesTo_sym parsesTo_bool
    itemsParseTo_nil itemsParseTo_cons

theorem readsBack_num (ds sep : List Char) : ReadsBack (.num ds sep) := by
  intro hwf _ pre post k hk
  simp only [Src.wf] at hwf
  simp only [Src.depth] at hk
  obtain ⟨k', rfl⟩ := Nat.exists_eq_add_of_le hk
  rw [Nat.add_comm 1 k', readback]
  simp only [Src.image, List.cons_append, List.nil_append, getElem?_mid, Src.tree,
    digitsFrom_zero ds hwf.2.1]

theorem readsBack_list (lead : List Char) (items : SrcList) (trail : List Char)
    (ih : ItemsReadBack items) : ReadsBack (.list lead items trail) := by
  intro hwf hnar pre post k hk
  simp only [Src.wf] at hwf
  simp only [Src.narrow] at hnar
  simp only [Src.depth] at hk
  obtain ⟨k', rfl⟩ := Nat.exists_eq_add_of_le (show 1 ≤ k by omega)
  have e1 := ih hwf.2.1 hnar.2
    (pre ++ [some ⟨1, .list (handleAfter (SrcList.addrs (pre.length + 1) items))⟩])
    post k' (by omega)
  simp only [List.length_append, List.length_cons, List.length_nil, List.append_assoc,
    List.cons_append, List.nil_append, Nat.zero_add] at e1
  rw [Nat.add_comm 1 k', readback]
  simp only [Src.image, List.cons_append, getElem?_mid, Src.tree]
  rcases handleAfter_spec (SrcList.addrs (pre.length + 1) items)
    (by rw [addrs_length]; omega) with ⟨h0, h1⟩ | h1
  · rw [h1]
    cases items with
    | nil => simp [SrcList.trees]
    | cons x xs => simp [SrcList.addrs] at h0
  · rw [h1] at e1 ⊢
    simp only [e1]

theorem readsBack_sym (ent : tfsymop_entry) (sep : List Char) : ReadsBack (.sym ent sep) := by
  intro _ _ pre post k hk
  simp only [Src.depth] at hk
  obtain ⟨k', rfl⟩ := Nat.exists_eq_add_of_le hk
  rw [Nat.add_comm 1 k', readback]
  simp only [Src.image, List.cons_append, List.nil_append, getElem?_mid, Src.tree]

theorem readsBack_bool (v : Bool) (sep : List Char) : ReadsBack (.bool v sep) := by
  intro _ _ pre post k hk
  simp only [Src.depth] at hk
  obtain ⟨k', rfl⟩ := Nat.exists_eq_add_of_le hk
  rw [Nat.add_comm 1 k', readback]
  simp only [Src.image, List.cons_append, List.nil_append, getElem?_mid, Src.tree]

theorem itemsReadBack_nil : ItemsReadBack .nil := by
  intro _ _ pre post k _
  simp [SrcList.addrs, SrcList.trees, readAll]

theorem itemsReadBack_cons (x : Src) (xs : SrcList) (ihx : ReadsBack x)
    (ihxs : ItemsReadBack xs) : ItemsReadBack (.cons x xs) := by
  intro hwf hnar pre post k hk
  simp only [SrcList.wf] at hwf
  simp only [SrcList.narrow] at hnar
  simp only [SrcList.depth] at hk
  have e1 := ihx hwf.1 hnar.1 pre (xs.image (pre.length + x.cells) ++ post) k (by omega)
  have e2 := ihxs hwf.2 hnar.2 (pre ++ x.image pre.length) post k (by omega)
  simp only [List.length_append, image_length, List.append_assoc] at e2
  simp only [SrcList.addrs, SrcList.image, SrcList.trees, readAll, List.append_assoc, e1, e2]

/-- The objects of the image of a well-formed text stand for its tree. -/
theorem readsBack : ∀ x : Src, ReadsBack x :=
  @Src.rec ReadsBack ItemsReadBack readsBack_num readsBack_list readsBack_sym readsBack_bool
    itemsReadBack_nil itemsReadBack_cons

/-- C11 (the code against the claim): the parser recognises a built-in by the
leading characters of the token, not by the whole token. For every entry of
the table and every token made of the entry's name and a non-empty `suffix`
(followed by a character `c`), `parseObject` yields the Symbol of the name
alone and leaves the cursor inside the token, in front of the suffix. -/
theorem C11_builtin_name_read_off_longer_token (ent : tfsymop_entry) (suffix tail : List Char)
    (c : Char) (fuel : Nat) (h : Heap) (hent : ent ∈ tfsymop) (hs : suffix ≠ []) :
    parseObject (fuel + 1)
        ⟨ent.str ++ (suffix ++ c :: tail), ent.len + suffix.length + 1, 0⟩ h =
      .ok (some h.length,
        ⟨ent.str ++ (suffix ++ c :: tail), ent.len + suffix.length + 1, ent.len⟩,
        h ++ [some ⟨1, .symbol ent.str⟩]) := by
  have hlen : 0 < suffix.length := List.length_pos.mpr hs
  have key := @parseObject_builtin (ent.str ++ (suffix ++ c :: tail))
    (ent.len + suffix.length + 1) 0 fuel h ent hent [] (suffix ++ c :: tail)
    (by simp) (by simp) (by simp; omega)
  simpa using key

/-- C11 on the token `dupx`: the parser yields the Symbol `dup` and stops in
front of `x`; the program compiled from `dupx ` has the two elements `dup` and
`x`; executing it runs `dup`, which stops the process on the empty stack before
the symbol `x` is looked up. Likewise `5 printer ` compiles to `5`, `print`,
`er`. -/
theorem C11_dupx_is_dup_then_x :
    parseObject 1 ⟨"dupx ".toList, 5, 0⟩ [] =
        .ok (some 0, ⟨"dupx ".toList, 5, 3⟩, [some ⟨1, .symbol "dup".toList⟩]) ∧
      compiledData 10 "dupx ".toList 5 = .ok [.symbol "dup".toList, .symbol "x".toList] ∧
      run 10 "dupx ".toList 5 = .error (.fault "tfdaCount") ∧
      compiledData 10 "5 printer ".toList 10 =
        .ok [.int 5, .symbol "print".toList, .symbol "er".toList] :=
  ⟨C11_builtin_name_read_off_longer_token ⟨['d', 'u', 'p'], 3, .dupOperation⟩ ['x'] [] ' ' 0 []
    (by decide) (by decide), by decide!, by decide!, by decide!⟩

/-! ## Lists that have never been appended to -/

/-- C20 (the code against the claim): a list that has never been appended to
has a null buffer handle, and the code reads the count of a list from the
header in front of its buffer without testing for null. For every such list,
whatever its refcount, the stack and the budget: `evalList` over it,
`listPopObject` and `listGetObject` on it, printing it, and releasing its last
reference all stop on the invalid read; none returns. -/
theorem C20_count_of_null_handle_is_an_invalid_read (h : Heap) (l : Nat) (rc : Int)
    (out : List Char) (ctx : tfctx) (fuel i k : Nat) (hl : Holds h l ⟨rc, .list none⟩) :
    evalList (fuel + 2) ⟨h, out⟩ ctx l = .error (.fault "tfdaCount") ∧
      listPopObject h l = .error (.fault "tfdaCount") ∧
      listGetObject h l i = .error (.fault "tfdaCount") ∧
      printObject (fuel + 1) h l k = .error (.fault "tfdaCount") ∧
      (rc = 1 → derefObject (fuel + 1) h l = .error (.fault "tfdaCount")) := by
  have hlt := hl.lt
  refine ⟨?_, ?_, ?_, ?_, ?_⟩
  · rw [evalList, evalListFrom]
    simp [load_of_holds hl, tfdaCount, bind, Except.bind]
  · simp [listPopObject, load_of_holds hl, bind, Except.bind]
  · simp [listGetObject, load_of_holds hl, bind, Except.bind]
  · rw [printObject]
    simp [load_of_holds hl, bind, Except.bind]
  · rintro rfl
    have h2 : load (h.set l (some ⟨0, .list none⟩)) l = .ok ⟨0, .list none⟩ :=
      load_of_holds (holds_store_self (h := h) (⟨0, .list none⟩ : tfobj) hlt)
    rw [derefObject]
    simp [load_of_holds hl, bind, Except.bind, freeObject, h2, store]

/-- C20 on the list returned by `createListObject`, on the program compiled
from the empty text, on `dup` run on the fresh stack, and on `true [ ] if `:
each run stops on the invalid read. -/
theorem C20_fresh_list_and_empty_program_fault :
    (evalList 2 ⟨(createListObject []).1, []⟩ ⟨1⟩ (createListObject []).2 =
        .error (.fault "tfdaCount") ∧
      listPopObject (createListObject []).1 (createListObject []).2 =
        .error (.fault "tfdaCount") ∧
      listGetObject (createListObject []).1 (createListObject []).2 0 =
        .error (.fault "tfdaCount") ∧
      printObject 1 (createListObject []).1 (createListObject []).2 0 =
        .error (.fault "tfdaCount") ∧
      ((1 : Int) = 1 → derefObject 1 (createListObject []).1 (createListObject []).2 =
        .error (.fault "tfdaCount"))) ∧
      run 10 [] 0 = .error (.fault "tfdaCount") ∧
      run 10 "dup ".toList 4 = .error (.fault "tfdaCount") ∧
      run 50 "true [ ] if ".toList 12 = .error (.fault "tfdaCount") :=
  ⟨C20_count_of_null_handle_is_an_invalid_read (createListObject []).1 (createListObject []).2
    1 [] ⟨1⟩ 0 0 0 rfl, by decide!, by decide!, by decide!⟩

/-! ## The dynamic array -/

/-- The outcome of `tfdaReserve` on a buffer of positive capacity, or on the
null handle when no block has been given back to the allocator, as long as
count + len is no more than 2^63: the same elements, with room for `len`
more, in a capacity doubled the least number of times. -/
theorem tfdaReserve_ok {α : Type} (recycled : Bool) (da : Option (tfda α)) (tsize len : Nat)
    (hnull : da = none → recycled = false) (hcap : ∀ d, da = some d → 0 < d.capacity)
    (hsize : (bufferElems da).length + len ≤ 9223372036854775808) :
    ∃ d, tfdaReserve recycled da tsize len = .ok d ∧ d.elems = bufferElems da ∧
      (bufferElems da).length + len ≤ d.capacity ∧ 0 < d.capacity ∧
      ∃ k, d.capacity = bufferCapacity da * 2 ^ k ∧
        ∀ j, j < k → bufferCapacity da * 2 ^ j < (bufferElems da).length + len := by
  rcases da with _ | ⟨cap, es⟩
  · simp only [bufferElems, List.length_nil, Nat.zero_add] at hsize
    obtain ⟨k, hk, hle, hmin⟩ :=
      growCapacity_least 64 TFDA_INIT_CAP len (by decide) hsize (by decide)
    rw [hnull rfl]
    exact ⟨⟨TFDA_INIT_CAP * 2 ^ k, []⟩, by simp [tfdaReserve, hk, bind, Except.bind], rfl,
      by simpa [bufferElems] using hle, Nat.mul_pos (by decide) (Nat.pow_pos (by decide)), k, rfl,
      by simpa [bufferElems, bufferCapacity] using hmin⟩
  · have hpos : 0 < cap := hcap ⟨cap, es⟩ rfl
    simp only [bufferElems] at hsize
    have hw1 : wrapSize (es.length + len) = es.length + len := wrapSize_of_lt (by omega)
    have hw2 : wrapSize (len + es.length) = len + es.length := wrapSize_of_lt (by omega)
    by_cases hgt : cap > es.length + len
    · exact ⟨⟨cap, es⟩, by simp [tfdaReserve, hw1, hgt], rfl, by simp only [bufferElems]; omega,
        hpos, 0, by simp [bufferCapacity], fun j hj => by omega⟩
    · obtain ⟨k, hk, hle, hmin⟩ :=
        growCapacity_least 64 cap (len + es.length) hpos (by omega)
          (le_trans (by decide : 9223372036854775808 ≤ 1 * 2 ^ 64)
            (Nat.mul_le_mul_right _ hpos))
      refine ⟨⟨cap * 2 ^ k, es⟩, by simp [tfdaReserve, hw1, hw2, hgt, hk, bind, Except.bind],
        rfl, ?_, Nat.mul_pos hpos (Nat.pow_pos (by decide)), k, rfl, ?_⟩
      · simp only [bufferElems]
        omega
      · intro j hj
        have := hmin j hj
        simp only [bufferElems, bufferCapacity]
        omega

/-- C16 (the code against the claim): `tfdaReserve` writes the capacity into
the header of the buffer it returns, and never the count. The null handle
therefore counts as an empty buffer only as long as the new block reads as
zero: once a block has been given back to the allocator (`recycled`), the
count of the buffer returned for the null handle is whatever the new block
holds, and not 0 (first part). In every other case the claim holds, for sizes
up to 2^63 (second part): for a buffer of positive capacity, or the null handle
when no block has been given back, with count + len no more than 2^63,
`tfdaReserve` returns a buffer with the same elements in the same order, and so
the same count, whose capacity is at least count + len; the capacity is the old
one (256 for the null handle) doubled `k` times, where `k` is the least number
of doublings that reaches count + len, none when the old capacity can hold
count + len elements; and the count does not exceed the capacity after a
reserve followed by the append of `len` elements. -/
theorem C16_tfdaReserve_never_writes_the_count {α : Type} (tsize len : Nat)
    (hlen : len ≤ 9223372036854775808) :
    tfdaReserve true (none : Option (tfda α)) tsize len = .error (.uninit "tfdaReserve") ∧
      ∀ (recycled : Bool) (da : Option (tfda α)), (da = none → recycled = false) →
        (∀ d, da = some d → 0 < d.capacity) →
        (bufferElems da).length + len ≤ 9223372036854775808 →
        ∃ d, tfdaReserve recycled da tsize len = .ok d ∧
          d.elems = bufferElems da ∧
          (bufferElems da).length + len ≤ d.capacity ∧
          (∃ k, d.capacity = bufferCapacity da * 2 ^ k ∧
            ∀ j, j < k → bufferCapacity da * 2 ^ j < (bufferElems da).length + len) ∧
          ((bufferElems da).length + len ≤ bufferCapacity da →
            d.capacity = bufferCapacity da) ∧
          ∀ xs : List α, xs.length = len → (d.elems ++ xs).length ≤ d.capacity := by
  refine ⟨tfdaReserve_recycled tsize len hlen, fun recycled da hnull hcap hsize => ?_⟩
  obtain ⟨d, hd, hel, hle, -, k, hk, hmin⟩ := tfdaReserve_ok recycled da tsize len hnull hcap hsize
  refine ⟨d, hd, hel, hle, ⟨k, hk, hmin⟩, ?_, ?_⟩
  · intro hfit
    cases k with
    | zero => simpa using hk
    | succ k =>
      have := hmin 0 (by omega)
      simp only [pow_zero, Nat.mul_one] at this
      omega
  · intro xs hxs
    rw [List.length_append, hel, hxs]
    exact hle

/-- C16 at one slot of 24 bytes: the reserve on the null handle after a block
has been given back to the allocator, as in `listAppendObject` on a list that
has never been appended to, leaves the count undetermined; the reserves on the
null handle before that, on a full buffer of capacity 256 and on one with room
are as the claim says, and so is `tfdaStringCat` of three characters onto the
null handle. -/
theorem C16_reserve_null_and_full :
    (tfdaReserve true (none : Option (tfda Nat)) 24 1 = .error (.uninit "tfdaReserve") ∧
      ∀ (recycled : Bool) (da : Option (tfda Nat)), (da = none → recycled = false) →
        (∀ d, da = some d → 0 < d.capacity) →
        (bufferElems da).length + 1 ≤ 9223372036854775808 →
        ∃ d, tfdaReserve recycled da 24 1 = .ok d ∧
          d.elems = bufferElems da ∧
          (bufferElems da).length + 1 ≤ d.capacity ∧
          (∃ k, d.capacity = bufferCapacity da * 2 ^ k ∧
            ∀ j, j < k → bufferCapacity da * 2 ^ j < (bufferElems da).length + 1) ∧
          ((bufferElems da).length + 1 ≤ bufferCapacity da →
            d.capacity = bufferCapacity da) ∧
          ∀ xs : List Nat, xs.length = 1 → (d.elems ++ xs).length ≤ d.capacity) ∧
      listAppendObject [some ⟨1, .list none⟩, none, some ⟨1, .int 5⟩] 0 2 =
        .error (.uninit "tfdaReserve") ∧
      tfdaReserve false (none : Option (tfda Nat)) 24 1 = .ok ⟨256, []⟩ ∧
      tfdaReserve true (some ⟨256, List.replicate 256 7⟩) 24 1 =
        .ok ⟨512, List.replicate 256 7⟩ ∧
      tfdaReserve true (some ⟨256, List.replicate 255 7⟩) 24 1 =
        .ok ⟨256, List.replicate 255 7⟩ ∧
      tfdaReserve false (none : Option (tfda Char)) 1 1000 = .ok ⟨1024, []⟩ ∧
      tfdaStringCat false none "1 2".toList 3 = .ok ⟨256, "1 2".toList⟩ :=
  ⟨C16_tfdaReserve_never_writes_the_count 24 1 (by decide),
    by decide!, by decide!, by decide!, by decide!, by decide!, by decide!⟩

/-! ## Append and pop -/

/-- C17 (the code against the claim): the buffer of a List that has never been
appended to is allocated by its first `listAppendObject`, and the count of that
buffer is never written. Once a block has been given back to the allocator, the
slot the first append writes and the count it leaves are not determined, and
the append followed by `listPopObject` need not return `v` nor leave the list
empty (first part). In every other case the claim holds (second part): for
every List `l` with a buffer (of positive capacity and fewer than 2^63
elements), or with a null handle when no block has been given back, and every
Value `v`, `listAppendObject l v` followed by `listPopObject l` returns `v`,
leaves `l` with the elements it had before the append, in the same order, and
leaves `v` with a refcount one higher than before the append; `v` keeps its
data when it is not `l` itself, the refcount of `l` is unchanged in that case,
and no other cell changes. -/
theorem C17_first_append_reads_unwritten_count (h : Heap) (l v : Nat) (rc rv : Int)
    (da : Option (tfda Nat)) (dv : tfdata) (hl : Holds h l ⟨rc, .list da⟩)
    (hv : Holds h v ⟨rv, dv⟩) :
    (da = none → hasReleased h = true →
        listAppendObject h l v = .error (.uninit "tfdaReserve")) ∧
      ((da = none → hasReleased h = false) →
        (∀ d, da = some d → 0 < d.capacity ∧ d.elems.length < 9223372036854775808) →
        ∃ h1 h2, listAppendObject h l v = .ok h1 ∧ listPopObject h1 l = .ok (h2, v) ∧
          listElems h2 l = some (bufferElems da) ∧
          (∃ o, Holds h2 v o ∧ o.refcount = rv + 1 ∧ (v ≠ l → o.data = dv)) ∧
          (∃ o, Holds h2 l o ∧ (v ≠ l → o.refcount = rc)) ∧
          h2.length = h.length ∧
          ∀ a, a ≠ l → a ≠ v → h2[a]? = h[a]?) := by
  refine ⟨fun hnone hrel => ?_, fun hnull hcap => ?_⟩
  · subst hnone
    simp only [listAppendObject, load_of_holds hl, bind, Except.bind, hrel,
      tfdaReserve_recycled 24 1 (by decide)]
  have hllt := hl.lt
  have hvlt := hv.lt
  obtain ⟨d, hd, hel, -, -⟩ := tfdaReserve_ok (hasReleased h) da 24 1 hnull
    (fun d hd => (hcap d hd).1) (by
      rcases da with _ | d0
      · simp [bufferElems]
      · have := (hcap d0 rfl).2
        simp only [bufferElems]
        omega)
  by_cases hvl : v = l
  · subst hvl
    have e : (⟨rv, dv⟩ : tfobj) = ⟨rc, .list da⟩ := by
      unfold Holds at hl hv
      rw [hl] at hv
      simpa using hv.symm
    simp only [tfobj.mk.injEq] at e
    obtain ⟨rfl, rfl⟩ := e
    have hs1 := holds_store_self (h := h)
      (⟨rv, .list (some ⟨d.capacity, d.elems ++ [v]⟩)⟩ : tfobj) hllt
    have hs2 := holds_store_self (h := store h v ⟨rv, .list (some ⟨d.capacity, d.elems ++ [v]⟩)⟩)
      (⟨rv + 1, .list (some ⟨d.capacity, d.elems ++ [v]⟩)⟩ : tfobj) (a := v)
      (by simpa [length_store] using hllt)
    refine ⟨_, _, ?_, listPopObject_of_holds hs2, ?_, ?_, ?_, ?_, ?_⟩
    · simp only [listAppendObject, load_of_holds hl, bind, Except.bind, hd, load_of_holds hs1]
    · simp [listElems, store, hllt, hel]
    · exact ⟨_, holds_store_self _ (by simpa [length_store] using hllt), rfl,
        fun hne => absurd rfl hne⟩
    · exact ⟨_, holds_store_self _ (by simpa [length_store] using hllt),
        fun hne => absurd rfl hne⟩
    · simp [length_store]
    · intro a ha _
      simp [store, List.getElem?_set, Ne.symm ha]
  · have hs1 := holds_store_of_ne (⟨rc, .list (some ⟨d.capacity, d.elems ++ [v]⟩)⟩ : tfobj)
      (Ne.symm hvl) hv
    have hs2 : Holds (store (store h l ⟨rc, .list (some ⟨d.capacity, d.elems ++ [v]⟩)⟩) v
        ⟨rv + 1, dv⟩) l ⟨rc, .list (some ⟨d.capacity, d.elems ++ [v]⟩)⟩ :=
      holds_store_of_ne _ hvl (holds_store_self _ hllt)
    refine ⟨_, _, ?_, listPopObject_of_holds hs2, ?_, ?_, ?_, ?_, ?_⟩
    · simp only [listAppendObject, load_of_holds hl, bind, Except.bind, hd, load_of_holds hs1]
    · simp [listElems, store, hllt, hel, List.getElem?_set, hvl, Ne.symm hvl]
    · exact ⟨_, holds_store_of_ne _ (Ne.symm hvl)
        (holds_store_self _ (by simpa [length_store] using hvlt)), rfl, fun _ => rfl⟩
    · exact ⟨_, holds_store_self _ (by simpa [length_store] using hllt), fun _ => rfl⟩
    · simp [length_store]
    · intro a ha1 ha2
      simp [store, List.getElem?_set, Ne.symm ha1, Ne.symm ha2]

/-- C17 on a list that has never been appended to and the Integer 5. In a heap
with a released cell the append stops on the count that was never written. In a
heap without one the append allocates the buffer, the pop returns the Integer,
and the list is empty again, now with a buffer of capacity 256; the Integer has
refcount 2. -/
theorem C17_append_then_pop_on_fresh_list :
    listAppendObject [some ⟨1, .list none⟩, none, some ⟨1, .int 5⟩] 0 2 =
        .error (.uninit "tfdaReserve") ∧
      (∃ h1 h2, listAppendObject [some ⟨1, .list none⟩, some ⟨1, .int 5⟩] 0 1 = .ok h1 ∧
        listPopObject h1 0 = .ok (h2, 1) ∧
        listElems h2 0 = some (bufferElems none) ∧
        (∃ o, Holds h2 1 o ∧ o.refcount = 1 + 1 ∧ (1 ≠ 0 → o.data = .int 5)) ∧
        (∃ o, Holds h2 0 o ∧ (1 ≠ 0 → o.refcount = 1)) ∧
        h2.length = [some ⟨1, .list none⟩, some (⟨1, .int 5⟩ : tfobj)].length ∧
        ∀ a, a ≠ 0 → a ≠ 1 →
          h2[a]? = [some ⟨1, .list none⟩, some (⟨1, .int 5⟩ : tfobj)][a]?) ∧
      (listAppendObject [some ⟨1, .list none⟩, some ⟨1, .int 5⟩] 0 1 >>=
          fun h1 => listPopObject h1 0) =
        .ok ([some ⟨1, .list (some ⟨256, []⟩)⟩, some ⟨2, .int 5⟩], 1) :=
  ⟨(C17_first_append_reads_unwritten_count [some ⟨1, .list none⟩, none, some ⟨1, .int 5⟩] 0 2 1 1
      none (.int 5) rfl rfl).1 rfl rfl,
    (C17_first_append_reads_unwritten_count [some ⟨1, .list none⟩, some ⟨1, .int 5⟩] 0 1 1 1
      none (.int 5) rfl rfl).2 (fun _ => rfl) (fun d hd => by cases hd), by decide!⟩

/-! ## Operations that rearrange the stack -/

theorem getElem?_shift (delta : Nat → Int) (h : Heap) (i : Nat) :
    (shift delta h)[i]? =
      (h[i]?).map (fun c => c.map (fun o => { o with refcount := o.refcount + delta i })) := by
  simp [shift]

theorem length_shift (delta : Nat → Int) (h : Heap) : (shift delta h).length = h.length := by
  simp [shift]

theorem shift_zero (h : Heap) : shift (fun _ => 0) h = h := by
  apply List.ext_getElem?
  intro i
  rw [getElem?_shift]
  rcases h[i]? with _ | _ | o <;> simp

theorem holds_shift (delta : Nat → Int) {h : Heap} {a : Nat} {r : Int} {d : tfdata}
    (ho : Holds h a ⟨r, d⟩) : Holds (shift delta h) a ⟨r + delta a, d⟩ := by
  unfold Holds at ho ⊢
  simp [getElem?_shift, ho]

theorem store_shift (delta delta' : Nat → Int) (h : Heap) (a : Nat) (r r' : Int) (d : tfdata)
    (hr : r' = r + delta' a) (hd : ∀ x, x ≠ a → delta' x = delta x) :
    store (shift delta h) a ⟨r', d⟩ = shift delta' (store h a ⟨r, d⟩) := by
  apply List.ext_getElem?
  intro i
  by_cases hi : a = i
  · subst hi
    simp only [store]
    rw [getElem?_shift, List.getElem?_set, List.getElem?_set]
    by_cases hlt : a < h.length
    · simp [hlt, length_shift, hr]
    · simp [hlt, length_shift]
  · simp only [store]
    rw [getElem?_shift, List.getElem?_set, List.getElem?_set, getElem?_shift]
    simp [hi, hd i (Ne.symm hi)]

/-- The pop, on a heap of shifted refcounts. -/
theorem listPopObject_shift (delta : Nat → Int) (h : Heap) {st : Nat} {rc : Int} {cap : Nat}
    {es : List Nat} {x : Nat} (hst : Holds h st ⟨rc, .list (some ⟨cap, es ++ [x]⟩)⟩)
    (hd : delta st = 0) :
    listPopObject (shift delta h) st =
      .ok (shift delta (store h st ⟨rc, .list (some ⟨cap, es⟩)⟩), x) := by
  have h1 := holds_shift delta hst
  rw [hd, Int.add_zero] at h1
  rw [listPopObject_of_holds h1, store_shift delta delta h st rc rc _ (by simp [hd]) (fun _ _ => rfl)]

/-- The append, on a heap of shifted refcounts: one more reference to `v`. -/
theorem listAppendObject_shift (delta : Nat → Int) (h : Heap) {st v : Nat} {rc r : Int}
    {cap : Nat} {es : List Nat} {d : tfdata}
    (hst : Holds h st ⟨rc, .list (some ⟨cap, es⟩)⟩) (hd : delta st = 0)
    (hcap : es.length + 1 ≤ cap) (hv : Holds h v ⟨r, d⟩) (hne : st ≠ v) :
    listAppendObject (shift delta h) st v =
      .ok (shift (fun x => delta x + oneAt v x)
        (store h st ⟨rc, .list (some ⟨cap, es ++ [v]⟩)⟩)) := by
  have h1 := holds_shift delta hst
  rw [hd, Int.add_zero] at h1
  have h2 := holds_shift delta hv
  have h3 := holds_store_of_ne (⟨rc, .list (some ⟨cap, es ++ [v]⟩)⟩ : tfobj) hne h2
  simp only [listAppendObject, load_of_holds h1, bind, Except.bind,
    tfdaReserve_room _ cap es 24 1 hcap, load_of_holds h3]
  rw [store_shift delta delta h st rc rc _ (by simp [hd]) (fun _ _ => rfl)]
  have h4 : Holds (store h st ⟨rc, .list (some ⟨cap, es ++ [v]⟩)⟩) v ⟨r, d⟩ :=
    holds_store_of_ne _ hne hv
  rw [store_shift delta (fun x => delta x + oneAt v x) _ v r (r + delta v + 1) d
    (by simp [oneAt]; omega) (fun x hx => by simp [oneAt, hx]), store_of_holds h4]

/-- The release of a reference that is not the last, on a heap of shifted
refcounts. -/
theorem derefObject_shift (delta : Nat → Int) (h : Heap) {v : Nat} {r : Int} {d : tfdata}
    (fuel : Nat) (hv : Holds h v ⟨r, d⟩) (hr : 1 < r + delta v) :
    derefObject (fuel + 1) (shift delta h) v = .ok (shift (fun x => delta x - oneAt v x) h) := by
  have h2 := holds_shift delta hv
  rw [derefObject_of_holds_gt fuel h2 hr,
    store_shift delta (fun x => delta x - oneAt v x) h v r (r + delta v - 1) d
      (by simp [oneAt]; omega) (fun x hx => by simp [oneAt, hx]), store_of_holds hv]

/-- The function `rotOperation` on a stack that ends with three values. -/
theorem rotOperation_ok (m : Machine) (ctx : tfctx) (rc : Int) (cap : Nat) (s : List Nat)
    (a b c : Nat) (ra rb rc' : Int) (da db dc : tfdata)
    (hst : Holds m.heap ctx.stack ⟨rc, .list (some ⟨cap, s ++ [a, b, c]⟩)⟩)
    (hcap : s.length + 3 ≤ cap)
    (ha : Holds m.heap a ⟨ra, da⟩) (hb : Holds m.heap b ⟨rb, db⟩) (hc : Holds m.heap c ⟨rc', dc⟩)
    (hra : 0 < ra) (hrb : 0 < rb) (hrc : 0 < rc')
    (hna : ctx.stack ≠ a) (hnb : ctx.stack ≠ b) (hnc : ctx.stack ≠ c) :
    rotOperation m ctx =
      .ok ⟨store m.heap ctx.stack ⟨rc, .list (some ⟨cap, s ++ [b, c, a]⟩)⟩, m.out⟩ := by
  obtain ⟨h0, out⟩ := m
  obtain ⟨st⟩ := ctx
  simp only at hst ha hb hc hna hnb hnc ⊢
  have hlt := hst.lt
  have hst0 : Holds h0 st ⟨rc, .list (some ⟨cap, s ++ [a] ++ [b] ++ [c]⟩)⟩ := by simpa using hst
  have e1 := listPopObject_of_holds hst0
  have hst1 : Holds (store h0 st ⟨rc, .list (some ⟨cap, (s ++ [a]) ++ [b]⟩)⟩) st
      ⟨rc, .list (some ⟨cap, (s ++ [a]) ++ [b]⟩)⟩ := holds_store_self _ hlt
  have e2 := listPopObject_of_holds hst1
  rw [store_store] at e2
  have hst2 : Holds (store h0 st ⟨rc, .list (some ⟨cap, s ++ [a]⟩)⟩) st
      ⟨rc, .list (some ⟨cap, s ++ [a]⟩)⟩ := holds_store_self _ hlt
  have e3 := listPopObject_of_holds hst2
  rw [store_store] at e3
  -- the three appends
  have hst3 : Holds (store h0 st ⟨rc, .list (some ⟨cap, s⟩)⟩) st ⟨rc, .list (some ⟨cap, s⟩)⟩ :=
    holds_store_self _ hlt
  have e4 := listAppendObject_shift (fun _ => 0) _ hst3 rfl (by omega)
    (holds_store_of_ne _ hnb hb) hnb
  rw [shift_zero, store_store] at e4
  have hst4 : Holds (store h0 st ⟨rc, .list (some ⟨cap, s ++ [b]⟩)⟩) st
      ⟨rc, .list (some ⟨cap, s ++ [b]⟩)⟩ := holds_store_self _ hlt
  have e5 := listAppendObject_shift (fun x => (fun _ => 0) x + oneAt b x) _ hst4
    (by simp [oneAt, hnb]) (by simp; omega) (holds_store_of_ne _ hnc hc) hnc
  rw [store_store] at e5
  have hst5 : Holds (store h0 st ⟨rc, .list (some ⟨cap, s ++ [b] ++ [c]⟩)⟩) st
      ⟨rc, .list (some ⟨cap, s ++ [b] ++ [c]⟩)⟩ := holds_store_self _ hlt
  have e6 := listAppendObject_shift
    (fun x => (fun x => (fun _ => 0) x + oneAt b x) x + oneAt c x) _ hst5
    (by simp [oneAt, hnb, hnc]) (by simp; omega) (holds_store_of_ne _ hna ha) hna
  rw [store_store] at e6
  -- the three releases
  have e7 := derefObject_shift
    (fun x => (fun x => (fun x => (fun _ => 0) x + oneAt b x) x + oneAt c x) x + oneAt a x)
    (store h0 st ⟨rc, .list (some ⟨cap, s ++ [b] ++ [c] ++ [a]⟩)⟩) h0.length
    (holds_store_of_ne _ hna ha) (by simp only [oneAt]; split_ifs <;> omega)
  have e8 := derefObject_shift
    (fun x => (fun x => (fun x => (fun x => (fun _ => 0) x + oneAt b x) x + oneAt c x) x +
      oneAt a x) x - oneAt a x)
    (store h0 st ⟨rc, .list (some ⟨cap, s ++ [b] ++ [c] ++ [a]⟩)⟩) h0.length
    (holds_store_of_ne _ hnb hb) (by simp only [oneAt]; split_ifs <;> omega)
  have e9 := derefObject_shift
    (fun x => (fun x => (fun x => (fun x => (fun x => (fun _ => 0) x + oneAt b x) x +
      oneAt c x) x + oneAt a x) x - oneAt a x) x - oneAt b x)
    (store h0 st ⟨rc, .list (some ⟨cap, s ++ [b] ++ [c] ++ [a]⟩)⟩) h0.length
    (holds_store_of_ne _ hnc hc) (by simp only [oneAt]; split_ifs <;> omega)
  have hz : (fun x => (fun x => (fun x => (fun x => (fun x => (fun x => (fun _ => (0 : Int)) x +
      oneAt b x) x + oneAt c x) x + oneAt a x) x - oneAt a x) x - oneAt b x) x - oneAt c x) =
      fun _ => 0 := by
    funext x
    simp only
    ring
  rw [hz, shift_zero] at e9
  simp only [rotOperation, bind, Except.bind, e1, e2, e3, e4, e5, e6, derefFuel, length_shift,
    length_store, e7, e8, e9]
  simp

/-- The function `swapOperation` on a stack that ends with two values. -/
theorem swapOperation_ok (m : Machine) (ctx : tfctx) (rc : Int) (cap : Nat) (s : List Nat)
    (a b : Nat) (ra rb : Int) (da db : tfdata)
    (hst : Holds m.heap ctx.stack ⟨rc, .list (some ⟨cap, s ++ [a, b]⟩)⟩)
    (hcap : s.length + 2 ≤ cap)
    (ha : Holds m.heap a ⟨ra, da⟩) (hb : Holds m.heap b ⟨rb, db⟩)
    (hra : 0 < ra) (hrb : 0 < rb) (hna : ctx.stack ≠ a) (hnb : ctx.stack ≠ b) :
    swapOperation m ctx =
      .ok ⟨store m.heap ctx.stack ⟨rc, .list (some ⟨cap, s ++ [b, a]⟩)⟩, m.out⟩ := by
  obtain ⟨h0, out⟩ := m
  obtain ⟨st⟩ := ctx
  simp only at hst ha hb hna hnb ⊢
  have hlt := hst.lt
  have hst0 : Holds h0 st ⟨rc, .list (some ⟨cap, s ++ [a] ++ [b]⟩)⟩ := by simpa using hst
  have e1 := listPopObject_of_holds hst0
  have hst1 : Holds (store h0 st ⟨rc, .list (some ⟨cap, s ++ [a]⟩)⟩) st
      ⟨rc, .list (some ⟨cap, s ++ [a]⟩)⟩ := holds_store_self _ hlt
  have e2 := listPopObject_of_holds hst1
  rw [store_store] at e2
  have hst3 : Holds (store h0 st ⟨rc, .list (some ⟨cap, s⟩)⟩) st ⟨rc, .list (some ⟨cap, s⟩)⟩ :=
    holds_store_self _ hlt
  have e4 := listAppendObject_shift (fun _ => 0) _ hst3 rfl (by omega)
    (holds_store_of_ne _ hnb hb) hnb
  rw [shift_zero, store_store] at e4
  have hst4 : Holds (store h0 st ⟨rc, .list (some ⟨cap, s ++ [b]⟩)⟩) st
      ⟨rc, .list (some ⟨cap, s ++ [b]⟩)⟩ := holds_store_self _ hlt
  have e5 := listAppendObject_shift (fun x => (fun _ => 0) x + oneAt b x) _ hst4
    (by simp [oneAt, hnb]) (by simp; omega) (holds_store_of_ne _ hna ha) hna
  rw [store_store] at e5
  have e7 := derefObject_shift
    (fun x => (fun x => (fun _ => 0) x + oneAt b x) x + oneAt a x)
    (store h0 st ⟨rc, .list (some ⟨cap, s ++ [b] ++ [a]⟩)⟩) h0.length
    (holds_store_of_ne _ hnb hb) (by simp only [oneAt]; split_ifs <;> omega)
  have e8 := derefObject_shift
    (fun x => (fun x => (fun x => (fun _ => 0) x + oneAt b x) x + oneAt a x) x - oneAt b x)
    (store h0 st ⟨rc, .list (some ⟨cap, s ++ [b] ++ [a]⟩)⟩) h0.length
    (holds_store_of_ne _ hna ha) (by simp only [oneAt]; split_ifs <;> omega)
  have hz : (fun x => (fun x => (fun x => (fun x => (fun _ => (0 : Int)) x +
      oneAt b x) x + oneAt a x) x - oneAt b x) x - oneAt a x) = fun _ => 0 := by
    funext x
    simp only
    ring
  rw [hz, shift_zero] at e8
  simp only [swapOperation, bind, Except.bind, e1, e2, e4, e5, derefFuel, length_shift,
    length_store, e7, e8]
  simp

/-- The append to a list whose buffer holds its elements. -/
theorem listAppendObject_grow {h : Heap} {st v : Nat} {rc r : Int} {cap : Nat}
    {es : List Nat} {d : tfdata} (hst : Holds h st ⟨rc, .list (some ⟨cap, es⟩)⟩)
    (hcap : es.length ≤ cap) (hpos : 0 < cap)
    (hsize : es.length + 1 ≤ cap ∨ cap < 9223372036854775808) (hv : Holds h v ⟨r, d⟩)
    (hne : st ≠ v) :
    listAppendObject h st v =
      .ok (store (store h st
        ⟨rc, .list (some ⟨capacityAfterAppend cap es.length, es ++ [v]⟩)⟩) v ⟨r + 1, d⟩) := by
  have h2 := holds_store_of_ne
    (⟨rc, .list (some ⟨capacityAfterAppend cap es.length, es ++ [v]⟩)⟩ : tfobj) hne hv
  have hres : tfdaReserve (hasReleased h) (some ⟨cap, es⟩) 24 1 =
      .ok ⟨capacityAfterAppend cap es.length, es⟩ := by
    rcases hsize with hroom | hlt
    · rw [tfdaReserve_room _ cap es 24 1 hroom]
      simp [capacityAfterAppend, hroom]
    · exact tfdaReserve_one _ cap es 24 hcap hpos hlt
  simp only [listAppendObject, load_of_holds hst, bind, Except.bind, hres, load_of_holds h2]

/-- The function `dupOperation` on a stack that ends with a value. -/
theorem dupOperation_ok (m : Machine) (ctx : tfctx) (rc : Int) (cap : Nat) (s : List Nat)
    (a : Nat) (ra : Int) (da : tfdata)
    (hst : Holds m.heap ctx.stack ⟨rc, .list (some ⟨cap, s ++ [a]⟩)⟩)
    (hcap : s.length + 1 ≤ cap) (hsize : s.length + 2 ≤ cap ∨ cap < 9223372036854775808)
    (ha : Holds m.heap a ⟨ra, da⟩) (hra : 0 < ra) (hna : ctx.stack ≠ a) :
    dupOperation m ctx =
      .ok ⟨store (store m.heap ctx.stack
        ⟨rc, .list (some ⟨capacityAfterAppend cap (s.length + 1), s ++ [a, a]⟩)⟩) a ⟨ra + 1, da⟩,
        m.out⟩ := by
  obtain ⟨h0, out⟩ := m
  obtain ⟨st⟩ := ctx
  simp only at hst ha hna ⊢
  have hlt := hst.lt
  have halt := ha.lt
  have e1 := listPopObject_of_holds hst
  have hst1 : Holds (store h0 st ⟨rc, .list (some ⟨cap, s⟩)⟩) st ⟨rc, .list (some ⟨cap, s⟩)⟩ :=
    holds_store_self _ hlt
  have ha1 : Holds (store h0 st ⟨rc, .list (some ⟨cap, s⟩)⟩) a ⟨ra, da⟩ :=
    holds_store_of_ne _ hna ha
  have e2 := listAppendObject_grow hst1 (by omega) (by omega) (Or.inl hcap) ha1 hna
  have hc1 : capacityAfterAppend cap s.length = cap := by simp [capacityAfterAppend, hcap]
  rw [store_store, hc1] at e2
  have hst2 : Holds (store (store h0 st ⟨rc, .list (some ⟨cap, s ++ [a]⟩)⟩) a ⟨ra + 1, da⟩) st
      ⟨rc, .list (some ⟨cap, s ++ [a]⟩)⟩ :=
    holds_store_of_ne _ (Ne.symm hna) (holds_store_self _ hlt)
  have ha2 : Holds (store (store h0 st ⟨rc, .list (some ⟨cap, s ++ [a]⟩)⟩) a ⟨ra + 1, da⟩) a
      ⟨ra + 1, da⟩ := holds_store_self _ (by simpa [length_store] using halt)
  have hsize2 : (s ++ [a]).length + 1 ≤ cap ∨ cap < 9223372036854775808 := by
    simp only [List.length_append, List.length_cons, List.length_nil]
    omega
  have e3 := listAppendObject_grow hst2 (by simp; omega) (by omega) hsize2 ha2 hna
  have ha3 := holds_store_self (h := store (store (store h0 st
      ⟨rc, .list (some ⟨cap, s ++ [a]⟩)⟩) a ⟨ra + 1, da⟩) st
      ⟨rc, .list (some ⟨capacityAfterAppend cap (s ++ [a]).length, s ++ [a] ++ [a]⟩)⟩)
    (⟨ra + 1 + 1, da⟩ : tfobj) (a := a) (by simpa [length_store] using halt)
  have e4 := derefObject_of_holds_gt h0.length ha3 (by omega)
  simp only [dupOperation, bind, Except.bind, e1, e2, e3, derefFuel, length_store, e4]
  congr 2
  apply List.ext_getElem?
  intro i
  simp only [store, List.getElem?_set, List.length_set]
  by_cases h1 : a = i
  · subst h1
    simp [halt]
  · by_cases h2 : st = i
    · subst h2
      simp [h1, hlt]
    · simp [h1, h2]

/-- With fewer than three values on the stack `rotOperation` stops the
process. -/
theorem rotOperation_underflow (m : Machine) (ctx : tfctx) (rc : Int) (l : Option (tfda Nat))
    (hst : Holds m.heap ctx.stack ⟨rc, .list l⟩)
    (hl : ∀ d, l = some d → d.elems.length < 3) :
    ∃ e, rotOperation m ctx = .error e ∧ e ≠ .fuel := by
  have hstlt := hst.lt
  rcases l with _ | ⟨cap, es⟩
  · exact ⟨.fault "tfdaCount",
      by simp [rotOperation, listPopObject, load_of_holds hst, bind, Except.bind], by simp⟩
  · have h2 := hl _ rfl
    rcases es with _ | ⟨a, _ | ⟨b, _ | ⟨c, es⟩⟩⟩
    · exact ⟨.assertion "listPopObject",
        by simp [rotOperation, listPopObject, load_of_holds hst, bind, Except.bind], by simp⟩
    · have hst' : Holds m.heap ctx.stack ⟨rc, .list (some ⟨cap, [] ++ [a]⟩)⟩ := by simpa using hst
      have e1 := listPopObject_of_holds hst'
      have hst1 := holds_store_self (h := m.heap) (⟨rc, .list (some ⟨cap, []⟩)⟩ : tfobj) hstlt
      refine ⟨.assertion "listPopObject", ?_, by simp⟩
      simp only [rotOperation, bind, Except.bind, e1]
      simp [listPopObject, load_of_holds hst1, bind, Except.bind]
    · have hst' : Holds m.heap ctx.stack ⟨rc, .list (some ⟨cap, [a] ++ [b]⟩)⟩ := by
        simpa using hst
      have e1 := listPopObject_of_holds hst'
      have hst1 : Holds (store m.heap ctx.stack ⟨rc, .list (some ⟨cap, [] ++ [a]⟩)⟩) ctx.stack
          ⟨rc, .list (some ⟨cap, [] ++ [a]⟩)⟩ := holds_store_self _ hstlt
      have e2 := listPopObject_of_holds hst1
      have hst2 := holds_store_self
        (h := store m.heap ctx.stack ⟨rc, .list (some ⟨cap, [] ++ [a]⟩)⟩)
        (⟨rc, .list (some ⟨cap, []⟩)⟩ : tfobj) (a := ctx.stack)
        (by simpa [length_store] using hstlt)
      refine ⟨.assertion "listPopObject", ?_, by simp⟩
      simp only [List.nil_append] at e1 e2 hst2
      simp only [rotOperation, bind, Except.bind, e1, e2]
      simp [listPopObject, load_of_holds hst2, bind, Except.bind]
    · simp only [List.length_cons] at h2
      omega

/-- A cursor at which `parseObject` returns `NULL` without moving stops the
loop of `compile` from ever ending. -/
theorem compileLoop_stuck (parser : tfparser) (prg : Nat) (hlt : parser.p < parser.end_)
    (hstuck : ∀ f h, parseObject (f + 1) parser h = .ok (none, parser, h)) :
    ∀ fuel h, compileLoop fuel parser h prg = .error .fuel := by
  intro fuel
  induction fuel with
  | zero => intro h; rfl
  | succ f ih =>
    intro h
    rw [compileLoop]
    simp only [hlt, ite_true]
    cases f with
    | zero => rfl
    | succ f =>
      rw [hstuck f h]
      simp only [bind, Except.bind]
      exact ih h

/-- C13 as amended: for every stack `s ++ [a, b, c]` (a List whose buffer holds
its elements, the slots holding live objects other than the stack itself),
`rotOperation` returns, and the stack is `s ++ [b, c, a]`: the deepest of the
top three is on top, the other two keep their order, nothing below them
changes, and no other cell of the heap, no refcount and nothing printed
changes. With fewer than three elements the operation does not return: it stops
the process, for a reason other than the budget. The program `1 2 3 rot`
followed by a newline, run with a budget of 6 or more, leaves the stack
[2, 3, 1]. -/
theorem C13_rot_cycles_top_three :
    (∀ (m : Machine) (ctx : tfctx) (rc : Int) (cap : Nat) (s : List Nat) (a b c : Nat)
        (ra rb rc' : Int) (da db dc : tfdata),
        Holds m.heap ctx.stack ⟨rc, .list (some ⟨cap, s ++ [a, b, c]⟩)⟩ →
        s.length + 3 ≤ cap →
        Holds m.heap a ⟨ra, da⟩ → Holds m.heap b ⟨rb, db⟩ → Holds m.heap c ⟨rc', dc⟩ →
        0 < ra → 0 < rb → 0 < rc' → ctx.stack ≠ a → ctx.stack ≠ b → ctx.stack ≠ c →
        rotOperation m ctx =
          .ok ⟨store m.heap ctx.stack ⟨rc, .list (some ⟨cap, s ++ [b, c, a]⟩)⟩, m.out⟩) ∧
      (∀ (m : Machine) (ctx : tfctx) (rc : Int) (l : Option (tfda Nat)),
        Holds m.heap ctx.stack ⟨rc, .list l⟩ → (∀ d, l = some d → d.elems.length < 3) →
        ∃ e, rotOperation m ctx = .error e ∧ e ≠ .fuel) ∧
      ∀ k : Nat, runStack (k + 6) "1 2 3 rot\n".toList 10 = .ok [.int 2, .int 3, .int 1] := by
  refine ⟨fun m ctx rc cap s a b c ra rb rc' da db dc hst hcap ha hb hc hra hrb hrc hna hnb hnc =>
    rotOperation_ok m ctx rc cap s a b c ra rb rc' da db dc hst hcap ha hb hc hra hrb hrc
      hna hnb hnc, fun m ctx rc l hst hl => rotOperation_underflow m ctx rc l hst hl, ?_⟩
  intro k
  simp [runStack, runStackOf, run, compile, compileLoop, parseObject, parseListItems,
    parseSymbol, scanSymbol, scanDigits, parserTrimLeft, trimLeft, peek, isspace, isdigit,
    isalnum, ispunct, issymbolStart, tfsymop, createListObject, createIntObject,
    createSymbolObject, createObject, listAppendObject, load, store, tfdaReserve_fresh, tfdaReserve_room, hasReleased,
    TFDA_INIT_CAP, derefObject, derefFuel, bind, Except.bind, exec, evalList, evalListFrom,
    eval, rotOperation, listGetObject, listPopObject, tfdaCount, searchSymbolOperation,
    listData, listElems, dataAll, dataAt]
  exact ⟨wrap32_of_small 2 (by decide) (by decide), wrap32_of_small 3 (by decide) (by decide),
    wrap32_of_small 1 (by decide) (by decide)⟩

/-- C13 on the stack of the Integers 1, 2, 3 below which lies a 0: the heap
after `rotOperation` is the heap before it with the slots of the stack
rearranged. -/
theorem C13_rot_on_0_1_2_3 :
    rotOperation
        ⟨[some ⟨1, .list (some ⟨256, [1, 2, 3, 4]⟩)⟩, some ⟨1, .int 0⟩, some ⟨1, .int 1⟩,
          some ⟨1, .int 2⟩, some ⟨1, .int 3⟩], []⟩ ⟨0⟩ =
      .ok ⟨[some ⟨1, .list (some ⟨256, [1, 3, 4, 2]⟩)⟩, some ⟨1, .int 0⟩, some ⟨1, .int 1⟩,
          some ⟨1, .int 2⟩, some ⟨1, .int 3⟩], []⟩ :=
  C13_rot_cycles_top_three.1
    ⟨[some ⟨1, .list (some ⟨256, [1, 2, 3, 4]⟩)⟩, some ⟨1, .int 0⟩, some ⟨1, .int 1⟩,
      some ⟨1, .int 2⟩, some ⟨1, .int 3⟩], []⟩ ⟨0⟩ 1 256 [1] 2 3 4 1 1 1 (.int 1) (.int 2) (.int 3)
    rfl (by decide) rfl rfl rfl (by decide) (by decide) (by decide) (by decide) (by decide)
    (by decide)

/-- C13 as stated fails on its witness: the text `1 2 3 rot` with nothing after
it is not compiled. The name `rot` is recognised as a built-in only when a
character follows it before the end of the text, and a free-form token must be
followed by whitespace. With the text alone in memory the parser reads past it;
with a NUL byte after the text, as after a string literal, the token is
rejected, the cursor is put back, and the loop of `compile` never ends. -/
theorem C13_witness_without_trailing_whitespace :
    (∀ fuel : Nat, run fuel "1 2 3 rot".toList 9 = .error .fuel ∨
        run fuel "1 2 3 rot".toList 9 = .error (.fault "parser")) ∧
      ∀ fuel : Nat, run fuel ("1 2 3 rot".toList ++ [Char.ofNat 0]) 9 = .error .fuel := by
  constructor
  · intro fuel
    rcases Nat.lt_or_ge fuel 5 with hlt | hge
    · left
      interval_cases fuel <;> decide!
    · right
      obtain ⟨k, rfl⟩ := Nat.exists_eq_add_of_le hge
      rw [Nat.add_comm]
      simp [run, compile, compileLoop, parseObject, parseListItems, parseSymbol, scanSymbol,
        scanDigits, parserTrimLeft, trimLeft, peek, isspace, isdigit, isalnum, ispunct,
        issymbolStart, tfsymop, createListObject, createIntObject, createObject,
        listAppendObject, load, store, tfdaReserve_fresh, tfdaReserve_room, hasReleased, TFDA_INIT_CAP, derefObject,
        derefFuel, bind, Except.bind]
  · intro fuel
    have hstuck : ∀ (f : Nat) (h : Heap),
        parseObject (f + 1) ⟨"1 2 3 rot".toList ++ [Char.ofNat 0], 9, 6⟩ h =
          .ok (none, ⟨"1 2 3 rot".toList ++ [Char.ofNat 0], 9, 6⟩, h) := by
      intro f h
      rw [parseObject]
      simp [parseSymbol, scanSymbol, parserTrimLeft, trimLeft, peek, isspace, isdigit, isalnum,
        ispunct, issymbolStart, tfsymop, bind, Except.bind]
    have key := compileLoop_stuck ⟨"1 2 3 rot".toList ++ [Char.ofNat 0], 9, 6⟩ 0 (by decide)
      hstuck
    rcases Nat.lt_or_ge fuel 5 with hlt | hge
    · interval_cases fuel <;> decide!
    · obtain ⟨k, rfl⟩ := Nat.exists_eq_add_of_le hge
      rw [Nat.add_comm]
      simp only [String.toList, List.cons_append, List.nil_append] at key hstuck
      simp [run, compile, compileLoop, parseObject, parseListItems, parseSymbol, scanSymbol,
        scanDigits, parserTrimLeft, trimLeft, peek, isspace, isdigit, isalnum, ispunct,
        issymbolStart, tfsymop, createListObject, createIntObject, createObject,
        listAppendObject, load, store, tfdaReserve_fresh, tfdaReserve_room, hasReleased, TFDA_INIT_CAP, derefObject,
        derefFuel, bind, Except.bind]
      cases k with
      | zero => rfl
      | succ k =>
        rw [hstuck k]
        simp [key]

/-- C14 as amended: for every stack `s ++ [a]` (a List whose buffer holds its
elements, the top slot holding a live object other than the stack itself),
`dupOperation` returns, and the stack is `s ++ [a, a]`: one slot more, `s`
unchanged, and the two top slots hold the address of the one object that was on
top, not a copy; that object keeps its data and its refcount is one higher,
for the one slot more that holds it. The buffer keeps its capacity, or doubles
it when it was full (a full buffer of fewer than 2^63 slots, so that the
doubling, on `size_t`, does not wrap); no other cell changes and nothing is
printed. The program
`5 dup` followed by a newline, run with a budget of 4 or more, leaves the stack
[5, 5]: both slots of the stack hold the Integer parsed from `5`, whose refcount
is 3, for its slot in the program and the two in the stack. -/
theorem C14_dup_shares_the_top :
    (∀ (m : Machine) (ctx : tfctx) (rc : Int) (cap : Nat) (s : List Nat) (a : Nat) (ra : Int)
        (da : tfdata),
        Holds m.heap ctx.stack ⟨rc, .list (some ⟨cap, s ++ [a]⟩)⟩ → s.length + 1 ≤ cap →
        (s.length + 2 ≤ cap ∨ cap < 9223372036854775808) →
        Holds m.heap a ⟨ra, da⟩ → 0 < ra → ctx.stack ≠ a →
        dupOperation m ctx =
          .ok ⟨store (store m.heap ctx.stack
            ⟨rc, .list (some ⟨capacityAfterAppend cap (s.length + 1), s ++ [a, a]⟩)⟩) a
            ⟨ra + 1, da⟩, m.out⟩) ∧
      (∀ k : Nat, run (k + 4) "5 dup\n".toList 6 =
        .ok (⟨[some ⟨1, .list (some ⟨256, [1, 2]⟩)⟩, some ⟨3, .int 5⟩,
          some ⟨1, .symbol "dup".toList⟩, some ⟨1, .list (some ⟨256, [1, 1]⟩)⟩], []⟩, ⟨3⟩)) ∧
      ∀ k : Nat, runStack (k + 4) "5 dup\n".toList 6 = .ok [.int 5, .int 5] := by
  have hw : wrap32 5 = 5 := wrap32_of_small 5 (by decide) (by decide)
  have hrun : ∀ k : Nat, run (k + 4) "5 dup\n".toList 6 =
      .ok (⟨[some ⟨1, .list (some ⟨256, [1, 2]⟩)⟩, some ⟨3, .int 5⟩,
        some ⟨1, .symbol "dup".toList⟩, some ⟨1, .list (some ⟨256, [1, 1]⟩)⟩], []⟩, ⟨3⟩) := by
    intro k
    simp [run, compile, compileLoop, parseObject, parseListItems,
      parseSymbol, scanSymbol, scanDigits, parserTrimLeft, trimLeft, peek, isspace, isdigit,
      isalnum, ispunct, issymbolStart, tfsymop, createListObject, createIntObject,
      createSymbolObject, createObject, listAppendObject, load, store, tfdaReserve_fresh, tfdaReserve_room,
      hasReleased, TFDA_INIT_CAP, derefObject, derefFuel, bind, Except.bind, exec, evalList,
      evalListFrom, eval, dupOperation, listGetObject, listPopObject, tfdaCount,
      searchSymbolOperation, hw]
  refine ⟨fun m ctx rc cap s a ra da hst hcap hsize ha hra hna =>
    dupOperation_ok m ctx rc cap s a ra da hst hcap hsize ha hra hna, hrun, fun k => ?_⟩
  rw [runStack, hrun k]
  rfl

/-- C14 on the stack of the Integers 7 and 5: the heap after `dupOperation`
has one more slot in the stack, holding the address of the 5, and the 5 has one
more reference. -/
theorem C14_dup_on_7_5 :
    dupOperation
        ⟨[some ⟨1, .list (some ⟨256, [1, 2]⟩)⟩, some ⟨1, .int 7⟩, some ⟨1, .int 5⟩], []⟩ ⟨0⟩ =
      .ok ⟨[some ⟨1, .list (some ⟨256, [1, 2, 2]⟩)⟩, some ⟨1, .int 7⟩, some ⟨2, .int 5⟩], []⟩ :=
  C14_dup_shares_the_top.1
    ⟨[some ⟨1, .list (some ⟨256, [1, 2]⟩)⟩, some ⟨1, .int 7⟩, some ⟨1, .int 5⟩], []⟩ ⟨0⟩ 1 256
    [1] 2 1 (.int 5) rfl (by decide) (Or.inl (by decide)) rfl (by decide) (by decide)

/-- C14 as stated fails on its witness: the text `5 dup` with nothing after it
is not compiled. The name `dup` is recognised as a built-in only when a
character follows it before the end of the text, and a free-form token must be
followed by whitespace. With the text alone in memory the parser reads past it;
with a NUL byte after the text, as after a string literal, the token is
rejected, the cursor is put back, and the loop of `compile` never ends. -/
theorem C14_witness_without_trailing_whitespace :
    (∀ fuel : Nat, run fuel "5 dup".toList 5 = .error .fuel ∨
        run fuel "5 dup".toList 5 = .error (.fault "parser")) ∧
      ∀ fuel : Nat, run fuel ("5 dup".toList ++ [Char.ofNat 0]) 5 = .error .fuel := by
  constructor
  · intro fuel
    rcases Nat.lt_or_ge fuel 3 with hlt | hge
    · left
      interval_cases fuel <;> decide!
    · right
      obtain ⟨k, rfl⟩ := Nat.exists_eq_add_of_le hge
      rw [Nat.add_comm]
      simp [run, compile, compileLoop, parseObject, parseListItems, parseSymbol, scanSymbol,
        scanDigits, parserTrimLeft, trimLeft, peek, isspace, isdigit, isalnum, ispunct,
        issymbolStart, tfsymop, createListObject, createIntObject, createObject,
        listAppendObject, load, store, tfdaReserve_fresh, tfdaReserve_room, hasReleased, TFDA_INIT_CAP, derefObject,
        derefFuel, bind, Except.bind]
  · intro fuel
    have hstuck : ∀ (f : Nat) (h : Heap),
        parseObject (f + 1) ⟨"5 dup".toList ++ [Char.ofNat 0], 5, 2⟩ h =
          .ok (none, ⟨"5 dup".toList ++ [Char.ofNat 0], 5, 2⟩, h) := by
      intro f h
      rw [parseObject]
      simp [parseSymbol, scanSymbol, parserTrimLeft, trimLeft, peek, isspace, isdigit, isalnum,
        ispunct, issymbolStart, tfsymop, bind, Except.bind]
    have key := compileLoop_stuck ⟨"5 dup".toList ++ [Char.ofNat 0], 5, 2⟩ 0 (by decide)
      hstuck
    rcases Nat.lt_or_ge fuel 3 with hlt | hge
    · interval_cases fuel <;> decide!
    · obtain ⟨k, rfl⟩ := Nat.exists_eq_add_of_le hge
      rw [Nat.add_comm]
      simp only [String.toList, List.cons_append, List.nil_append] at key hstuck
      simp [run, compile, compileLoop, parseObject, parseListItems, parseSymbol, scanSymbol,
        scanDigits, parserTrimLeft, trimLeft, peek, isspace, isdigit, isalnum, ispunct,
        issymbolStart, tfsymop, createListObject, createIntObject, createObject,
        listAppendObject, load, store, tfdaReserve_fresh, tfdaReserve_room, hasReleased, TFDA_INIT_CAP, derefObject,
        derefFuel, bind, Except.bind]
      cases k with
      | zero => rfl
      | succ k =>
        rw [hstuck k]
        simp [key]

/-- C15 as amended: for every stack `s ++ [a, b]` (a List whose buffer holds
its elements, the two top slots holding live objects other than the stack
itself), one `swapOperation` returns with the stack `s ++ [b, a]` and nothing
else changed, and a second one after it returns with the heap exactly as it was
before the first: the same objects in the same slots, with the same refcounts.
The program `1 2 swap swap` followed by a newline, run with a budget of 6 or
more, leaves the stack [1, 2]. -/
theorem C15_swap_twice_is_identity :
    (∀ (m : Machine) (ctx : tfctx) (rc : Int) (cap : Nat) (s : List Nat) (a b : Nat)
        (ra rb : Int) (da db : tfdata),
        Holds m.heap ctx.stack ⟨rc, .list (some ⟨cap, s ++ [a, b]⟩)⟩ → s.length + 2 ≤ cap →
        Holds m.heap a ⟨ra, da⟩ → Holds m.heap b ⟨rb, db⟩ → 0 < ra → 0 < rb →
        ctx.stack ≠ a → ctx.stack ≠ b →
        swapOperation m ctx =
            .ok ⟨store m.heap ctx.stack ⟨rc, .list (some ⟨cap, s ++ [b, a]⟩)⟩, m.out⟩ ∧
          (swapOperation m ctx >>= fun m1 => swapOperation m1 ctx) = .ok m) ∧
      ∀ k : Nat, runStack (k + 6) "1 2 swap swap\n".toList 14 = .ok [.int 1, .int 2] := by
  refine ⟨fun m ctx rc cap s a b ra rb da db hst hcap ha hb hra hrb hna hnb => ?_, fun k => ?_⟩
  · have e1 := swapOperation_ok m ctx rc cap s a b ra rb da db hst hcap ha hb hra hrb hna hnb
    have hlt := hst.lt
    have e2 := swapOperation_ok
      ⟨store m.heap ctx.stack ⟨rc, .list (some ⟨cap, s ++ [b, a]⟩)⟩, m.out⟩ ctx rc cap s b a
      rb ra db da (holds_store_self _ hlt) hcap (holds_store_of_ne _ hnb hb)
      (holds_store_of_ne _ hna ha) hrb hra hnb hna
    refine ⟨e1, ?_⟩
    simp only [bind, Except.bind, e1, e2, store_store, store_of_holds hst]
  · simp [runStack, runStackOf, run, compile, compileLoop, parseObject, parseListItems,
      parseSymbol, scanSymbol, scanDigits, parserTrimLeft, trimLeft, peek, isspace, isdigit,
      isalnum, ispunct, issymbolStart, tfsymop, createListObject, createIntObject,
      createSymbolObject, createObject, listAppendObject, load, store, tfdaReserve_fresh, tfdaReserve_room,
      hasReleased, TFDA_INIT_CAP, derefObject, derefFuel, bind, Except.bind, exec, evalList,
      evalListFrom, eval, swapOperation, listGetObject, listPopObject, tfdaCount,
      searchSymbolOperation, listData, listElems, dataAll, dataAt]
    exact ⟨wrap32_of_small 1 (by decide) (by decide), wrap32_of_small 2 (by decide) (by decide)⟩

/-- C15 on the stack of the Integers 1 and 2: one swap exchanges the two top
slots, two swaps give back the heap they started from. -/
theorem C15_swap_on_1_2 :
    swapOperation
        ⟨[some ⟨1, .list (some ⟨256, [1, 2]⟩)⟩, some ⟨1, .int 1⟩, some ⟨1, .int 2⟩], []⟩ ⟨0⟩ =
        .ok ⟨[some ⟨1, .list (some ⟨256, [2, 1]⟩)⟩, some ⟨1, .int 1⟩, some ⟨1, .int 2⟩], []⟩ ∧
      (swapOperation
          ⟨[some ⟨1, .list (some ⟨256, [1, 2]⟩)⟩, some ⟨1, .int 1⟩, some ⟨1, .int 2⟩], []⟩ ⟨0⟩ >>=
          fun m1 => swapOperation m1 ⟨0⟩) =
        .ok ⟨[some ⟨1, .list (some ⟨256, [1, 2]⟩)⟩, some ⟨1, .int 1⟩, some ⟨1, .int 2⟩], []⟩ :=
  C15_swap_twice_is_identity.1
    ⟨[some ⟨1, .list (some ⟨256, [1, 2]⟩)⟩, some ⟨1, .int 1⟩, some ⟨1, .int 2⟩], []⟩ ⟨0⟩ 1 256
    [] 1 2 1 1 (.int 1) (.int 2) rfl (by decide) rfl rfl (by decide) (by decide) (by decide)
    (by decide)

/-- C15 as stated fails on its witness: the text `1 2 swap swap` with nothing
after it is not compiled. The last `swap` is recognised as a built-in only when
a character follows it before the end of the text, and a free-form token must
be followed by whitespace. With the text alone in memory the parser reads past
it; with a NUL byte after the text, as after a string literal, the token is
rejected, the cursor is put back, and the loop of `compile` never ends. -/
theorem C15_witness_without_trailing_whitespace :
    (∀ fuel : Nat, run fuel "1 2 swap swap".toList 13 = .error .fuel ∨
        run fuel "1 2 swap swap".toList 13 = .error (.fault "parser")) ∧
      ∀ fuel : Nat, run fuel ("1 2 swap swap".toList ++ [Char.ofNat 0]) 13 = .error .fuel := by
  constructor
  · intro fuel
    rcases Nat.lt_or_ge fuel 5 with hlt | hge
    · left
      interval_cases fuel <;> decide!
    · right
      obtain ⟨k, rfl⟩ := Nat.exists_eq_add_of_le hge
      rw [Nat.add_comm]
      simp [run, compile, compileLoop, parseObject, parseListItems, parseSymbol, scanSymbol,
        scanDigits, parserTrimLeft, trimLeft, peek, isspace, isdigit, isalnum, ispunct,
        issymbolStart, tfsymop, createListObject, createIntObject, createSymbolObject,
        createObject, listAppendObject, load, store, tfdaReserve_fresh, tfdaReserve_room, hasReleased, TFDA_INIT_CAP,
        derefObject, derefFuel, bind, Except.bind]
  · intro fuel
    have hstuck : ∀ (f : Nat) (h : Heap),
        parseObject (f + 1) ⟨"1 2 swap swap".toList ++ [Char.ofNat 0], 13, 9⟩ h =
          .ok (none, ⟨"1 2 swap swap".toList ++ [Char.ofNat 0], 13, 9⟩, h) := by
      intro f h
      rw [parseObject]
      simp [parseSymbol, scanSymbol, parserTrimLeft, trimLeft, peek, isspace, isdigit, isalnum,
        ispunct, issymbolStart, tfsymop, bind, Except.bind]
    have key := compileLoop_stuck ⟨"1 2 swap swap".toList ++ [Char.ofNat 0], 13, 9⟩ 0
      (by decide) hstuck
    rcases Nat.lt_or_ge fuel 5 with hlt | hge
    · interval_cases fuel <;> decide!
    · obtain ⟨k, rfl⟩ := Nat.exists_eq_add_of_le hge
      rw [Nat.add_comm]
      simp only [String.toList, List.cons_append, List.nil_append] at key hstuck
      simp [run, compile, compileLoop, parseObject, parseListItems, parseSymbol, scanSymbol,
        scanDigits, parserTrimLeft, trimLeft, peek, isspace, isdigit, isalnum, ispunct,
        issymbolStart, tfsymop, createListObject, createIntObject, createSymbolObject,
        createObject, listAppendObject, load, store, tfdaReserve_fresh, tfdaReserve_room, hasReleased, TFDA_INIT_CAP,
        derefObject, derefFuel, bind, Except.bind]
      cases k with
      | zero => rfl
      | succ k =>
        rw [hstuck k]
        simp [key]

/-! ## Compiling a sequence of tokens -/

theorem compilesTo_nil : CompilesTo .nil := by
  intro _ _ fuel text e p h0 done blocks ws rest hfuel hd hws hle _ _ _
  simp only [SrcList.render, SrcList.cost, SrcList.addrs, SrcList.image, List.nil_append,
    List.length_nil, Nat.add_zero, List.append_nil] at hfuel hd hle ⊢
  obtain ⟨f, rfl⟩ := Nat.exists_eq_add_of_le hfuel
  rw [Nat.add_comm (1 + 1) f, compileLoop]
  by_cases hpe : p < e
  · have h1 := parseObject_atEnd f (h0 ++ some ⟨1, .list (handleAfter done)⟩ :: blocks) ws rest
      hd hws hle
    simp only [hpe, ite_true, h1, bind, Except.bind]
    rw [compileLoop]
    simp
  · simp [hpe]

theorem compilesTo_cons (x : Src) (xs : SrcList) (ihxs : CompilesTo xs) :
    CompilesTo (.cons x xs) := by
  intro hwf hnar fuel text e p h0 done blocks ws rest hfuel hd hws hle hlen hr0 hrb
  simp only [SrcList.wf] at hwf
  simp only [SrcList.narrow] at hnar
  simp only [SrcList.length] at hlen
  obtain ⟨hx, hxs⟩ := hwf
  have hrH : hasReleased (h0 ++ some (⟨1, .list (handleAfter done)⟩ : tfobj) :: blocks) =
      false := by
    rw [hasReleased_append, hasReleased_cons, hr0, hrb, hasReleased_handle 1 done (by omega)]
    rfl
  obtain ⟨c, tl, hcore, hcs, hcb⟩ := core_head x hx
  have hsl := slack_le_sep x hx
  simp only [SrcList.render, SrcList.cost, SrcList.addrs, SrcList.image, List.length_append,
    List.append_assoc] at hfuel hd hle ⊢
  obtain ⟨f, rfl⟩ := Nat.exists_eq_add_of_le (show 1 ≤ fuel by omega)
  have hcl : 0 < x.core.length := by rw [hcore]; simp
  have hpe : p < e := by omega
  have hH : (h0 ++ some (⟨1, .list (handleAfter done)⟩ : tfobj) :: blocks).length =
      h0.length + 1 + blocks.length := by
    simp only [List.length_append, List.length_cons]
    omega
  have hd3 : text.drop (p + ws.length + x.core.length) = x.sep ++ (xs.render ++ rest) := by
    have h2 : text.drop (p + ws.length) = x.core ++ (x.sep ++ (xs.render ++ rest)) :=
      drop_after hd
    exact drop_after h2
  -- the item
  have e1 := parsesTo x hx hnar.1 f text e p
    (h0 ++ some ⟨1, .list (handleAfter done)⟩ :: blocks)
    ws (xs.render ++ rest) (by omega) hd hws (by omega) (Or.inl hrH)
  rw [hH] at e1
  obtain ⟨d, itl, himg⟩ := image_head x (h0.length + 1 + blocks.length)
  -- its insertion into the program
  have hL : Holds ((h0 ++ some ⟨1, .list (handleAfter done)⟩ :: blocks) ++
      x.image (h0.length + 1 + blocks.length)) h0.length ⟨1, .list (handleAfter done)⟩ :=
    holds_append _ (holds_mid h0 blocks _)
  have hb : Holds ((h0 ++ some ⟨1, .list (handleAfter done)⟩ :: blocks) ++
      x.image (h0.length + 1 + blocks.length)) (h0.length + 1 + blocks.length) ⟨1, d⟩ := by
    rw [himg, ← hH]
    exact holds_mid _ itl _
  have hrI := hasReleased_image x hnar.1 (h0.length + 1 + blocks.length)
  obtain ⟨H1, ea, ed⟩ := append_child hL hb (by omega) (by omega)
    (by rw [hasReleased_append, hrH, hrI]; rfl)
  have hstore : store ((h0 ++ some ⟨1, .list (handleAfter done)⟩ :: blocks) ++
      x.image (h0.length + 1 + blocks.length)) h0.length
        ⟨1, .list (handleAfter (done ++ [h0.length + 1 + blocks.length]))⟩ =
      h0 ++ some ⟨1, .list (handleAfter (done ++ [h0.length + 1 + blocks.length]))⟩ ::
        (blocks ++ x.image (h0.length + 1 + blocks.length)) := by
    have := store_mid h0 (blocks ++ x.image (h0.length + 1 + blocks.length))
      (some ⟨1, .list (handleAfter done)⟩)
      ⟨1, .list (handleAfter (done ++ [h0.length + 1 + blocks.length]))⟩
    simpa using this
  rw [hstore] at ed
  -- the rest of the items
  have hdone : (done ++ [h0.length + 1 + blocks.length]).length + xs.length < 256 := by
    simp only [List.length_append, List.length_cons, List.length_nil]
    omega
  have e2 := ihxs hxs hnar.2 f text e (p + ws.length + x.core.length) h0
    (done ++ [h0.length + 1 + blocks.length])
    (blocks ++ x.image (h0.length + 1 + blocks.length)) x.sep rest (by omega) hd3
    (sep_space x hx) (by omega) hdone hr0 (by rw [hasReleased_append, hrb, hrI]; rfl)
  have hlen2 : h0.length + 1 + (blocks ++ x.image (h0.length + 1 + blocks.length)).length =
      h0.length + 1 + blocks.length + x.cells := by
    rw [List.length_append, image_length]
    omega
  rw [hlen2] at e2
  rw [Nat.add_comm 1 f, compileLoop]
  simp only [hpe, ite_true, bind, Except.bind, e1, ea, ed]
  rw [e2]
  simp [Nat.add_assoc]

/-- The loop of `compile` turns every well-formed sequence of values into the
objects of its image and appends them, in order, to the program. -/
theorem compilesTo : ∀ xs : SrcList, CompilesTo xs :=
  @SrcList.rec (fun _ => True) CompilesTo (fun _ _ => trivial) (fun _ _ _ _ => trivial)
    (fun _ _ => trivial) (fun _ _ => trivial) compilesTo_nil
    (fun x xs _ ihxs => compilesTo_cons x xs ihxs)

/-- A text whose numerals are below 2^31 denotes them as written. -/
theorem tree_eq_value : ∀ x : Src, x.small → x.tree = x.value :=
  @Src.rec (fun x => x.small → x.tree = x.value) (fun xs => xs.small → xs.trees = xs.values)
    (fun ds sep hs => by
      simp only [Src.small] at hs
      simp only [Src.tree, Src.value]
      rw [wrap32_of_small _ (by omega) (by omega)])
    (fun lead items trail ih hs => by
      simp only [Src.small] at hs
      simp only [Src.tree, Src.value, ih hs])
    (fun ent sep _ => rfl)
    (fun v sep _ => rfl)
    (fun _ => rfl)
    (fun x xs ihx ihxs hs => by
      simp only [SrcList.small] at hs
      simp only [SrcList.trees, SrcList.values, ihx hs.1, ihxs hs.2])

/-- The function `compile` on a sequence of fewer than 256 well-formed tokens
whose lists hold fewer than 256 items each, in a heap that shows no block given
back to the allocator: the program reads back as the list of what the tokens
denote. -/
theorem compile_narrow (toks : SrcList) (ws tail : List Char) (h : Heap)
    (fuel : Nat) (hwf : toks.wf) (hsmall : toks.small) (hnar : toks.narrow)
    (hlen : toks.length < 256) (hrel : hasReleased h = false)
    (hws : ∀ w ∈ ws, isspace w = true) (hfuel : toks.cost + 1 ≤ fuel) :
    ∃ blk : Heap,
      compile fuel h (ws ++ (toks.render ++ tail)) (ws.length + toks.render.length) =
          .ok (h ++ blk, h.length) ∧
        ∀ k, toks.depth + 1 ≤ k → readback k (h ++ blk) h.length = some (.list toks.values) := by
  refine ⟨(Src.list [] toks []).image h.length, ?_, fun k hk => ?_⟩
  · have e1 := compilesTo toks hwf hnar fuel (ws ++ (toks.render ++ tail))
      (ws.length + toks.render.length) 0 h [] [] ws tail hfuel (by simp) hws (by omega)
      (by simpa using hlen) hrel rfl
    simp only [compile, createListObject, createObject, bind, Except.bind]
    have hn : handleAfter [] = none := rfl
    simp only [hn, List.nil_append, List.length_nil, Nat.add_zero] at e1
    rw [e1]
    simp [Src.image]
  · have hwf2 : (Src.list [] toks []).wf := by
      simp only [Src.wf]
      exact ⟨by simp, hwf, by simp⟩
    have e2 := readsBack (.list [] toks []) hwf2 (by simp only [Src.narrow]; exact ⟨hlen, hnar⟩)
      h [] k (by simpa [Src.depth] using hk)
    have e3 := tree_eq_value (.list [] toks []) (by simpa [Src.small] using hsmall)
    simp only [Src.tree, Src.value] at e3
    simpa [Src.tree, e3] using e2

/-! ## A list that outgrows its first buffer -/

theorem atom_narrow (x : Src) (h : x.atom) : x.narrow := by
  cases x <;> simp_all [Src.atom, Src.narrow]

/-- The first append to a list, after a block has been given back to the
allocator. -/
theorem listAppendObject_recycled {H : Heap} {L : Nat} {rc : Int} (v : Nat)
    (hL : Holds H L ⟨rc, .list none⟩) (hrel : hasReleased H = true) :
    listAppendObject H L v = .error (.uninit "tfdaReserve") := by
  simp only [listAppendObject, load_of_holds hL, bind, Except.bind, hrel,
    tfdaReserve_recycled 24 1 (by decide)]

/-- Appending a freshly parsed object to a list, whatever its buffer, and
releasing the parser's own reference. -/
theorem append_item {H : Heap} {L b : Nat} {l : Option (tfda Nat)} {d : tfdata}
    (hL : Holds H L ⟨1, .list l⟩) (hb : Holds H b ⟨1, d⟩) (hne : L ≠ b)
    (hnull : l = none → hasReleased H = false)
    (hbuf : ∀ d0, l = some d0 → Fits d0.capacity d0.elems.length)
    (hsize : (bufferElems l).length < 2305843009213693952) :
    ∃ cap H1, listAppendObject H L b = .ok H1 ∧
      derefObject (derefFuel H1) H1 b =
        .ok (store H L ⟨1, .list (some ⟨cap, bufferElems l ++ [b]⟩)⟩) ∧
      Fits cap ((bufferElems l).length + 1) := by
  have hderef : ∀ X : tfobj,
      derefObject (derefFuel (store (store H L X) b ⟨1 + 1, d⟩))
        (store (store H L X) b ⟨1 + 1, d⟩) b = .ok (store H L X) := by
    intro X
    have hb1 : Holds (store H L X) b ⟨1, d⟩ := holds_store_of_ne _ hne hb
    have h2 : Holds (store (store H L X) b ⟨1 + 1, d⟩) b ⟨1 + 1, d⟩ :=
      holds_store_self _ (by simpa [length_store] using hb.lt)
    rw [derefFuel, derefObject_of_holds_gt _ h2 (by decide), store_store]
    have : (1 + 1 - 1 : Int) = 1 := by decide
    rw [this, store_of_holds hb1]
  rcases l with _ | ⟨c, es⟩
  · have hb1 : Holds (store H L ⟨1, .list (some ⟨256, [] ++ [b]⟩)⟩) b ⟨1, d⟩ :=
      holds_store_of_ne _ hne hb
    refine ⟨256, _, ?_, hderef _, ?_⟩
    · simp only [listAppendObject, load_of_holds hL, bind, Except.bind, hnull rfl,
        tfdaReserve_fresh 24 1 (by decide), load_of_holds hb1]
      rfl
    · simp [Fits, bufferElems]
  · obtain ⟨h1, h2, h3⟩ := hbuf ⟨c, es⟩ rfl
    simp only [bufferElems] at hsize ⊢
    simp only at h1 h2 h3
    refine ⟨capacityAfterAppend c es.length, _,
      listAppendObject_grow hL h1 h2 (Or.inr (by omega)) hb hne, hderef _, ?_⟩
    unfold capacityAfterAppend Fits
    split <;> omega

theorem atomsParseTo_nil : AtomsParseTo .nil := by
  intro _ _ fuel text e p h0 l blocks ws rest hfuel hd hws hle _ hbuf _
  simp only [SrcList.render, SrcList.cost, SrcList.addrs, SrcList.image, List.nil_append,
    List.length_nil, Nat.add_zero, List.append_nil] at hfuel hd hle ⊢
  refine ⟨l, ?_, rfl, hbuf⟩
  obtain ⟨f, rfl⟩ := Nat.exists_eq_add_of_le hfuel
  rw [Nat.add_comm 1 f, parseListItems]
  by_cases hpe : p < e
  · cases ws with
    | nil =>
      simp [hpe, peek, hd, bind, Except.bind]
    | cons w ws' =>
      have hw : isspace w = true := hws w (by simp)
      have h1 := parserTrimLeft_stop (e := e) (w :: ws') ']' rest hd hws (by decide) hle
      have h2 : text.drop (p + (w :: ws').length) = ']' :: rest := drop_after hd
      have hwb : w ≠ ']' := ne_bracket_of_isspace hw
      simp only [hpe, ite_true, bind, Except.bind, peek_eq (by simpa using hd), ne_eq, hwb,
        not_false_eq_true, h1, peek_eq h2]
  · have : ws = [] := by
      cases ws with
      | nil => rfl
      | cons w ws' => simp only [List.length_cons] at hle; omega
    subst this
    simp [hpe]

theorem atomsParseTo_cons (x : Src) (xs : SrcList) (ihxs : AtomsParseTo xs) :
    AtomsParseTo (.cons x xs) := by
  intro hwf hat fuel text e p h0 l blocks ws rest hfuel hd hws hle hnull hbuf hsize
  simp only [SrcList.wf] at hwf
  simp only [SrcList.atoms] at hat
  simp only [SrcList.length] at hsize
  obtain ⟨hx, hxs⟩ := hwf
  obtain ⟨c, tl, hcore, hcs, hcb⟩ := core_head x hx
  have hsl := slack_le_sep x hx
  simp only [SrcList.render, SrcList.cost, SrcList.addrs, SrcList.image, List.length_append,
    List.append_assoc] at hfuel hd hle ⊢
  obtain ⟨f, rfl⟩ := Nat.exists_eq_add_of_le (show 1 ≤ fuel by omega)
  have hcl : 0 < x.core.length := by rw [hcore]; simp
  have hpe : p < e := by omega
  have hH : (h0 ++ some (⟨1, .list l⟩ : tfobj) :: blocks).length =
      h0.length + 1 + blocks.length := by
    simp only [List.length_append, List.length_cons]
    omega
  have hd1 : text.drop p = ws ++ c :: (tl ++ (x.sep ++ (xs.render ++ ']' :: rest))) := by
    rw [hd, hcore]; simp
  have hfirst : ∃ y r, text.drop p = y :: r ∧ y ≠ ']' := by
    cases ws with
    | nil => exact ⟨c, _, by simpa using hd1, hcb⟩
    | cons w ws' => exact ⟨w, _, by simpa using hd1, ne_bracket_of_isspace (hws w (by simp))⟩
  obtain ⟨y, r, hy, hyb⟩ := hfirst
  have h1 := parserTrimLeft_stop (e := e) ws c _ hd1 hws hcs (by omega)
  have hd2 : text.drop (p + ws.length) = c :: (tl ++ (x.sep ++ (xs.render ++ ']' :: rest))) :=
    drop_after hd1
  have hd2' : text.drop (p + ws.length) =
      [] ++ (x.core ++ (x.sep ++ (xs.render ++ ']' :: rest))) := by
    rw [hd2, hcore]; simp
  have hd3 : text.drop (p + ws.length + x.core.length) =
      x.sep ++ (xs.render ++ ']' :: rest) := drop_after (by simpa using hd2')
  -- the item
  have e1 := parsesTo x hx (atom_narrow x hat.1) f text e (p + ws.length)
    (h0 ++ some ⟨1, .list l⟩ :: blocks)
    [] (xs.render ++ ']' :: rest) (by omega) hd2' (by simp) (by simp; omega) (Or.inr hat.1)
  rw [hH] at e1
  obtain ⟨d, itl, himg⟩ := image_head x (h0.length + 1 + blocks.length)
  -- its insertion into the list
  have hL : Holds ((h0 ++ some ⟨1, .list l⟩ :: blocks) ++
      x.image (h0.length + 1 + blocks.length)) h0.length ⟨1, .list l⟩ :=
    holds_append _ (holds_mid h0 blocks _)
  have hb : Holds ((h0 ++ some ⟨1, .list l⟩ :: blocks) ++
      x.image (h0.length + 1 + blocks.length)) (h0.length + 1 + blocks.length) ⟨1, d⟩ := by
    rw [himg, ← hH]
    exact holds_mid _ itl _
  have hrI := hasReleased_image x (atom_narrow x hat.1) (h0.length + 1 + blocks.length)
  obtain ⟨cap, H1, ea, ed, hfit⟩ := append_item hL hb (by omega)
    (fun hl => by
      obtain ⟨hr0, hrb⟩ := hnull hl
      subst hl
      rw [hasReleased_append, hasReleased_append, hasReleased_cons, hr0, hrb, hrI]
      rfl) hbuf (by omega)
  have hstore : store ((h0 ++ some ⟨1, .list l⟩ :: blocks) ++
      x.image (h0.length + 1 + blocks.length)) h0.length
        ⟨1, .list (some ⟨cap, bufferElems l ++ [h0.length + 1 + blocks.length]⟩)⟩ =
      h0 ++ some ⟨1, .list (some ⟨cap, bufferElems l ++ [h0.length + 1 + blocks.length]⟩)⟩ ::
        (blocks ++ x.image (h0.length + 1 + blocks.length)) := by
    have := store_mid h0 (blocks ++ x.image (h0.length + 1 + blocks.length))
      (some ⟨1, .list l⟩)
      ⟨1, .list (some ⟨cap, bufferElems l ++ [h0.length + 1 + blocks.length]⟩)⟩
    simpa using this
  rw [hstore] at ed
  -- the rest of the items
  obtain ⟨l', e2, hel, hfit'⟩ := ihxs hxs hat.2 f text e (p + ws.length + x.core.length) h0
    (some ⟨cap, bufferElems l ++ [h0.length + 1 + blocks.length]⟩)
    (blocks ++ x.image (h0.length + 1 + blocks.length)) x.sep rest (by omega) hd3
    (sep_space x hx) (by omega) (fun hl => by cases hl)
    (fun d0 hd0 => by
      cases hd0
      simpa using hfit)
    (by
      show (bufferElems l ++ [h0.length + 1 + blocks.length]).length + xs.length < _
      simp only [List.length_append, List.length_cons, List.length_nil]
      omega)
  have hlen2 : h0.length + 1 + (blocks ++ x.image (h0.length + 1 + blocks.length)).length =
      h0.length + 1 + blocks.length + x.cells := by
    rw [List.length_append, image_length]
    omega
  rw [hlen2] at e2 hel
  refine ⟨l', ?_, ?_, hfit'⟩
  · rw [Nat.add_comm 1 f, parseListItems]
    simp only [hpe, ite_true, bind, Except.bind, peek_eq hy, ne_eq, hyb, not_false_eq_true, h1,
      peek_eq hd2, hcb, ite_false, e1, Nat.add_zero, ea, ed, List.length_nil]
    rw [e2]
    simp [Nat.add_assoc]
  · rw [hel]
    simp [bufferElems]

/-- The loop over the items of a list none of which is a list appends every
item, whatever the length of the list. -/
theorem atomsParseTo : ∀ xs : SrcList, AtomsParseTo xs :=
  @SrcList.rec (fun _ => True) AtomsParseTo (fun _ _ => trivial) (fun _ _ _ _ => trivial)
    (fun _ _ => trivial) (fun _ _ => trivial) atomsParseTo_nil
    (fun x xs _ ihxs => atomsParseTo_cons x xs ihxs)
/-- A bracketed list none of whose items is a list is parsed whatever its
length, in a heap that shows no block given back to the allocator: its buffer
holds the addresses of the items, with a capacity that holds them. -/
theorem parseObject_atomList (lead : List Char) (items : SrcList) (trail : List Char)
    (hwf : (Src.list lead items trail).wf) (hat : items.atoms)
    (hsize : items.length < 2305843009213693952) (fuel : Nat) (text : List Char) (e p : Nat)
    (h : Heap) (ws rest : List Char) (hfuel : (Src.list lead items trail).cost ≤ fuel)
    (hd : text.drop p = ws ++ ((Src.list lead items trail).core ++ (trail ++ rest)))
    (hws : ∀ w ∈ ws, isspace w = true)
    (hle : p + ws.length + (Src.list lead items trail).core.length ≤ e)
    (hrel : hasReleased h = false) :
    ∃ l' : Option (tfda Nat),
      parseObject fuel ⟨text, e, p⟩ h =
        .ok (some h.length, ⟨text, e, p + ws.length + (Src.list lead items trail).core.length⟩,
          h ++ some ⟨1, .list l'⟩ :: items.image (h.length + 1)) ∧
      bufferElems l' = items.addrs (h.length + 1) ∧
      ∀ d', l' = some d' → Fits d'.capacity d'.elems.length := by
  simp only [Src.wf] at hwf
  obtain ⟨hlead, hitems, htrail⟩ := hwf
  simp only [Src.core, Src.cost, List.length_cons, List.length_append,
    List.length_nil] at hfuel hd hle ⊢
  obtain ⟨f, rfl⟩ := Nat.exists_eq_add_of_le (show 1 ≤ fuel by omega)
  have hd1 : text.drop p =
      ws ++ '[' :: (lead ++ (items.render ++ ']' :: (trail ++ rest))) := by
    rw [hd]; simp
  have h1 := parserTrimLeft_stop (e := e) ws '[' _ hd1 hws (by decide) (by omega)
  have hd2 : text.drop (p + ws.length) =
      ['['] ++ (lead ++ (items.render ++ ']' :: (trail ++ rest))) := drop_after hd1
  have hd3 : text.drop (p + ws.length + 1) =
      lead ++ (items.render ++ ']' :: (trail ++ rest)) := drop_after hd2
  have hge : ¬ (p + ws.length ≥ e) := by omega
  obtain ⟨l', e1, hel, hfit⟩ := atomsParseTo items hitems hat f text e (p + ws.length + 1) h none
    [] lead (trail ++ rest) (by omega) hd3 hlead (by omega) (fun _ => ⟨hrel, rfl⟩)
    (fun d0 hd0 => by cases hd0) (by simpa [bufferElems] using hsize)
  have hd4 : text.drop (p + ws.length + 1 + lead.length + items.render.length) =
      [] ++ ']' :: (trail ++ rest) := by
    have h4 : text.drop (p + ws.length + 1 + lead.length) =
        items.render ++ ']' :: (trail ++ rest) := drop_after hd3
    simpa using drop_after h4
  have h5 := parserTrimLeft_stop (e := e) [] ']' (trail ++ rest) hd4 (by simp) (by decide)
    (by simp; omega)
  refine ⟨l', ?_, by simpa [bufferElems] using hel, hfit⟩
  rw [Nat.add_comm 1 f, parseObject]
  simp only [h1, bind, Except.bind, hge, ite_false, peek_eq (by simpa using hd2),
    createListObject, createObject]
  have hnd : isdigit '[' = false := by decide
  simp only [hnd, ite_true, Bool.false_eq_true, ite_false]
  have e1' : parseListItems f ⟨text, e, p + ws.length + 1⟩ (h ++ [some ⟨1, .list none⟩])
        h.length =
      .ok (⟨text, e, p + ws.length + 1 + lead.length + items.render.length⟩,
        h ++ some ⟨1, .list l'⟩ :: SrcList.image (h.length + 1) items) := by
    simpa using e1
  rw [e1']
  simp only [h5, List.length_nil, Nat.add_zero, peek_eq (by simpa using hd4), ne_eq,
    not_true_eq_false, ite_false]
  simp [Nat.add_assoc]
  omega

/-- A program that starts with a bracketed list of more than 256 items, none
of them a list, is not compiled: the buffer of that list has been moved to a
larger block when the list is appended to the program, a first append that
finds a count that was never written. -/
theorem compile_long_list (lead : List Char) (items : SrcList) (trail ws tail : List Char)
    (fuel len : Nat) (hwf : (Src.list lead items trail).wf) (hat : items.atoms)
    (hlong : 256 < items.length) (hsize : items.length < 2305843009213693952)
    (hws : ∀ w ∈ ws, isspace w = true)
    (hfuel : (Src.list lead items trail).cost + 1 ≤ fuel)
    (hlen : ws.length + (Src.list lead items trail).core.length ≤ len) :
    compile fuel [] (ws ++ ((Src.list lead items trail).core ++ (trail ++ tail))) len =
      .error (.uninit "tfdaReserve") := by
  obtain ⟨f, rfl⟩ := Nat.exists_eq_add_of_le (show 1 ≤ fuel by omega)
  obtain ⟨l', e1, hel, hfit⟩ := parseObject_atomList lead items trail hwf hat hsize f
    (ws ++ ((Src.list lead items trail).core ++ (trail ++ tail))) len 0
    [some ⟨1, .list none⟩] ws tail (by omega) (by simp) hws (by omega) rfl
  have hpos : 0 < len := by
    simp only [Src.core, List.length_cons] at hlen
    omega
  have hl' : ∃ d', l' = some d' ∧ 256 < d'.capacity := by
    rcases l' with _ | d'
    · have := congrArg List.length hel
      rw [addrs_length] at this
      simp [bufferElems] at this
      omega
    · have h1 := (hfit d' rfl).1
      have := congrArg List.length hel
      rw [addrs_length] at this
      simp only [bufferElems] at this
      exact ⟨d', rfl, by omega⟩
  obtain ⟨d', rfl, hcap⟩ := hl'
  have hrel : hasReleased ([some ⟨1, .list none⟩] ++
      some ⟨1, .list (some d')⟩ :: items.image ([some (⟨1, .list none⟩ : tfobj)].length + 1)) =
      true := by
    have hne : (d'.capacity != TFDA_INIT_CAP) = true := by
      simp only [TFDA_INIT_CAP, bne_iff_ne, ne_eq]
      omega
    simp [hasReleased, hne]
  simp only [compile, createListObject, createObject, bind, Except.bind, List.nil_append,
    List.length_nil]
  rw [Nat.add_comm 1 f, compileLoop]
  simp only [hpos, ite_true, bind, Except.bind, Nat.zero_add] at e1 ⊢
  rw [e1]
  simp only []
  rw [@listAppendObject_recycled _ _ 1 _ (by rfl) hrel]

theorem ones_wf : ∀ n, (SrcList.ones n).wf
  | 0 => trivial
  | n + 1 => by
    simp only [SrcList.ones, SrcList.wf, Src.wf]
    exact ⟨⟨by simp, by decide, by simp, by decide⟩, ones_wf n⟩

theorem ones_atoms : ∀ n, (SrcList.ones n).atoms
  | 0 => trivial
  | n + 1 => ⟨trivial, ones_atoms n⟩

theorem ones_length : ∀ n, (SrcList.ones n).length = n
  | 0 => rfl
  | n + 1 => by simp [SrcList.ones, SrcList.length, ones_length n]

theorem ones_cost : ∀ n, (SrcList.ones n).cost = 2 * n + 1
  | 0 => rfl
  | n + 1 => by
    simp only [SrcList.ones, SrcList.cost, Src.cost, ones_cost n]
    omega

theorem ones_render : ∀ n, (SrcList.ones n).render = (List.replicate n ['1', ' ']).flatten
  | 0 => rfl
  | n + 1 => by
    simp [SrcList.ones, SrcList.render, Src.core, Src.sep, ones_render n, List.replicate_succ]

theorem ones_render_length (n : Nat) : (SrcList.ones n).render.length = 2 * n := by
  induction n with
  | zero => rfl
  | succ n ih =>
    simp only [SrcList.ones, SrcList.render, Src.core, Src.sep, List.length_append,
      List.length_cons, List.length_nil, ih]
    omega

/-- The text `[ 1 1 .. 1 ] ` with more than 256 numerals is not compiled. -/
theorem compile_ones (n k : Nat) (hlong : 256 < n) (hsize : n < 2305843009213693952) :
    compile (k + (2 * n + 4)) []
        ('[' :: ' ' :: ((List.replicate n ['1', ' ']).flatten ++ [']', ' '])) (2 * n + 4) =
      .error (.uninit "tfdaReserve") := by
  have h := compile_long_list [' '] (SrcList.ones n) [' '] [] [] (k + (2 * n + 4)) (2 * n + 4)
    (by
      simp only [Src.wf]
      exact ⟨by decide, ones_wf n, by decide⟩)
    (ones_atoms n) (by rw [ones_length]; exact hlong) (by rw [ones_length]; exact hsize)
    (by simp) (by simp only [Src.cost, ones_cost]; omega)
    (by
      simp only [Src.core, List.length_cons, List.length_append, List.length_nil,
        ones_render_length]
      omega)
  simp only [Src.core, ones_render, List.nil_append, List.cons_append, List.append_assoc,
    List.singleton_append, List.append_nil] at h
  exact h

/-- C18 (the code against the claim): `compile` does not return a program for
every sequence of well-formed tokens. A list gets its buffer at its first
append, and the count of that buffer is never written; once the buffer of
another list has been moved to a larger block, a first append finds in its new
block a count that is not determined. So (first part) a program that starts
with a bracketed list of more than 256 items, none of them a list, is not
compiled, whatever the budget: the program list gets its first element after
the buffer of that list has grown. The second part is the text `[ `, 257 times
`1 `, `] `. Short of that the claim holds (third part): for every sequence of
fewer than 256 well-formed tokens (decimal numerals below 2^31, names of the
table, `true`, `false`, and bracketed lists of fewer than 256 such tokens,
nested to any depth; every numeral, name and literal followed by at least one
whitespace character, whitespace being free after `[`, before `]` and after
`]`), preceded by any whitespace, in a heap that shows no block given back to
the allocator, and every budget from `cost + 1` on, `compile` returns, and the
program it returns is a List that holds one element per top-level token, in
source order: the Integer `n` for a numeral, the Boolean 1 or 0 for `true` or
`false`, the Symbol of exactly the name for a name of the table, and the List
of what its items denote for a bracketed list. What follows the text in memory
(`tail`) plays no part. -/
theorem C18_compile_stops_after_a_long_list :
    (∀ (lead : List Char) (items : SrcList) (trail ws tail : List Char) (fuel len : Nat),
        (Src.list lead items trail).wf → items.atoms → 256 < items.length →
        items.length < 2305843009213693952 → (∀ w ∈ ws, isspace w = true) →
        (Src.list lead items trail).cost + 1 ≤ fuel →
        ws.length + (Src.list lead items trail).core.length ≤ len →
        compile fuel [] (ws ++ ((Src.list lead items trail).core ++ (trail ++ tail))) len =
          .error (.uninit "tfdaReserve")) ∧
      (∀ k : Nat, compile (k + 518) []
          ("[ ".toList ++ (List.replicate 257 "1 ".toList).flatten ++ "] ".toList) 518 =
        .error (.uninit "tfdaReserve")) ∧
      ∀ (toks : SrcList) (ws tail : List Char) (h : Heap) (fuel : Nat),
        toks.wf → toks.small → toks.narrow → toks.length < 256 → hasReleased h = false →
        (∀ w ∈ ws, isspace w = true) → toks.cost + 1 ≤ fuel →
        ∃ blk : Heap,
          compile fuel h (ws ++ (toks.render ++ tail)) (ws.length + toks.render.length) =
              .ok (h ++ blk, h.length) ∧
            ∀ k, toks.depth + 1 ≤ k →
              readback k (h ++ blk) h.length = some (.list toks.values) :=
  ⟨fun lead items trail ws tail fuel len hwf hat hlong hsize hws hfuel hlen =>
      compile_long_list lead items trail ws tail fuel len hwf hat hlong hsize hws hfuel hlen,
    fun k => compile_ones 257 k (by decide) (by decide),
    fun toks ws tail h fuel hwf hsmall hnar hlen hrel hws hfuel =>
      compile_narrow toks ws tail h fuel hwf hsmall hnar hlen hrel hws hfuel⟩

/-- C18 on the text `12 dup [ true [ + ] ] false` followed by a newline, which
is short of the defect: the program has the four elements 12, `dup`, the list
of `true` and the list of `+`, and `false`. -/
theorem C18_compile_12_dup_list_false :
    ∃ blk : Heap,
      compile 20 [] "12 dup [ true [ + ] ] false\n".toList 28 = .ok (blk, 0) ∧
        ∀ k, 4 ≤ k → readback k blk 0 =
          some (.list [.int 12, .symbol "dup".toList,
            .list [.bool 1, .list [.symbol "+".toList]], .bool 0]) := by
  obtain ⟨blk, h1, h2⟩ := C18_compile_stops_after_a_long_list.2.2
    (.cons (.num ['1', '2'] [' '])
      (.cons (.sym ⟨['d', 'u', 'p'], 3, .dupOperation⟩ [' '])
        (.cons (.list [' ']
            (.cons (.bool true [' '])
              (.cons (.list [' '] (.cons (.sym ⟨['+'], 1, .addOperation⟩ [' ']) .nil) [' '])
                .nil)) [' '])
          (.cons (.bool false ['\n']) .nil))))
    [] [] [] 20
    (by simp [SrcList.wf, Src.wf, tfsymop]; decide)
    (by simp only [SrcList.small, Src.small, and_true]; decide!)
    (by simp [SrcList.narrow, Src.narrow, SrcList.length])
    (by simp [SrcList.length]) rfl
    (by simp) (by simp [SrcList.cost, Src.cost])
  have v1 : decimalValue ['1', '2'] = 12 := by decide!
  refine ⟨blk, ?_, fun k hk => ?_⟩
  · simpa [Src.core, SrcList.render, Src.sep, boolText] using h1
  · have := h2 k (by simpa [Src.depth, SrcList.depth] using hk)
    simpa [SrcList.values, Src.value, v1] using this

/-! ## Reference counts are exact -/

theorem Safe.bind {α β : Type} {P : α → Prop} {Q : β → Prop} {r : Except Stop α}
    {f : α → Except Stop β} (hr : Safe P r) (hf : ∀ a, P a → Safe Q (f a)) :
    Safe Q (r >>= f) := by
  cases r with
  | error e => exact hr
  | ok a => exact hf a hr

theorem load_error {h : Heap} {a : Nat} {e : Stop} (hl : load h a = .error e) :
    e = .fault "load" := by
  simp only [load] at hl
  split at hl
  · cases hl
  · cases hl
    rfl

end ToyForth
